import Mathlib

/-!
Verification of the Two-Way substring search engine (memmem/twoway.rs).

The development shallowly embeds the Rust source into Lean: byte strings
become `List Nat`, loops become fuel-indexed structural recursions (the
canonical fuel is always sufficient, which is proved where a claim needs
it), and every haystack or needle read inside the search loops goes
through `List.get?` so that an out-of-bounds read is observable as a
distinguished `oob` result.  Parts of the crate that are referenced but
whose source is not part of this tree (the `util` byte-string helpers,
`memchr`, `memrchr`, the `rabinkarp` fallback, and the `Freqy`
prefilter) are modelled from the specification; each such definition
carries a doc comment saying so.
-/

namespace Twoway

/-- Bytes are modelled as natural numbers.  The Rust code stores `u8`
values; no byte arithmetic other than `b % 64` (in the byteset) occurs,
and that computation agrees with `u8` semantics on values below 256 and
is total on all of `Nat`. -/
abbrev Byte := Nat

/-- The needle occurs in the haystack at start index `i`:
`haystack[i .. i + needle.length] = needle`. -/
def MatchAt (needle haystack : List Byte) (i : Nat) : Prop :=
  (haystack.drop i).take needle.length = needle

instance (needle haystack : List Byte) (i : Nat) : Decidable (MatchAt needle haystack i) := by
  unfold MatchAt; infer_instance

/-- Reference forward search: the least index `j ≥ i` at which the needle
occurs, scanning upward. -/
def naive_find_from (haystack needle : List Byte) (i : Nat) : Option Nat :=
  if h : i + needle.length ≤ haystack.length then
    if (haystack.drop i).take needle.length = needle then some i
    else naive_find_from haystack needle (i + 1)
  else none
termination_by haystack.length + 1 - i
decreasing_by omega

/-- Reference forward search from the start of the haystack. -/
def naive_find (haystack needle : List Byte) : Option Nat :=
  naive_find_from haystack needle 0

/-- Reference backward search: the greatest index `j ≤ i` at which the
needle occurs, scanning downward. -/
def naive_rfind_from (haystack needle : List Byte) : Nat → Option Nat
  | 0 =>
    if needle.length ≤ haystack.length ∧ haystack.take needle.length = needle then some 0
    else none
  | j + 1 =>
    if j + 1 + needle.length ≤ haystack.length ∧
        (haystack.drop (j + 1)).take needle.length = needle then
      some (j + 1)
    else naive_rfind_from haystack needle j

/-- Reference backward search over the whole haystack. -/
def naive_rfind (haystack needle : List Byte) : Option Nat :=
  naive_rfind_from haystack needle (haystack.length - needle.length)

/-- Modelled from the spec: `crate::memchr` is not part of this tree.
Section 1 of the spec lists "single-byte scan primitives for forward and
reverse single-byte search" as external collaborators; the forward one
returns the position of the first occurrence of the byte. -/
def memchr (b : Byte) (haystack : List Byte) : Option Nat :=
  haystack.findIdx? (· = b)

/-- Modelled from the spec: `crate::memrchr` is not part of this tree; it
is the reverse single-byte scan, returning the position of the last
occurrence of the byte. -/
def memrchr (b : Byte) (haystack : List Byte) : Option Nat :=
  match haystack.reverse.findIdx? (· = b) with
  | none => none
  | some i => some (haystack.length - 1 - i)

/-- Modelled from the spec: `rabinkarp::find_with` is not part of this
tree.  The spec describes it as "a rolling-hash fallback used on very
short haystacks", i.e. a complete substring search returning the
leftmost occurrence. -/
def rabinkarp_find (haystack needle : List Byte) : Option Nat :=
  naive_find haystack needle

/-! ### Suffix extraction (`Suffix::forward`, `Suffix::reverse`) -/

/-- The result of comparing corresponding bytes between two suffixes. -/
inductive SuffixOrdering
  | Accept
  | Skip
  | Push
deriving DecidableEq, Repr

/-- The kind of suffix to extract. -/
inductive SuffixKind
  | Minimal
  | Maximal
deriving DecidableEq, Repr

/-- Mirrors `SuffixKind::cmp`: decides whether the candidate byte should
replace, drop, or extend the comparison with the current suffix. -/
def SuffixKind.cmp (kind : SuffixKind) (current candidate : Byte) : SuffixOrdering :=
  match kind with
  | .Minimal =>
    if candidate < current then .Accept
    else if candidate > current then .Skip
    else .Push
  | .Maximal =>
    if candidate > current then .Accept
    else if candidate < current then .Skip
    else .Push

/-- A suffix extracted from a needle along with its period.  For forward
suffixes `pos` is an inclusive start; for reverse suffixes it is an
exclusive end. -/
structure Suffix where
  pos : Nat
  period : Nat
deriving DecidableEq, Repr

/-- The loop of `Suffix::forward`, made structural with a fuel argument.
State: current suffix `(pos, period)`, candidate start and comparison
offset.  With fuel at least `suffix_fuel needle` the fuel is never
exhausted (proved below); on exhaustion the current suffix is returned. -/
def suffix_forward_loop (needle : List Byte) (kind : SuffixKind) :
    Nat → Nat → Nat → Nat → Nat → Suffix
  | 0, pos, period, _, _ => ⟨pos, period⟩
  | fuel + 1, pos, period, candidate_start, offset =>
    if candidate_start + offset < needle.length then
      let current := needle.getD (pos + offset) 0
      let candidate := needle.getD (candidate_start + offset) 0
      match kind.cmp current candidate with
      | .Accept =>
        suffix_forward_loop needle kind fuel candidate_start 1 (candidate_start + 1) 0
      | .Skip =>
        suffix_forward_loop needle kind fuel pos (candidate_start + offset + 1 - pos)
          (candidate_start + offset + 1) 0
      | .Push =>
        if offset + 1 = period then
          suffix_forward_loop needle kind fuel pos period (candidate_start + period) 0
        else
          suffix_forward_loop needle kind fuel pos period candidate_start (offset + 1)
    else ⟨pos, period⟩

/-- Canonical fuel for the suffix-extraction loops: an upper bound on the
number of iterations. -/
def suffix_fuel (needle : List Byte) : Nat :=
  (needle.length + 1) * (needle.length + 1)

/-- Mirrors `Suffix::forward`: extract the maximal (or minimal) suffix of
the needle together with its period. -/
def Suffix.forward (needle : List Byte) (kind : SuffixKind) : Suffix :=
  suffix_forward_loop needle kind (suffix_fuel needle) 0 1 1 0

/-- The loop of `Suffix::reverse`, fuel-indexed like the forward one. -/
def suffix_reverse_loop (needle : List Byte) (kind : SuffixKind) :
    Nat → Nat → Nat → Nat → Nat → Suffix
  | 0, pos, period, _, _ => ⟨pos, period⟩
  | fuel + 1, pos, period, candidate_start, offset =>
    if offset < candidate_start then
      let current := needle.getD (pos - offset - 1) 0
      let candidate := needle.getD (candidate_start - offset - 1) 0
      match kind.cmp current candidate with
      | .Accept =>
        suffix_reverse_loop needle kind fuel candidate_start 1 (candidate_start - 1) 0
      | .Skip =>
        suffix_reverse_loop needle kind fuel pos (pos - (candidate_start - (offset + 1)))
          (candidate_start - (offset + 1)) 0
      | .Push =>
        if offset + 1 = period then
          suffix_reverse_loop needle kind fuel pos period (candidate_start - period) 0
        else
          suffix_reverse_loop needle kind fuel pos period candidate_start (offset + 1)
    else ⟨pos, period⟩

/-- Mirrors `Suffix::reverse`. -/
def Suffix.reverse (needle : List Byte) (kind : SuffixKind) : Suffix :=
  if needle.length = 1 then ⟨needle.length, 1⟩
  else suffix_reverse_loop needle kind (suffix_fuel needle) needle.length 1 (needle.length - 1) 0

/-! ### Shift computation (`Shift::forward`, `Shift::reverse`) -/

/-- Modelled from the spec: `util::is_suffix` is not part of this tree.
The data-model invariant (spec section 3) states that in the `Small`
regime "`needle[0..c]` is a suffix of `needle[c..c+period]`", the
rationale in section 4.3 says the small branch needs "`u` a suffix of
the period-length window of `v`", and the section 8 scenario table makes
`"abcabc"` Small-regime; so `is_suffix h n` tests whether `n` is a
suffix of `h`. -/
def is_suffix (haystack needle : List Byte) : Bool :=
  needle.length ≤ haystack.length ∧ haystack.drop (haystack.length - needle.length) = needle

/-- Modelled from the spec: `util::is_prefix` is not part of this tree.
Mirror image of `is_suffix` (spec section 4.3: the reverse small branch
needs "`u` a prefix of the period-length window of `v`"): `is_prefix_of h n`
tests whether `n` is a prefix of `h`. -/
def is_prefix_of (haystack needle : List Byte) : Bool :=
  needle.length ≤ haystack.length ∧ haystack.take needle.length = needle

/-- The amount we are allowed to shift by during Two-Way search: the
small-period and large-period regimes. -/
inductive Shift
  | Small (period : Nat)
  | Large (shift : Nat)
deriving DecidableEq, Repr

/-- Mirrors `Shift::forward`.  The slice `v[..period_lower_bound]` is
modelled with `List.take`, which is total; the in-bounds condition
`period_lower_bound ≤ v.length` for the constructed searchers is proved
separately. -/
def Shift.forward (needle : List Byte) (period_lower_bound critical_pos : Nat) : Shift :=
  let large := max critical_pos (needle.length - critical_pos)
  if needle.length ≤ critical_pos * 2 then .Large large
  else
    let u := needle.take critical_pos
    let v := needle.drop critical_pos
    if ! is_suffix (v.take period_lower_bound) u then .Large large
    else .Small period_lower_bound

/-- Mirrors `Shift::reverse`. -/
def Shift.reverse (needle : List Byte) (period_lower_bound critical_pos : Nat) : Shift :=
  let large := max critical_pos (needle.length - critical_pos)
  if needle.length ≤ (needle.length - critical_pos) * 2 then .Large large
  else
    let v := needle.take critical_pos
    let u := needle.drop critical_pos
    if ! is_prefix_of (v.drop (v.length - period_lower_bound)) u then .Large large
    else .Small period_lower_bound

/-! ### Approximate byte set -/

/-- A 64-bit bitset: bit `i` is set iff some needle byte `b` has
`b % 64 = i`.  All values stay below `2 ^ 64`, so `Nat` faithfully
models the `u64`. -/
structure ApproximateByteSet where
  bits : Nat
deriving DecidableEq, Repr

/-- Mirrors `ApproximateByteSet::new`. -/
def ApproximateByteSet.new (needle : List Byte) : ApproximateByteSet :=
  ⟨needle.foldl (fun bits b => bits ||| (1 <<< (b % 64))) 0⟩

/-- Mirrors `ApproximateByteSet::contains`. -/
def ApproximateByteSet.contains (s : ApproximateByteSet) (b : Byte) : Bool :=
  s.bits &&& (1 <<< (b % 64)) ≠ 0

/-! ### Searcher construction -/

/-- The precomputed state of a Two-Way searcher: the needle, the byteset,
the critical position, and the shift regime.  The prefilter handle
(`Freqy`, external to this tree) is passed separately to the search
functions. -/
structure TwoWay where
  needle : List Byte
  byteset : ApproximateByteSet
  critical_pos : Nat
  shift : Shift
deriving DecidableEq, Repr

/-- Mirrors `TwoWay::empty`. -/
def TwoWay.empty : TwoWay :=
  ⟨[], ApproximateByteSet.new [], 0, .Large 0⟩

/-- The pair `(period_lower_bound, critical_pos)` computed by
`Forward::new`: both suffix kinds are extracted and the one starting
further right wins (ties go to Maximal, as the comparison is strict). -/
def forward_params (needle : List Byte) : Nat × Nat :=
  let min_suffix := Suffix.forward needle SuffixKind.Minimal
  let max_suffix := Suffix.forward needle SuffixKind.Maximal
  if min_suffix.pos > max_suffix.pos then (min_suffix.period, min_suffix.pos)
  else (max_suffix.period, max_suffix.pos)

/-- Mirrors `Forward::new` (minus the prefilter construction, which only
selects the prefilter oracle used at search time). -/
def Forward.new (needle : List Byte) : TwoWay :=
  if needle.isEmpty then TwoWay.empty
  else
    let pc := forward_params needle
    ⟨needle, ApproximateByteSet.new needle, pc.2, Shift.forward needle pc.1 pc.2⟩

/-- The pair `(period_lower_bound, critical_pos)` computed by
`Reverse::new`: the suffix whose end position is further left wins. -/
def reverse_params (needle : List Byte) : Nat × Nat :=
  let min_suffix := Suffix.reverse needle SuffixKind.Minimal
  let max_suffix := Suffix.reverse needle SuffixKind.Maximal
  if min_suffix.pos < max_suffix.pos then (min_suffix.period, min_suffix.pos)
  else (max_suffix.period, max_suffix.pos)

/-- Mirrors `Reverse::new`. -/
def Reverse.new (needle : List Byte) : TwoWay :=
  if needle.isEmpty then TwoWay.empty
  else
    let pc := reverse_params needle
    ⟨needle, ApproximateByteSet.new needle, pc.2, Shift.reverse needle pc.1 pc.2⟩

/-! ### Prefilter interface

The `Freqy` prefilter and its `PrefilterState` are external
collaborators (spec section 1).  Modelled from the spec, section 4.7:
the core consumes the prefilter through `find` (advance to the next
candidate offset within a slice, `none` when exhausted, threading an
effectiveness-tracking state) and `is_effective` (once false, the
prefilter stays disengaged).  The search functions are parametric in the
oracle; the soundness contract a genuine prefilter satisfies is
`PreOracle.Sound` below. -/

/-- A prefilter oracle together with its state type: the interface the
core requires from `Freqy` and `PrefilterState` (spec section 4.7). -/
structure PreOracle (σ : Type) where
  is_effective : σ → Bool
  find : σ → List Byte → List Byte → Option (Nat × σ)

/-- The construction-time inert prefilter (`Freqy::inert`): always
reports ineffectiveness, so its `find` is never consulted. -/
def inertOracle : PreOracle Unit :=
  ⟨fun _ => false, fun _ _ _ => none⟩

/-- The contract a prefilter must satisfy (spec sections 2 and 4.7): it
advances to the next candidate position, so it never skips an
occurrence, and it reports exhaustion only when no occurrence remains. -/
def PreOracle.Sound {σ : Type} (p : PreOracle σ) : Prop :=
  ∀ s hay ndl,
    (∀ k s', p.find s hay ndl = some (k, s') → ∀ j < k, ¬ MatchAt ndl hay j) ∧
    (p.find s hay ndl = none → ∀ j, ¬ MatchAt ndl hay j)

/-- Mirrors `min_prefilter_len`.  The haystack argument is unused, as in
the source. -/
def min_prefilter_len (_haystack needle : List Byte) : Nat :=
  max 16 (2 * needle.length)

/-- Mirrors `should_prefilter`. -/
def should_prefilter {σ : Type} (p : PreOracle σ) (s : σ) (haystack needle : List Byte) : Bool :=
  p.is_effective s && min_prefilter_len haystack needle < haystack.length

/-! ### Search loops

All byte reads go through `List.get?`; a `none` makes the search return
the distinguished `oob` result, so in-bounds reasoning is observable.
The outer loops carry a fuel argument (exhaustion also yields `oob`);
the canonical fuel `haystack.length + 1` is sufficient, which is proved
for the safety claim. -/

/-- The result of a search in the total embedding: a match position, no
match, or an out-of-bounds read (equivalently fuel exhaustion) — the
last of which never happens, as proved below. -/
inductive SearchResult
  | found (i : Nat)
  | nomatch
  | oob
deriving DecidableEq, Repr

/-- Wraps the option results of the external primitives. -/
def ofOption : Option Nat → SearchResult
  | some i => .found i
  | none => .nomatch

/-- An upward scan: `while j < bound ∧ needle j = haystack (base + j) { j += 1 }`,
returning the final `j`, or `none` on an out-of-bounds read.  The
`remaining` argument is `bound - j`, making the recursion structural. -/
def scan_up_aux (ndl hay : List Byte) (base : Nat) : Nat → Nat → Option Nat
  | j, 0 => some j
  | j, r + 1 =>
    match ndl.get? j, hay.get? (base + j) with
    | some a, some b => if a = b then scan_up_aux ndl hay base (j + 1) r else some j
    | _, _ => none

/-- Mirrors `while j < bound && needle[j] == haystack[base + j] { j += 1 }`. -/
def scan_up (ndl hay : List Byte) (base bound j : Nat) : Option Nat :=
  scan_up_aux ndl hay base j (bound - j)

/-- Mirrors `while j > shift && needle[j] == haystack[pos + j] { j -= 1 }`
(the left scan of the forward small-period loop), returning the final
`j`. -/
def scan_down (ndl hay : List Byte) (pos shift : Nat) : Nat → Option Nat
  | 0 => some 0
  | j + 1 =>
    if shift < j + 1 then
      match ndl.get? (j + 1), hay.get? (pos + (j + 1)) with
      | some a, some b => if a = b then scan_down ndl hay pos shift j else some (j + 1)
      | _, _ => none
    else some (j + 1)

/-- Mirrors `for j in (0..crit).rev() { if needle[j] != haystack[pos + j] ... }`
(the left check of the forward large-period loop): `some true` when all
positions below the argument match, `some false` at the first (highest)
mismatch. -/
def check_left (ndl hay : List Byte) (pos : Nat) : Nat → Option Bool
  | 0 => some true
  | j + 1 =>
    match ndl.get? j, hay.get? (pos + j) with
    | some a, some b => if a = b then check_left ndl hay pos j else some false
    | _, _ => none

/-- Mirrors `while i > 0 && needle[i-1] == haystack[base + i - 1] { i -= 1 }`
(the left scan of the reverse loops), returning the final `i`. -/
def scan_down_rev (ndl hay : List Byte) (base : Nat) : Nat → Option Nat
  | 0 => some 0
  | i + 1 =>
    match ndl.get? i, hay.get? (base + i) with
    | some a, some b => if a = b then scan_down_rev ndl hay base i else some (i + 1)
    | _, _ => none

/-- One prefilter step at the head of a loop iteration: when the
prefilter is engaged and effective, advance by its candidate offset
(`none` when it reports exhaustion, which aborts the whole search with
`nomatch`); the boolean records whether it ran. -/
def pre_step {σ : Type} (pre : PreOracle σ) (prefilter : Bool) (s : σ)
    (haystack needle : List Byte) (pos : Nat) : Option (Nat × σ × Bool) :=
  if prefilter && pre.is_effective s then
    match pre.find s (haystack.drop pos) needle with
    | none => none
    | some (k, s') => some (pos + k, s', true)
  else some (pos, s, false)

/-- Mirrors `Forward::find_small_imp`.  The bounds re-check after the
prefilter advance is performed unconditionally: when the prefilter did
not run, the position is unchanged and the loop guard already
established the bound, so the check is false and the behaviour is
identical to the source. -/
def find_small_imp {σ : Type} (pre : PreOracle σ) (tw : TwoWay) (haystack needle : List Byte)
    (period : Nat) (prefilter : Bool) : Nat → σ → Nat → Nat → SearchResult
  | 0, _, _, _ => .oob
  | fuel + 1, s, pos0, shift0 =>
    if pos0 + needle.length ≤ haystack.length then
      match pre_step pre prefilter s haystack needle pos0 with
      | none => .nomatch
      | some (pos, s1, ran) =>
        let shift := if ran then 0 else shift0
        let i0 := if ran then tw.critical_pos else max tw.critical_pos shift0
        if haystack.length < pos + needle.length then .nomatch
        else
          match haystack.get? (pos + (needle.length - 1)) with
          | none => .oob
          | some lastb =>
            if ! tw.byteset.contains lastb then
              find_small_imp pre tw haystack needle period prefilter fuel s1
                (pos + needle.length) 0
            else
              match scan_up needle haystack pos needle.length i0 with
              | none => .oob
              | some i =>
                if i < needle.length then
                  find_small_imp pre tw haystack needle period prefilter fuel s1
                    (pos + (i - tw.critical_pos + 1)) 0
                else
                  match scan_down needle haystack pos shift tw.critical_pos with
                  | none => .oob
                  | some j =>
                    if j ≤ shift then
                      match needle.get? shift, haystack.get? (pos + shift) with
                      | some a, some b =>
                        if a = b then .found pos
                        else
                          find_small_imp pre tw haystack needle period prefilter fuel s1
                            (pos + period) (needle.length - period)
                      | _, _ => .oob
                    else
                      find_small_imp pre tw haystack needle period prefilter fuel s1
                        (pos + period) (needle.length - period)
    else .nomatch

/-- Mirrors `Forward::find_large_imp`, with the same remark about the
post-prefilter bounds check as in `find_small_imp`. -/
def find_large_imp {σ : Type} (pre : PreOracle σ) (tw : TwoWay) (haystack needle : List Byte)
    (shift : Nat) (prefilter : Bool) : Nat → σ → Nat → SearchResult
  | 0, _, _ => .oob
  | fuel + 1, s, pos0 =>
    if pos0 + needle.length ≤ haystack.length then
      match pre_step pre prefilter s haystack needle pos0 with
      | none => .nomatch
      | some (pos, s1, _) =>
        if haystack.length < pos + needle.length then .nomatch
        else
          match haystack.get? (pos + (needle.length - 1)) with
          | none => .oob
          | some lastb =>
            if ! tw.byteset.contains lastb then
              find_large_imp pre tw haystack needle shift prefilter fuel s1 (pos + needle.length)
            else
              match scan_up needle haystack pos needle.length tw.critical_pos with
              | none => .oob
              | some i =>
                if i < needle.length then
                  find_large_imp pre tw haystack needle shift prefilter fuel s1
                    (pos + (i - tw.critical_pos + 1))
                else
                  match check_left needle haystack pos tw.critical_pos with
                  | none => .oob
                  | some ok =>
                    if ok then .found pos
                    else find_large_imp pre tw haystack needle shift prefilter fuel s1 (pos + shift)
    else .nomatch

/-- Mirrors `Forward::find_with_imp`: dispatch on the shift regime and on
whether the prefilter should run. -/
def find_with_imp {σ : Type} (pre : PreOracle σ) (s : σ) (tw : TwoWay)
    (haystack needle : List Byte) : SearchResult :=
  match tw.shift with
  | .Small period =>
    if should_prefilter pre s haystack needle then
      find_small_imp pre tw haystack needle period true (haystack.length + 1) s 0 0
    else
      find_small_imp pre tw haystack needle period false (haystack.length + 1) s 0 0
  | .Large shift =>
    if should_prefilter pre s haystack needle then
      find_large_imp pre tw haystack needle shift true (haystack.length + 1) s 0
    else
      find_large_imp pre tw haystack needle shift false (haystack.length + 1) s 0

/-- Mirrors `Forward::find_with`: the dispatch between the empty-needle,
single-byte, short-haystack and Two-Way paths. -/
def Forward.find_with {σ : Type} (pre : PreOracle σ) (s : σ) (tw : TwoWay)
    (haystack : List Byte) : SearchResult :=
  let needle := tw.needle
  if needle.length ≤ 1 then
    if needle.isEmpty then .found 0
    else ofOption (memchr (needle.getD 0 0) haystack)
  else if haystack.length < needle.length then .nomatch
  else if haystack.length < min_prefilter_len haystack needle then
    ofOption (rabinkarp_find haystack needle)
  else find_with_imp pre s tw haystack needle

/-- Mirrors `Reverse::rfind_small_imp`. -/
def rfind_small_imp (tw : TwoWay) (haystack needle : List Byte) (period : Nat) :
    Nat → Nat → Nat → SearchResult
  | 0, _, _ => .oob
  | fuel + 1, pos, shift =>
    if needle.length ≤ pos then
      match haystack.get? (pos - needle.length) with
      | none => .oob
      | some b =>
        if ! tw.byteset.contains b then
          rfind_small_imp tw haystack needle period fuel (pos - needle.length) needle.length
        else
          match scan_down_rev needle haystack (pos - needle.length)
              (min tw.critical_pos shift) with
          | none => .oob
          | some i =>
            if 0 < i then
              rfind_small_imp tw haystack needle period fuel
                (pos - (tw.critical_pos - i + 1)) needle.length
            else
              match needle.get? 0 with
              | none => .oob
              | some n0 =>
                if n0 ≠ b then
                  rfind_small_imp tw haystack needle period fuel
                    (pos - (tw.critical_pos + 1)) needle.length
                else
                  match scan_up needle haystack (pos - needle.length) shift
                      tw.critical_pos with
                  | none => .oob
                  | some j =>
                    if j = shift then .found (pos - needle.length)
                    else rfind_small_imp tw haystack needle period fuel (pos - period) period
    else .nomatch

/-- Mirrors `Reverse::rfind_large_imp`. -/
def rfind_large_imp (tw : TwoWay) (haystack needle : List Byte) (shift : Nat) :
    Nat → Nat → SearchResult
  | 0, _ => .oob
  | fuel + 1, pos =>
    if needle.length ≤ pos then
      match haystack.get? (pos - needle.length) with
      | none => .oob
      | some b =>
        if ! tw.byteset.contains b then
          rfind_large_imp tw haystack needle shift fuel (pos - needle.length)
        else
          match scan_down_rev needle haystack (pos - needle.length) tw.critical_pos with
          | none => .oob
          | some i =>
            if 0 < i then
              rfind_large_imp tw haystack needle shift fuel (pos - (tw.critical_pos - i + 1))
            else
              match needle.get? 0 with
              | none => .oob
              | some n0 =>
                if n0 ≠ b then
                  rfind_large_imp tw haystack needle shift fuel (pos - (tw.critical_pos + 1))
                else
                  match scan_up needle haystack (pos - needle.length) needle.length
                      tw.critical_pos with
                  | none => .oob
                  | some j =>
                    if j = needle.length then .found (pos - needle.length)
                    else rfind_large_imp tw haystack needle shift fuel (pos - shift)
    else .nomatch

/-- Mirrors `Reverse::rfind`: the reverse dispatch (no prefilter, no
rolling-hash fallback). -/
def Reverse.rfind (tw : TwoWay) (haystack : List Byte) : SearchResult :=
  let needle := tw.needle
  if needle.isEmpty then .found haystack.length
  else if haystack.length < needle.length then .nomatch
  else if needle.length = 1 then ofOption (memrchr (needle.getD 0 0) haystack)
  else
    match tw.shift with
    | .Small period =>
      rfind_small_imp tw haystack needle period (haystack.length + 1) haystack.length
        needle.length
    | .Large shift =>
      rfind_large_imp tw haystack needle shift (haystack.length + 1) haystack.length

/-! ### Reference definitions for the suffix extraction (C4) -/

/-- Modelled from the spec: the naive reference for C4 — the
lexicographically maximum element of the set of suffixes
`{ n[i..] : 0 ≤ i < |n| }` (the spec's sort-and-pick computes the same
value, namely the greatest element). -/
def lex_max_suffix (needle : List Byte) : List Byte :=
  ((List.range needle.length).map (fun i => needle.drop i)).foldl max []

/-- The loop invariant of the forward maximal-suffix extraction
(`Suffix::forward` with `SuffixKind::Maximal`): the period divides the
candidate gap, the scanned window is periodic, every proper suffix of
the period word strictly loses within it, and every discarded start is
lexicographically dominated by some other suffix. -/
def MaxInv (x : List Byte) (s p c o : Nat) : Prop :=
  0 < p ∧ p ∣ (c - s) ∧ s + p ≤ c ∧ o < p ∧ c + o ≤ x.length ∧
  (∀ a, s ≤ a → a + p < c + o → x.getD a 0 = x.getD (a + p) 0) ∧
  (∀ i, 0 < i → i < p → ∃ t, t < p - i ∧
    (∀ u, u < t → x.getD (s + i + u) 0 = x.getD (s + u) 0) ∧
    x.getD (s + i + t) 0 < x.getD (s + t) 0) ∧
  (∀ r, r < c → r ≠ s → ∃ r2, x.drop r < x.drop r2)

/-- The strict "loses to" relation on bytes for the given suffix kind:
for `Maximal` a smaller byte loses, for `Minimal` a larger byte loses. -/
def kindR (kind : SuffixKind) (a b : Byte) : Prop :=
  match kind with
  | .Maximal => a < b
  | .Minimal => b < a

/-- The kind-generic part of the suffix-extraction loop invariant (no
lexicographic dominance): periodicity of the scanned window together
with strict self-maximality of the period word for the kind's order. -/
def SuffInv (kind : SuffixKind) (x : List Byte) (s p c o : Nat) : Prop :=
  0 < p ∧ p ∣ (c - s) ∧ s + p ≤ c ∧ o < p ∧ c + o ≤ x.length ∧
  (∀ a, s ≤ a → a + p < c + o → x.getD a 0 = x.getD (a + p) 0) ∧
  (∀ i, 0 < i → i < p → ∃ t, t < p - i ∧
    (∀ u, u < t → x.getD (s + i + u) 0 = x.getD (s + u) 0) ∧
    kindR kind (x.getD (s + i + t) 0) (x.getD (s + t) 0))

/-- Modelled from the spec (Definitions): `p ≥ 1` is a period of `s`
when `s[i] == s[i+p]` for all valid `i`; the period of `s` is the
smallest such `p`. -/
def IsPeriodOf (p : Nat) (s : List Byte) : Prop :=
  0 < p ∧ ∀ i, i + p < s.length → s.getD i 0 = s.getD (i + p) 0

/-- A clipped local period at position `c`: the period condition for
exactly the pairs straddling `c` (the left arm of a local repetition at
the critical position, clipped to the word). -/
def LocalAt (x : List Byte) (c r : Nat) : Prop :=
  ∀ j, j < c → c ≤ j + r → j + r < x.length → x.getD j 0 = x.getD (j + r) 0

/-- The largest byte of a word (`0` for the empty word); used to dualize
the byte order. -/
def listMaxB (x : List Byte) : Byte :=
  x.foldr max 0

/-- The order-dual of a word: every byte `b` is replaced by
`listMaxB x - b`, which reverses all strict comparisons between bytes of
`x`.  A minimal-suffix extraction on `x` is a maximal-suffix extraction
on `dualize x`. -/
def dualize (x : List Byte) : List Byte :=
  x.map (fun b => listMaxB x - b)

/-- A degenerate but contract-abiding prefilter oracle: it always
reports ineffectiveness and, if consulted anyway, advances by zero.
Used to instantiate sound-oracle hypotheses at a concrete value. -/
def trivialOracle : PreOracle Unit :=
  ⟨fun _ => false, fun _ _ _ => some (0, ())⟩

/-! ## Basic characterizations -/

lemma is_suffix_iff (h n : List Byte) : is_suffix h n = true ↔ n <:+ h := by
  simp only [is_suffix, decide_eq_true_eq]
  constructor
  · rintro ⟨hle, hdrop⟩
    exact hdrop ▸ List.drop_suffix _ h
  · intro hs
    refine ⟨hs.length_le, ?_⟩
    exact (List.suffix_iff_eq_drop.mp hs).symm

lemma is_prefix_of_iff (h n : List Byte) : is_prefix_of h n = true ↔ n <+: h := by
  simp only [is_prefix_of, decide_eq_true_eq]
  constructor
  · rintro ⟨hle, htake⟩
    exact htake ▸ List.take_prefix _ h
  · intro hs
    refine ⟨hs.length_le, ?_⟩
    exact (List.prefix_iff_eq_take.mp hs).symm

/-- Characterization of `Shift::forward` in terms of the mathematical
suffix relation. -/
lemma shift_forward_eq (needle : List Byte) (p c : Nat) :
    Shift.forward needle p c =
      if needle.length ≤ c * 2 then Shift.Large (max c (needle.length - c))
      else if needle.take c <:+ (needle.drop c).take p then Shift.Small p
      else Shift.Large (max c (needle.length - c)) := by
  unfold Shift.forward
  by_cases h1 : needle.length ≤ c * 2
  · rw [if_pos h1, if_pos h1]
  · rw [if_neg h1, if_neg h1]
    rcases hb : is_suffix ((needle.drop c).take p) (needle.take c) with _ | _
    · have h2 : ¬ (needle.take c <:+ (needle.drop c).take p) := by
        rw [← is_suffix_iff, hb]; simp
      rw [if_neg h2]
      simp [hb]
    · have h2 : needle.take c <:+ (needle.drop c).take p := (is_suffix_iff _ _).mp hb
      rw [if_pos h2]
      simp [hb]

/-- Characterization of `Shift::reverse` in terms of the mathematical
prefix relation. -/
lemma shift_reverse_eq (needle : List Byte) (p c : Nat) :
    Shift.reverse needle p c =
      if needle.length ≤ (needle.length - c) * 2 then
        Shift.Large (max c (needle.length - c))
      else if needle.drop c <+: (needle.take c).drop ((needle.take c).length - p) then
        Shift.Small p
      else Shift.Large (max c (needle.length - c)) := by
  unfold Shift.reverse
  by_cases h1 : needle.length ≤ (needle.length - c) * 2
  · rw [if_pos h1, if_pos h1]
  · rw [if_neg h1, if_neg h1]
    rcases hb : is_prefix_of ((needle.take c).drop ((needle.take c).length - p))
        (needle.drop c) with _ | _
    · have h2 : ¬ (needle.drop c <+: (needle.take c).drop ((needle.take c).length - p)) := by
        rw [← is_prefix_of_iff, hb]; simp
      rw [if_neg h2]
      rw [List.length_take] at hb
      simp [hb]
    · have h2 : needle.drop c <+: (needle.take c).drop ((needle.take c).length - p) :=
        (is_prefix_of_iff _ _).mp hb
      rw [if_pos h2]
      rw [List.length_take] at hb
      simp [hb]

/-! ## Claim C5 -/

/-- C5 counterexample: for the needle "abcabc" with `period_lower_bound
3` and `critical_pos 2` (exactly the parameters `Forward::new` computes
for it), we have `2·c < m` and `v[0..p] = "cab"` is not a suffix of
`u = "ab"`, so the claim as stated demands `Large`; but the code returns
`Small { period: 3 }`. -/
theorem c5_counterexample :
    Shift.forward [97, 98, 99, 97, 98, 99] 3 2 = Shift.Small 3 ∧
    ¬ (([97, 98, 99, 97, 98, 99].drop 2).take 3 <:+ [97, 98, 99, 97, 98, 99].take 2) ∧
    ¬ ([97, 98, 99, 97, 98, 99].length ≤ 2 * 2) := by
  refine ⟨by decide, ?_, by decide⟩
  decide

/-- C5 (amended): `Shift::forward(needle, p, c)` returns
`Large { shift: max(c, m - c) }` whenever `2·c ≥ m`; otherwise it
returns `Small { period: p }` exactly when `u = needle[0..c]` is a
suffix of `v[0..p]` (the first `p` bytes of `v = needle[c..]`), and
`Large { shift: max(c, m - c) }` otherwise. -/
theorem c5_shift_forward_characterization (needle : List Byte) (p c : Nat) :
    Shift.forward needle p c =
      if needle.length ≤ c * 2 then Shift.Large (max c (needle.length - c))
      else if needle.take c <:+ (needle.drop c).take p then Shift.Small p
      else Shift.Large (max c (needle.length - c)) :=
  shift_forward_eq needle p c

/-! ## Claim C6 -/

/-- C6 counterexample: the needle "abba" (here `[0,1,1,0]`) constructs a
forward searcher in the `Small` regime with period 3, but `3 ≤ 4 / 2`
fails, so the claimed bound `period ≤ m / 2` does not hold. -/
theorem c6_counterexample :
    (Forward.new [0, 1, 1, 0]).shift = Shift.Small 3 ∧
    ¬ (3 ≤ [0, 1, 1, 0].length / 2) := by
  refine ⟨by decide, by decide⟩

/-- C6 (amended): for every needle whose constructed forward searcher is
in the `Small` shift regime with period `p` and critical position `c`,
`needle[0..c]` is a suffix of `needle[c..c+p]` and `2·c < m`.  (The
claimed bound `p ≤ m / 2` does not hold; see the counterexample.) -/
theorem c6_small_regime_invariant (needle : List Byte) (p : Nat)
    (h : (Forward.new needle).shift = Shift.Small p) :
    2 * (Forward.new needle).critical_pos < needle.length ∧
    needle.take (Forward.new needle).critical_pos <:+
      (needle.drop (Forward.new needle).critical_pos).take p := by
  by_cases hemp : needle.isEmpty
  · rw [Forward.new, if_pos hemp] at h
    simp [TwoWay.empty] at h
  · rw [Forward.new, if_neg hemp] at h ⊢
    simp only at h ⊢
    rw [shift_forward_eq] at h
    by_cases h1 : needle.length ≤ (forward_params needle).2 * 2
    · simp [h1] at h
    · rw [if_neg h1] at h
      by_cases h2 : needle.take (forward_params needle).2 <:+
          (needle.drop (forward_params needle).2).take (forward_params needle).1
      · exact ⟨by omega, by rw [if_pos h2] at h; cases h; exact h2⟩
      · simp [h2] at h

/-- Witness for C6 at the needle "abcabc". -/
theorem c6_witness :
    2 * (Forward.new [97, 98, 99, 97, 98, 99]).critical_pos <
      [97, 98, 99, 97, 98, 99].length ∧
    [97, 98, 99, 97, 98, 99].take (Forward.new [97, 98, 99, 97, 98, 99]).critical_pos <:+
      ([97, 98, 99, 97, 98, 99].drop
        (Forward.new [97, 98, 99, 97, 98, 99]).critical_pos).take 3 :=
  c6_small_regime_invariant [97, 98, 99, 97, 98, 99] 3 (by decide)

/-! ## Claim C8 -/

/-- C8: for every haystack (including the empty one) and any prefilter
oracle and state, searching with the empty needle yields `Some 0`
forward and `Some |haystack|` in reverse. -/
theorem c8_empty_needle {σ : Type} (pre : PreOracle σ) (s : σ) (haystack : List Byte) :
    Forward.find_with pre s (Forward.new []) haystack = SearchResult.found 0 ∧
    Reverse.rfind (Reverse.new []) haystack = SearchResult.found haystack.length := by
  constructor
  · rw [Forward.find_with]
    simp [Forward.new, TwoWay.empty]
  · rw [Reverse.rfind]
    simp [Reverse.new, TwoWay.empty]

/-! ## Claim C10 -/

/-- Invariant of the forward suffix-extraction loop: the suffix start
stays inside the needle, the period stays positive and never exceeds the
length of the suffix. -/
lemma suffix_forward_loop_bounds (needle : List Byte) (kind : SuffixKind) (fuel : Nat) :
    ∀ pos period cand off, pos < needle.length → pos ≤ cand → 0 < period →
      period ≤ needle.length - pos →
      (suffix_forward_loop needle kind fuel pos period cand off).pos < needle.length ∧
      0 < (suffix_forward_loop needle kind fuel pos period cand off).period ∧
      (suffix_forward_loop needle kind fuel pos period cand off).period ≤
        needle.length - (suffix_forward_loop needle kind fuel pos period cand off).pos := by
  induction fuel with
  | zero =>
    intro pos period cand off h1 h2 h3 h4
    exact ⟨h1, h3, h4⟩
  | succ fuel ih =>
    intro pos period cand off h1 h2 h3 h4
    simp only [suffix_forward_loop]
    by_cases hguard : cand + off < needle.length
    · rw [if_pos hguard]
      split
      · exact ih cand 1 (cand + 1) 0 (by omega) (by omega) (by omega) (by omega)
      · exact ih pos (cand + off + 1 - pos) (cand + off + 1) 0 h1 (by omega)
          (by omega) (by omega)
      · by_cases hoff : off + 1 = period
        · rw [if_pos hoff]
          exact ih pos period (cand + period) 0 h1 (by omega) h3 h4
        · rw [if_neg hoff]
          exact ih pos period cand (off + 1) h1 h2 h3 h4
    · rw [if_neg hguard]
      exact ⟨h1, h3, h4⟩

/-- Invariant of the reverse suffix-extraction loop: the suffix end stays
positive and inside the needle, the period stays positive and never
exceeds the length of the (reverse) suffix. -/
lemma suffix_reverse_loop_bounds (needle : List Byte) (kind : SuffixKind) (fuel : Nat) :
    ∀ pos period cand off, 0 < pos → pos ≤ needle.length → cand < pos → 0 < period →
      period ≤ pos →
      0 < (suffix_reverse_loop needle kind fuel pos period cand off).pos ∧
      (suffix_reverse_loop needle kind fuel pos period cand off).pos ≤ needle.length ∧
      0 < (suffix_reverse_loop needle kind fuel pos period cand off).period ∧
      (suffix_reverse_loop needle kind fuel pos period cand off).period ≤
        (suffix_reverse_loop needle kind fuel pos period cand off).pos := by
  induction fuel with
  | zero =>
    intro pos period cand off h1 h2 h3 h4 h5
    exact ⟨h1, h2, h4, h5⟩
  | succ fuel ih =>
    intro pos period cand off h1 h2 h3 h4 h5
    simp only [suffix_reverse_loop]
    by_cases hguard : off < cand
    · rw [if_pos hguard]
      split
      · exact ih cand 1 (cand - 1) 0 (by omega) (by omega) (by omega) (by omega)
          (by omega)
      · exact ih pos (pos - (cand - (off + 1))) (cand - (off + 1)) 0 h1 h2 (by omega)
          (by omega) (by omega)
      · by_cases hoff : off + 1 = period
        · rw [if_pos hoff]
          exact ih pos period (cand - period) 0 h1 h2 (by omega) h4 h5
        · rw [if_neg hoff]
          exact ih pos period cand (off + 1) h1 h2 h3 h4 h5
    · rw [if_neg hguard]
      exact ⟨h1, h2, h4, h5⟩

/-- Bounds of the forward suffix descriptor. -/
lemma Suffix_forward_bounds (needle : List Byte) (kind : SuffixKind) (h : 0 < needle.length) :
    (Suffix.forward needle kind).pos < needle.length ∧
    0 < (Suffix.forward needle kind).period ∧
    (Suffix.forward needle kind).period ≤
      needle.length - (Suffix.forward needle kind).pos :=
  suffix_forward_loop_bounds needle kind (suffix_fuel needle) 0 1 1 0 h (by omega)
    (by omega) (by omega)

/-- Bounds of the reverse suffix descriptor. -/
lemma Suffix_reverse_bounds (needle : List Byte) (kind : SuffixKind) (h : 0 < needle.length) :
    0 < (Suffix.reverse needle kind).pos ∧
    (Suffix.reverse needle kind).pos ≤ needle.length ∧
    0 < (Suffix.reverse needle kind).period ∧
    (Suffix.reverse needle kind).period ≤ (Suffix.reverse needle kind).pos := by
  rw [Suffix.reverse]
  by_cases h1 : needle.length = 1
  · rw [if_pos h1]
    simp [h1]
  · rw [if_neg h1]
    exact suffix_reverse_loop_bounds needle kind (suffix_fuel needle) needle.length 1
      (needle.length - 1) 0 h (by omega) (by omega) (by omega) (by omega)

/-- Bounds of the selected forward parameters. -/
lemma forward_params_bounds (needle : List Byte) (h : 0 < needle.length) :
    (forward_params needle).2 < needle.length ∧ 0 < (forward_params needle).1 ∧
    (forward_params needle).1 ≤ needle.length - (forward_params needle).2 := by
  have hmin := Suffix_forward_bounds needle SuffixKind.Minimal h
  have hmax := Suffix_forward_bounds needle SuffixKind.Maximal h
  rw [forward_params]
  by_cases hcmp : (Suffix.forward needle SuffixKind.Minimal).pos >
      (Suffix.forward needle SuffixKind.Maximal).pos
  · rw [if_pos hcmp]
    exact ⟨hmin.1, hmin.2.1, hmin.2.2⟩
  · rw [if_neg hcmp]
    exact ⟨hmax.1, hmax.2.1, hmax.2.2⟩

/-- Bounds of the selected reverse parameters. -/
lemma reverse_params_bounds (needle : List Byte) (h : 0 < needle.length) :
    0 < (reverse_params needle).2 ∧ (reverse_params needle).2 ≤ needle.length ∧
    0 < (reverse_params needle).1 ∧ (reverse_params needle).1 ≤ (reverse_params needle).2 := by
  have hmin := Suffix_reverse_bounds needle SuffixKind.Minimal h
  have hmax := Suffix_reverse_bounds needle SuffixKind.Maximal h
  rw [reverse_params]
  by_cases hcmp : (Suffix.reverse needle SuffixKind.Minimal).pos <
      (Suffix.reverse needle SuffixKind.Maximal).pos
  · rw [if_pos hcmp]
    exact hmin
  · rw [if_neg hcmp]
    exact hmax

/-- C10: the suffix descriptors computed at construction satisfy
`0 ≤ pos < m`, `1 ≤ period ≤ m - pos` (forward) and `0 < pos ≤ m`,
`1 ≤ period ≤ pos` (reverse); consequently the period-length window
slices `v[..p]` in `Shift::forward` and `v[v.len() - p..]` in
`Shift::reverse` are in bounds (the window length is at most the length
of `v`), so `Forward::new` and `Reverse::new` never hit an
out-of-bounds slice for any needle. -/
theorem c10_descriptor_bounds (needle : List Byte) (h : 0 < needle.length) :
    (∀ kind, (Suffix.forward needle kind).pos < needle.length ∧
      1 ≤ (Suffix.forward needle kind).period ∧
      (Suffix.forward needle kind).period ≤
        needle.length - (Suffix.forward needle kind).pos) ∧
    (∀ kind, 0 < (Suffix.reverse needle kind).pos ∧
      (Suffix.reverse needle kind).pos ≤ needle.length ∧
      1 ≤ (Suffix.reverse needle kind).period ∧
      (Suffix.reverse needle kind).period ≤ (Suffix.reverse needle kind).pos) ∧
    (forward_params needle).1 ≤ (needle.drop (forward_params needle).2).length ∧
    (reverse_params needle).1 ≤ (needle.take (reverse_params needle).2).length := by
  refine ⟨fun kind => Suffix_forward_bounds needle kind h,
    fun kind => Suffix_reverse_bounds needle kind h, ?_, ?_⟩
  · have hf := forward_params_bounds needle h
    rw [List.length_drop]
    omega
  · have hr := reverse_params_bounds needle h
    rw [List.length_take]
    omega

/-- Witness for C10 at the needle "abba". -/
theorem c10_witness :
    0 < [0, 1, 1, 0].length ∧
    (Suffix.forward [0, 1, 1, 0] SuffixKind.Maximal).pos < [0, 1, 1, 0].length :=
  ⟨by decide, ((c10_descriptor_bounds [0, 1, 1, 0] (by decide)).1 SuffixKind.Maximal).1⟩

/-! ## Claim C9 -/

lemma get?_some_of_lt {l : List Byte} {i : Nat} (h : i < l.length) :
    ∃ a, l.get? i = some a := by
  cases hg : l.get? i with
  | none => rw [List.get?_eq_none] at hg; omega
  | some a => exact ⟨a, rfl⟩

/-- The upward scan makes no out-of-bounds read when the scanned window
is inside both strings. -/
lemma scan_up_aux_ne_none (ndl hay : List Byte) (base : Nat) :
    ∀ r j, j + r ≤ ndl.length → base + j + r ≤ hay.length →
      scan_up_aux ndl hay base j r ≠ none := by
  intro r
  induction r with
  | zero => intro j _ _; simp [scan_up_aux]
  | succ r ih =>
    intro j h1 h2
    obtain ⟨a, ha⟩ := get?_some_of_lt (l := ndl) (i := j) (by omega)
    obtain ⟨b, hb⟩ := get?_some_of_lt (l := hay) (i := base + j) (by omega)
    simp only [scan_up_aux, ha, hb]
    by_cases hab : a = b
    · rw [if_pos hab]
      exact ih (j + 1) (by omega) (by omega)
    · rw [if_neg hab]
      simp

lemma scan_up_ne_none (ndl hay : List Byte) (base bound j : Nat)
    (h1 : j ≤ ndl.length) (h2 : bound ≤ ndl.length)
    (h3 : base + j ≤ hay.length) (h4 : base + bound ≤ hay.length) :
    scan_up ndl hay base bound j ≠ none := by
  rw [scan_up]
  exact scan_up_aux_ne_none ndl hay base (bound - j) j (by omega) (by omega)

/-- The downward scan of the forward small-period loop makes no
out-of-bounds read when its start index is inside both strings. -/
lemma scan_down_ne_none (ndl hay : List Byte) (pos shift : Nat) :
    ∀ j, j < ndl.length → pos + j < hay.length → scan_down ndl hay pos shift j ≠ none := by
  intro j
  induction j with
  | zero => simp [scan_down]
  | succ j ih =>
    intro h1 h2
    by_cases hs : shift < j + 1
    · obtain ⟨a, ha⟩ := get?_some_of_lt (l := ndl) (i := j + 1) h1
      obtain ⟨b, hb⟩ := get?_some_of_lt (l := hay) (i := pos + (j + 1)) h2
      simp only [scan_down, if_pos hs, ha, hb]
      by_cases hab : a = b
      · rw [if_pos hab]
        exact ih (by omega) (by omega)
      · rw [if_neg hab]
        simp
    · simp [scan_down, hs]

/-- The left check of the forward large-period loop makes no
out-of-bounds read when the checked window is inside both strings. -/
lemma check_left_ne_none (ndl hay : List Byte) (pos : Nat) :
    ∀ j, j ≤ ndl.length → pos + j ≤ hay.length → check_left ndl hay pos j ≠ none := by
  intro j
  induction j with
  | zero => simp [check_left]
  | succ j ih =>
    intro h1 h2
    obtain ⟨a, ha⟩ := get?_some_of_lt (l := ndl) (i := j) (by omega)
    obtain ⟨b, hb⟩ := get?_some_of_lt (l := hay) (i := pos + j) (by omega)
    simp only [check_left, ha, hb]
    by_cases hab : a = b
    · rw [if_pos hab]
      exact ih (by omega) (by omega)
    · rw [if_neg hab]
      simp

/-- The left scan of the reverse loops makes no out-of-bounds read when
the scanned window is inside both strings. -/
lemma scan_down_rev_ne_none (ndl hay : List Byte) (base : Nat) :
    ∀ i, i ≤ ndl.length → base + i ≤ hay.length → scan_down_rev ndl hay base i ≠ none := by
  intro i
  induction i with
  | zero => simp [scan_down_rev]
  | succ i ih =>
    intro h1 h2
    obtain ⟨a, ha⟩ := get?_some_of_lt (l := ndl) (i := i) (by omega)
    obtain ⟨b, hb⟩ := get?_some_of_lt (l := hay) (i := base + i) (by omega)
    simp only [scan_down_rev, ha, hb]
    by_cases hab : a = b
    · rw [if_pos hab]
      exact ih (by omega) (by omega)
    · rw [if_neg hab]
      simp

/-- The prefilter step never moves the position backwards. -/
lemma pre_step_mono {σ : Type} (pre : PreOracle σ) (prefilter : Bool) (s : σ)
    (haystack needle : List Byte) (pos : Nat) {pos1 : Nat} {s1 : σ} {ran : Bool}
    (h : pre_step pre prefilter s haystack needle pos = some (pos1, s1, ran)) :
    pos ≤ pos1 := by
  rw [pre_step] at h
  by_cases hp : (prefilter && pre.is_effective s) = true
  · rw [if_pos hp] at h
    cases hf : pre.find s (haystack.drop pos) needle with
    | none => rw [hf] at h; cases h
    | some ks =>
      rw [hf] at h
      cases h
      omega
  · rw [if_neg hp] at h
    cases h
    omega

/-- The forward small-period loop never reads out of bounds nor runs out
of fuel, given the construction invariants and enough fuel. -/
lemma find_small_imp_ne_oob {σ : Type} (pre : PreOracle σ) (tw : TwoWay)
    (haystack needle : List Byte) (period : Nat) (prefilter : Bool)
    (hcrit : tw.critical_pos < needle.length) (hper : 0 < period) :
    ∀ fuel s pos shift0, 0 < fuel →
      haystack.length + 2 ≤ fuel + pos + needle.length →
      shift0 < needle.length →
      find_small_imp pre tw haystack needle period prefilter fuel s pos shift0 ≠ .oob := by
  intro fuel
  have hm : 0 < needle.length := by omega
  induction fuel with
  | zero => intro s pos shift0 h0; omega
  | succ fuel ih =>
    intro s pos shift0 _ hI hshift
    simp only [find_small_imp]
    by_cases hguard : pos + needle.length ≤ haystack.length
    · rw [if_pos hguard]
      rcases hps : pre_step pre prefilter s haystack needle pos with _ | ⟨pos1, s1, ran⟩
      · simp [hps]
      · have hpos1 : pos ≤ pos1 := pre_step_mono pre prefilter s haystack needle pos hps
        simp only [hps]
        by_cases hb : haystack.length < pos1 + needle.length
        · simp [hb]
        · rw [if_neg hb]
          have hb' : pos1 + needle.length ≤ haystack.length := by omega
          obtain ⟨lastb, hlast⟩ :=
            get?_some_of_lt (l := haystack) (i := pos1 + (needle.length - 1)) (by omega)
          simp only [hlast]
          have hfuel : 0 < fuel := by omega
          by_cases hbs : tw.byteset.contains lastb = true
          · simp only [hbs, Bool.not_true, Bool.false_eq_true, if_false]
            have hscan := scan_up_ne_none needle haystack pos1 needle.length
              (if ran = true then tw.critical_pos else max tw.critical_pos shift0)
              (by by_cases hr : ran = true <;> simp [hr] <;> omega) (by omega)
              (by by_cases hr : ran = true <;> simp [hr] <;> omega) (by omega)
            rcases hsu : scan_up needle haystack pos1 needle.length
                (if ran = true then tw.critical_pos else max tw.critical_pos shift0) with _ | i
            · exact absurd hsu hscan
            · simp only [hsu]
              by_cases hi : i < needle.length
              · rw [if_pos hi]
                exact ih s1 (pos1 + (i - tw.critical_pos + 1)) 0 hfuel (by omega) hm
              · rw [if_neg hi]
                have hsd := scan_down_ne_none needle haystack pos1
                  (if ran = true then 0 else shift0) tw.critical_pos hcrit (by omega)
                rcases hsdv : scan_down needle haystack pos1
                    (if ran = true then 0 else shift0) tw.critical_pos with _ | j
                · exact absurd hsdv hsd
                · simp only [hsdv]
                  by_cases hj : j ≤ (if ran = true then 0 else shift0)
                  · rw [if_pos hj]
                    have hsv : (if ran = true then 0 else shift0) < needle.length := by
                      by_cases hr : ran = true <;> simp [hr] <;> omega
                    obtain ⟨a, ha⟩ := get?_some_of_lt (l := needle)
                      (i := if ran = true then 0 else shift0) hsv
                    obtain ⟨b, hbg⟩ := get?_some_of_lt (l := haystack)
                      (i := pos1 + (if ran = true then 0 else shift0)) (by omega)
                    simp only [ha, hbg]
                    by_cases hab : a = b
                    · simp [hab]
                    · rw [if_neg hab]
                      exact ih s1 (pos1 + period) (needle.length - period) hfuel (by omega)
                        (by omega)
                  · rw [if_neg hj]
                    exact ih s1 (pos1 + period) (needle.length - period) hfuel (by omega)
                      (by omega)
          · have hbs' : tw.byteset.contains lastb = false := by
              revert hbs; cases tw.byteset.contains lastb <;> simp
            simp only [hbs', Bool.not_false, if_true]
            exact ih s1 (pos1 + needle.length) 0 hfuel (by omega) hm
    · rw [if_neg hguard]
      simp

/-- The forward large-period loop never reads out of bounds nor runs out
of fuel, given the construction invariants and enough fuel. -/
lemma find_large_imp_ne_oob {σ : Type} (pre : PreOracle σ) (tw : TwoWay)
    (haystack needle : List Byte) (shiftp : Nat) (prefilter : Bool)
    (hcrit : tw.critical_pos < needle.length) (hsh : 0 < shiftp) :
    ∀ fuel s pos, 0 < fuel → haystack.length + 2 ≤ fuel + pos + needle.length →
      find_large_imp pre tw haystack needle shiftp prefilter fuel s pos ≠ .oob := by
  intro fuel
  have hm : 0 < needle.length := by omega
  induction fuel with
  | zero => intro s pos h0; omega
  | succ fuel ih =>
    intro s pos _ hI
    simp only [find_large_imp]
    by_cases hguard : pos + needle.length ≤ haystack.length
    · rw [if_pos hguard]
      rcases hps : pre_step pre prefilter s haystack needle pos with _ | ⟨pos1, s1, ran⟩
      · simp [hps]
      · have hpos1 : pos ≤ pos1 := pre_step_mono pre prefilter s haystack needle pos hps
        simp only [hps]
        by_cases hb : haystack.length < pos1 + needle.length
        · simp [hb]
        · rw [if_neg hb]
          have hb' : pos1 + needle.length ≤ haystack.length := by omega
          obtain ⟨lastb, hlast⟩ :=
            get?_some_of_lt (l := haystack) (i := pos1 + (needle.length - 1)) (by omega)
          simp only [hlast]
          have hfuel : 0 < fuel := by omega
          by_cases hbs : tw.byteset.contains lastb = true
          · simp only [hbs, Bool.not_true, Bool.false_eq_true, if_false]
            have hscan := scan_up_ne_none needle haystack pos1 needle.length
              tw.critical_pos (by omega) (by omega) (by omega) (by omega)
            rcases hsu : scan_up needle haystack pos1 needle.length tw.critical_pos
              with _ | i
            · exact absurd hsu hscan
            · simp only [hsu]
              by_cases hi : i < needle.length
              · rw [if_pos hi]
                exact ih s1 (pos1 + (i - tw.critical_pos + 1)) hfuel (by omega)
              · rw [if_neg hi]
                have hcl := check_left_ne_none needle haystack pos1 tw.critical_pos
                  (by omega) (by omega)
                rcases hclv : check_left needle haystack pos1 tw.critical_pos with _ | ok
                · exact absurd hclv hcl
                · simp only [hclv]
                  by_cases hok : ok = true
                  · simp [hok]
                  · have : ok = false := by revert hok; cases ok <;> simp
                    rw [this]
                    simp only [Bool.false_eq_true, if_false]
                    exact ih s1 (pos1 + shiftp) hfuel (by omega)
          · have hbs' : tw.byteset.contains lastb = false := by
              revert hbs; cases tw.byteset.contains lastb <;> simp
            simp only [hbs', Bool.not_false, if_true]
            exact ih s1 (pos1 + needle.length) hfuel (by omega)
    · rw [if_neg hguard]
      simp

/-- The reverse small-period loop never reads out of bounds nor runs out
of fuel, given the construction invariants and enough fuel. -/
lemma rfind_small_imp_ne_oob (tw : TwoWay) (haystack needle : List Byte) (period : Nat)
    (hcrit : tw.critical_pos ≤ needle.length) (hm : 0 < needle.length)
    (hper : 0 < period) (hperle : period ≤ needle.length) :
    ∀ fuel pos shift, 0 < fuel → pos + 2 ≤ fuel + needle.length → pos ≤ haystack.length →
      0 < shift → shift ≤ needle.length →
      rfind_small_imp tw haystack needle period fuel pos shift ≠ .oob := by
  intro fuel
  induction fuel with
  | zero => intro pos shift h0; omega
  | succ fuel ih =>
    intro pos shift _ hI hpos hs1 hs2
    simp only [rfind_small_imp]
    by_cases hguard : needle.length ≤ pos
    · rw [if_pos hguard]
      obtain ⟨b, hb⟩ := get?_some_of_lt (l := haystack) (i := pos - needle.length) (by omega)
      simp only [hb]
      have hfuel : 0 < fuel := by omega
      by_cases hbs : tw.byteset.contains b = true
      · simp only [hbs, Bool.not_true, Bool.false_eq_true, if_false]
        have hsd := scan_down_rev_ne_none needle haystack (pos - needle.length)
          (min tw.critical_pos shift) (by omega) (by omega)
        rcases hsdv : scan_down_rev needle haystack (pos - needle.length)
            (min tw.critical_pos shift) with _ | i
        · exact absurd hsdv hsd
        · simp only [hsdv]
          by_cases hi : 0 < i
          · rw [if_pos hi]
            exact ih (pos - (tw.critical_pos - i + 1)) needle.length hfuel (by omega)
              (by omega) hm (by omega)
          · rw [if_neg hi]
            obtain ⟨n0, hn0⟩ := get?_some_of_lt (l := needle) (i := 0) hm
            simp only [hn0]
            by_cases hne : n0 ≠ b
            · rw [if_pos hne]
              exact ih (pos - (tw.critical_pos + 1)) needle.length hfuel (by omega)
                (by omega) hm (by omega)
            · rw [if_neg hne]
              have hsc := scan_up_ne_none needle haystack (pos - needle.length) shift
                tw.critical_pos hcrit hs2 (by omega) (by omega)
              rcases hscv : scan_up needle haystack (pos - needle.length) shift
                  tw.critical_pos with _ | j
              · exact absurd hscv hsc
              · simp only [hscv]
                by_cases hj : j = shift
                · simp [hj]
                · rw [if_neg hj]
                  exact ih (pos - period) period hfuel (by omega) (by omega) hper hperle
      · have hbs' : tw.byteset.contains b = false := by
          revert hbs; cases tw.byteset.contains b <;> simp
        simp only [hbs', Bool.not_false, if_true]
        exact ih (pos - needle.length) needle.length hfuel (by omega) (by omega) hm (by omega)
    · rw [if_neg hguard]
      simp

/-- The reverse large-period loop never reads out of bounds nor runs out
of fuel, given the construction invariants and enough fuel. -/
lemma rfind_large_imp_ne_oob (tw : TwoWay) (haystack needle : List Byte) (shiftp : Nat)
    (hcrit : tw.critical_pos ≤ needle.length) (hm : 0 < needle.length) (hsh : 0 < shiftp) :
    ∀ fuel pos, 0 < fuel → pos + 2 ≤ fuel + needle.length → pos ≤ haystack.length →
      rfind_large_imp tw haystack needle shiftp fuel pos ≠ .oob := by
  intro fuel
  induction fuel with
  | zero => intro pos h0; omega
  | succ fuel ih =>
    intro pos _ hI hpos
    simp only [rfind_large_imp]
    by_cases hguard : needle.length ≤ pos
    · rw [if_pos hguard]
      obtain ⟨b, hb⟩ := get?_some_of_lt (l := haystack) (i := pos - needle.length) (by omega)
      simp only [hb]
      have hfuel : 0 < fuel := by omega
      by_cases hbs : tw.byteset.contains b = true
      · simp only [hbs, Bool.not_true, Bool.false_eq_true, if_false]
        have hsd := scan_down_rev_ne_none needle haystack (pos - needle.length)
          tw.critical_pos (by omega) (by omega)
        rcases hsdv : scan_down_rev needle haystack (pos - needle.length)
            tw.critical_pos with _ | i
        · exact absurd hsdv hsd
        · simp only [hsdv]
          by_cases hi : 0 < i
          · rw [if_pos hi]
            exact ih (pos - (tw.critical_pos - i + 1)) hfuel (by omega) (by omega)
          · rw [if_neg hi]
            obtain ⟨n0, hn0⟩ := get?_some_of_lt (l := needle) (i := 0) hm
            simp only [hn0]
            by_cases hne : n0 ≠ b
            · rw [if_pos hne]
              exact ih (pos - (tw.critical_pos + 1)) hfuel (by omega) (by omega)
            · rw [if_neg hne]
              have hsc := scan_up_ne_none needle haystack (pos - needle.length)
                needle.length tw.critical_pos hcrit (by omega) (by omega) (by omega)
              rcases hscv : scan_up needle haystack (pos - needle.length) needle.length
                  tw.critical_pos with _ | j
              · exact absurd hscv hsc
              · simp only [hscv]
                by_cases hj : j = needle.length
                · simp [hj]
                · rw [if_neg hj]
                  exact ih (pos - shiftp) hfuel (by omega) (by omega)
      · have hbs' : tw.byteset.contains b = false := by
          revert hbs; cases tw.byteset.contains b <;> simp
        simp only [hbs', Bool.not_false, if_true]
        exact ih (pos - needle.length) hfuel (by omega) (by omega)
    · rw [if_neg hguard]
      simp

lemma Forward_new_needle (needle : List Byte) : (Forward.new needle).needle = needle := by
  cases needle <;> rfl

lemma Forward_new_crit (needle : List Byte) (h : 0 < needle.length) :
    (Forward.new needle).critical_pos = (forward_params needle).2 := by
  cases needle with
  | nil => simp at h
  | cons a l => rfl

lemma Forward_new_shift (needle : List Byte) (h : 0 < needle.length) :
    (Forward.new needle).shift =
      Shift.forward needle (forward_params needle).1 (forward_params needle).2 := by
  cases needle with
  | nil => simp at h
  | cons a l => rfl

lemma Reverse_new_needle (needle : List Byte) : (Reverse.new needle).needle = needle := by
  cases needle <;> rfl

lemma Reverse_new_crit (needle : List Byte) (h : 0 < needle.length) :
    (Reverse.new needle).critical_pos = (reverse_params needle).2 := by
  cases needle with
  | nil => simp at h
  | cons a l => rfl

lemma Reverse_new_shift (needle : List Byte) (h : 0 < needle.length) :
    (Reverse.new needle).shift =
      Shift.reverse needle (reverse_params needle).1 (reverse_params needle).2 := by
  cases needle with
  | nil => simp at h
  | cons a l => rfl

lemma Shift_forward_small_period (needle : List Byte) (p c q : Nat)
    (h : Shift.forward needle p c = Shift.Small q) : q = p := by
  rw [shift_forward_eq] at h
  split_ifs at h <;> first
  | (cases h; rfl)
  | cases h

lemma Shift_forward_large_shift (needle : List Byte) (p c sh : Nat)
    (h : Shift.forward needle p c = Shift.Large sh) : sh = max c (needle.length - c) := by
  rw [shift_forward_eq] at h
  split_ifs at h <;> first
  | (cases h; rfl)
  | cases h

lemma Shift_reverse_small_period (needle : List Byte) (p c q : Nat)
    (h : Shift.reverse needle p c = Shift.Small q) : q = p := by
  rw [shift_reverse_eq] at h
  split_ifs at h <;> first
  | (cases h; rfl)
  | cases h

lemma Shift_reverse_large_shift (needle : List Byte) (p c sh : Nat)
    (h : Shift.reverse needle p c = Shift.Large sh) : sh = max c (needle.length - c) := by
  rw [shift_reverse_eq] at h
  split_ifs at h <;> first
  | (cases h; rfl)
  | cases h

lemma ofOption_ne_oob (o : Option Nat) : ofOption o ≠ .oob := by
  cases o <;> simp [ofOption]

/-- The dispatch of the forward Two-Way search never yields an
out-of-bounds read, for the constructed searcher. -/
lemma find_with_imp_ne_oob {σ : Type} (pre : PreOracle σ) (s : σ)
    (needle haystack : List Byte) (h : 0 < needle.length) :
    find_with_imp pre s (Forward.new needle) haystack needle ≠ .oob := by
  have hb := forward_params_bounds needle h
  have hcrit : (Forward.new needle).critical_pos < needle.length := by
    rw [Forward_new_crit needle h]; exact hb.1
  rcases hs : (Forward.new needle).shift with p | sh
  · have hp : 0 < p := by
      rw [Forward_new_shift needle h] at hs
      have := Shift_forward_small_period needle _ _ _ hs
      omega
    simp only [find_with_imp, hs]
    by_cases hpre : should_prefilter pre s haystack needle = true
    · rw [if_pos hpre]
      exact find_small_imp_ne_oob pre _ haystack needle p true hcrit hp
        (haystack.length + 1) s 0 0 (by omega) (by omega) h
    · rw [if_neg hpre]
      exact find_small_imp_ne_oob pre _ haystack needle p false hcrit hp
        (haystack.length + 1) s 0 0 (by omega) (by omega) h
  · have hsh : 0 < sh := by
      rw [Forward_new_shift needle h] at hs
      have := Shift_forward_large_shift needle _ _ _ hs
      omega
    simp only [find_with_imp, hs]
    by_cases hpre : should_prefilter pre s haystack needle = true
    · rw [if_pos hpre]
      exact find_large_imp_ne_oob pre _ haystack needle sh true hcrit hsh
        (haystack.length + 1) s 0 (by omega) (by omega)
    · rw [if_neg hpre]
      exact find_large_imp_ne_oob pre _ haystack needle sh false hcrit hsh
        (haystack.length + 1) s 0 (by omega) (by omega)

/-- C9: with every read through total (`Option`-valued) indexing, the
out-of-bounds branch of the embedded searchers is unreachable, for every
needle, haystack and prefilter oracle and state: the loop bounds
`pos + m ≤ |haystack|` (forward) and `pos ≥ m` (reverse) justify every
index used.  `oob` also covers fuel exhaustion, so this additionally
proves the canonical fuel suffices. -/
theorem c9_no_out_of_bounds {σ : Type} (pre : PreOracle σ) (s : σ)
    (needle haystack : List Byte) :
    Forward.find_with pre s (Forward.new needle) haystack ≠ SearchResult.oob ∧
    Reverse.rfind (Reverse.new needle) haystack ≠ SearchResult.oob := by
  constructor
  · simp only [Forward.find_with, Forward_new_needle]
    by_cases h1 : needle.length ≤ 1
    · rw [if_pos h1]
      by_cases h2 : needle.isEmpty
      · simp [h2]
      · rw [if_neg h2]
        exact ofOption_ne_oob _
    · rw [if_neg h1]
      by_cases h2 : haystack.length < needle.length
      · simp [h2]
      · rw [if_neg h2]
        by_cases h3 : haystack.length < min_prefilter_len haystack needle
        · rw [if_pos h3]
          exact ofOption_ne_oob _
        · rw [if_neg h3]
          exact find_with_imp_ne_oob pre s needle haystack (by omega)
  · simp only [Reverse.rfind, Reverse_new_needle]
    by_cases h1 : needle.isEmpty
    · simp [h1]
    · rw [if_neg h1]
      have hlen : 0 < needle.length := by
        cases needle with
        | nil => simp at h1
        | cons a l => simp
      by_cases h2 : haystack.length < needle.length
      · simp [h2]
      · rw [if_neg h2]
        by_cases h3 : needle.length = 1
        · rw [if_pos h3]
          exact ofOption_ne_oob _
        · rw [if_neg h3]
          have hb := reverse_params_bounds needle hlen
          have hcrit : (Reverse.new needle).critical_pos ≤ needle.length := by
            rw [Reverse_new_crit needle hlen]; exact hb.2.1
          rcases hs : (Reverse.new needle).shift with p | sh
          · have hp : 0 < p ∧ p ≤ needle.length := by
              rw [Reverse_new_shift needle hlen] at hs
              have := Shift_reverse_small_period needle _ _ _ hs
              omega
            simp only [hs]
            exact rfind_small_imp_ne_oob _ haystack needle p hcrit hlen hp.1 hp.2
              (haystack.length + 1) haystack.length needle.length (by omega) (by omega)
              (by omega) (by omega) (by omega)
          · have hsh : 0 < sh := by
              rw [Reverse_new_shift needle hlen] at hs
              have := Shift_reverse_large_shift needle _ _ _ hs
              have hc := hb.1
              rw [Reverse_new_crit needle hlen] at *
              omega
            simp only [hs]
            exact rfind_large_imp_ne_oob _ haystack needle sh hcrit hlen hsh
              (haystack.length + 1) haystack.length (by omega) (by omega) (by omega)

/-! ## Lexicographic-order infrastructure

The suffix-extraction proofs compare suffixes of the needle in the
standard lexicographic order on `List Nat` (the `LinearOrder` instance
from Mathlib, whose strict order is `List.Lex (· < ·)`). -/

lemma lex_of_agree_of_lt :
    ∀ (t : Nat) (a b : List Byte), t < a.length → t < b.length →
      (∀ u, u < t → a.getD u 0 = b.getD u 0) → a.getD t 0 < b.getD t 0 → a < b := by
  intro t
  induction t with
  | zero =>
    intro a b ha hb _ hlt
    match a, b with
    | x :: a', y :: b' =>
      exact List.Lex.rel (by simpa using hlt)
  | succ t ih =>
    intro a b ha hb hagree hlt
    match a, b with
    | x :: a', y :: b' =>
      have hxy : x = y := by simpa using hagree 0 (by omega)
      subst hxy
      exact List.Lex.cons (ih a' b' (by simpa using ha) (by simpa using hb)
        (fun u hu => by simpa using hagree (u + 1) (by omega))
        (by simpa using hlt))

lemma lt_append_of_ne (u t : List Byte) (h : t ≠ []) : u < u ++ t := by
  induction u with
  | nil =>
    match t, h with
    | x :: t', _ => exact List.Lex.nil
  | cons a u ih => exact List.Lex.cons ih

lemma prefix_lt_of_length_lt {u v : List Byte} (h : u <+: v) (hlen : u.length < v.length) :
    u < v := by
  obtain ⟨t, rfl⟩ := h
  refine lt_append_of_ne u t ?_
  intro ht
  rw [ht] at hlen
  simp at hlen

lemma append_left_lt_iff (w : List Byte) (u v : List Byte) : w ++ u < w ++ v ↔ u < v := by
  constructor
  · intro h
    induction w with
    | nil => exact h
    | cons a w ih => exact ih (List.Lex.cons_iff.mp h)
  · intro h
    exact List.Lex.append_left _ h w

lemma getD_drop (x : List Byte) (r u : Nat) : (x.drop r).getD u 0 = x.getD (r + u) 0 := by
  rcases lt_or_ge (r + u) x.length with h | h
  · rw [List.getD_eq_getElem _ _ (by simp; omega), List.getD_eq_getElem _ _ (by omega)]
    simp [List.getElem_drop]
  · rw [List.getD_eq_default _ _ (by simp; omega), List.getD_eq_default _ _ (by omega)]

lemma drop_lt_drop_of_agree (x : List Byte) (a b t : Nat)
    (ha : a + t < x.length) (hb : b + t < x.length)
    (hagree : ∀ u, u < t → x.getD (a + u) 0 = x.getD (b + u) 0)
    (hlt : x.getD (a + t) 0 < x.getD (b + t) 0) :
    x.drop a < x.drop b := by
  refine lex_of_agree_of_lt t (x.drop a) (x.drop b) (by simp; omega) (by simp; omega)
    (fun u hu => ?_) ?_
  · rw [getD_drop, getD_drop]
    exact hagree u hu
  · rw [getD_drop, getD_drop]
    exact hlt

/-- A window of the list as chars: `x[a..a+p) = x[b..b+p)` from
character agreement. -/
lemma take_drop_eq_of_agree (x : List Byte) (a b p : Nat)
    (ha : a + p ≤ x.length) (hb : b + p ≤ x.length)
    (hagree : ∀ u, u < p → x.getD (a + u) 0 = x.getD (b + u) 0) :
    (x.drop a).take p = (x.drop b).take p := by
  apply List.ext_getElem
  · simp
    omega
  · intro i h1 h2
    have hi : i < p := by simp at h1; omega
    have e1 : ((x.drop a).take p)[i] = x.getD (a + i) 0 := by
      rw [List.getElem_take, List.getElem_drop, ← List.getD_eq_getElem x 0]
    have e2 : ((x.drop b).take p)[i] = x.getD (b + i) 0 := by
      rw [List.getElem_take, List.getElem_drop, ← List.getD_eq_getElem x 0]
    rw [e1, e2]
    exact hagree i hi

/-- Splitting a suffix at `p`: `x[a..] = x[a..a+p) ++ x[a+p..]`. -/
lemma drop_eq_take_append (x : List Byte) (a p : Nat) :
    x.drop a = (x.drop a).take p ++ x.drop (a + p) := by
  have h := List.take_append_drop p (x.drop a)
  rw [List.drop_drop] at h
  exact h.symm

/-! ## Maximal-suffix correctness (Claim C4) -/

/-- Transfer of characters along a period inside a window. -/
lemma periodic_chain (x : List Byte) (s p bound : Nat)
    (hper : ∀ a, s ≤ a → a + p < bound → x.getD a 0 = x.getD (a + p) 0) :
    ∀ d a, s ≤ a → a + p * d < bound → x.getD (a + p * d) 0 = x.getD a 0 := by
  intro d
  induction d with
  | zero => intro a _ _; simp
  | succ d ih =>
    intro a ha hb
    rw [Nat.mul_succ] at hb ⊢
    rw [← Nat.add_assoc]
    have h2 := hper (a + p * d) (by omega) (by omega)
    rw [← h2]
    exact ih a ha (by omega)

/-- Analysis of a lexicographic comparison: either a prefix, or a first
difference. -/
lemma lex_destruct {a b : List Byte} (h : a < b) :
    (a <+: b) ∨ ∃ t, t < a.length ∧ t < b.length ∧
      (∀ u, u < t → a.getD u 0 = b.getD u 0) ∧ a.getD t 0 < b.getD t 0 := by
  have h' : List.Lex (· < ·) a b := h
  clear h
  induction h' with
  | nil => left; exact List.nil_prefix
  | @cons a l₁ l₂ h ih =>
    rcases ih with hpre | ⟨t, h1, h2, h3, h4⟩
    · left
      exact (List.prefix_cons_inj a).mpr hpre
    · right
      refine ⟨t + 1, by simpa using h1, by simpa using h2, fun u hu => ?_, by simpa using h4⟩
      cases u with
      | zero => simp
      | succ u => simpa using h3 u (by omega)
  | @rel a₁ l₁ a₂ l₂ h =>
    right
    exact ⟨0, by simp, by simp, fun u hu => by omega, by simpa using h⟩

lemma getD_take (l : List Byte) (m u : Nat) (h : u < m) :
    (l.take m).getD u 0 = l.getD u 0 := by
  rcases lt_or_ge u l.length with hu | hu
  · rw [List.getD_eq_getElem _ _ (by simp; omega), List.getD_eq_getElem _ _ hu]
    simp [List.getElem_take]
  · rw [List.getD_eq_default _ _ (by simp; omega), List.getD_eq_default _ _ hu]

lemma getD_append_left (l₁ l₂ : List Byte) (u : Nat) (h : u < l₁.length) :
    (l₁ ++ l₂).getD u 0 = l₁.getD u 0 := by
  rw [List.getD_eq_getElem _ _ (by simp; omega), List.getD_eq_getElem _ _ h]
  exact List.getElem_append_left h

/-- The key jump lemma, character level: if `w ++ y < y` and `z` loses
strictly to `w` within `z`, then `z ++ y < y`. -/
lemma zy_lt (w z y : List Byte) (hlen : z.length < w.length) (hwy : w ++ y < y)
    (hz : ∃ t, t < z.length ∧ (∀ u, u < t → z.getD u 0 = w.getD u 0) ∧
      z.getD t 0 < w.getD t 0) :
    z ++ y < y := by
  obtain ⟨tz, htz, hzagree, hzlt⟩ := hz
  rcases lex_destruct hwy with hpre | ⟨t, h1, h2, h3, h4⟩
  · exfalso
    have := hpre.length_le
    rw [List.length_append] at this
    omega
  · rcases lt_or_ge tz t with hcase | hcase
    · refine lex_of_agree_of_lt tz _ _ (by simp; omega) (by omega) (fun u hu => ?_) ?_
      · rw [getD_append_left _ _ _ (by omega)]
        rw [hzagree u hu, ← getD_append_left w y u (by omega)]
        exact h3 u (by omega)
      · rw [getD_append_left _ _ _ (by omega)]
        calc z.getD tz 0 < w.getD tz 0 := hzlt
          _ = (w ++ y).getD tz 0 := (getD_append_left w y tz (by omega)).symm
          _ = y.getD tz 0 := h3 tz hcase
    · refine lex_of_agree_of_lt t _ _ (by simp; omega) h2 (fun u hu => ?_) ?_
      · rw [getD_append_left _ _ _ (by omega)]
        rw [hzagree u (by omega), ← getD_append_left w y u (by omega)]
        exact h3 u hu
      · rw [getD_append_left _ _ _ (by omega)]
        rcases eq_or_lt_of_le hcase with heq | hlt
        · subst heq
          calc z.getD t 0 < w.getD t 0 := hzlt
            _ = (w ++ y).getD t 0 := (getD_append_left w y t (by omega)).symm
            _ < y.getD t 0 := h4
        · calc z.getD t 0 = w.getD t 0 := hzagree t hlt
            _ = (w ++ y).getD t 0 := (getD_append_left w y t (by omega)).symm
            _ < y.getD t 0 := h4

/-- Derived agreement of the candidate with the current suffix on the
matched offsets. -/
lemma MaxInv.agree {x : List Byte} {s p c o : Nat} (h : MaxInv x s p c o) :
    ∀ t, t < o → x.getD (c + t) 0 = x.getD (s + t) 0 := by
  obtain ⟨hp, hdvd, hspc, hop, hbound, hper, _, _⟩ := h
  obtain ⟨k, hk⟩ := hdvd
  intro t ht
  have hc : c + t = (s + t) + p * k := by omega
  rw [hc]
  exact periodic_chain x s p (c + o) hper k (s + t) (by omega) (by omega)

/-- Accept transition preserves the invariant. -/
lemma MaxInv.accept {x : List Byte} {s p c o : Nat} (h : MaxInv x s p c o)
    (hguard : c + o < x.length) (hcmp : x.getD (s + o) 0 < x.getD (c + o) 0) :
    MaxInv x c 1 (c + 1) 0 := by
  have hagree := h.agree
  obtain ⟨hp, hdvd, hspc, hop, hbound, hper, hssm, hdom⟩ := h
  refine ⟨by omega, by simp, by omega, by omega, by omega, ?_, ?_, ?_⟩
  · intro a ha hb; omega
  · intro i hi1 hi2; omega
  · intro r hr hrne
    rcases eq_or_ne r s with hrs | hrs
    · subst hrs
      refine ⟨c, drop_lt_drop_of_agree x r c o (by omega) hguard (fun u hu => ?_) hcmp⟩
      exact (hagree u hu).symm
    · exact hdom r (by omega) hrs

/-- Skip transition preserves the invariant: the candidate window becomes
the new period word, and every start at or after the old candidate is
dominated. -/
lemma MaxInv.skip {x : List Byte} {s p c o : Nat} (h : MaxInv x s p c o)
    (hguard : c + o < x.length) (hcmp : x.getD (c + o) 0 < x.getD (s + o) 0) :
    MaxInv x s (c + o + 1 - s) (c + o + 1) 0 := by
  have hagree := h.agree
  obtain ⟨hp, hdvd, hspc, hop, hbound, hper, hssm, hdom⟩ := h
  refine ⟨by omega, dvd_refl _, by omega, by omega, by omega, ?_, ?_, ?_⟩
  · intro a ha hb
    exact absurd hb (by omega)
  · intro i hi0 hi1
    obtain ⟨k, hk⟩ := hdvd
    obtain ⟨q, i2, hiq, hi2p⟩ : ∃ q v, p * q + v = i ∧ v < p :=
      ⟨i / p, i % p, Nat.div_add_mod i p, Nat.mod_lt i hp⟩
    have hshift : ∀ u, s + i + u < c + o →
        x.getD (s + i + u) 0 = x.getD (s + i2 + u) 0 := by
      intro u hu
      have e : s + i + u = (s + i2 + u) + p * q := by omega
      rw [e]
      exact periodic_chain x s p (c + o) hper q _ (by omega) (by omega)
    rcases Nat.eq_zero_or_pos i2 with hi20 | hi21
    · subst hi20
      have hq1 : 1 ≤ q := by
        rcases Nat.eq_zero_or_pos q with h0 | h1
        · subst h0
          simp at hiq
          omega
        · exact h1
      have hqk : q ≤ k := by
        by_contra hcon
        push_neg at hcon
        have h1 : p * (k + 1) ≤ p * q := Nat.mul_le_mul_left p hcon
        have h2 : p * (k + 1) = p * k + p := Nat.mul_succ p k
        omega
      obtain ⟨d, hd⟩ : ∃ d, k = q + d := ⟨k - q, by omega⟩
      subst hd
      have hsplit : p * (q + d) = p * q + p * d := Nat.mul_add p q d
      have hpq : 0 < p * q := Nat.mul_pos hp hq1
      refine ⟨c + o - s - i, by omega, fun u hu => ?_, ?_⟩
      · rw [hshift u (by omega)]
        simp
      · have e1 : s + i + (c + o - s - i) = c + o := by omega
        have e2 : s + (c + o - s - i) = (s + o) + p * d := by omega
        rw [e1, e2]
        calc x.getD (c + o) 0 < x.getD (s + o) 0 := hcmp
          _ = x.getD ((s + o) + p * d) 0 :=
            (periodic_chain x s p (c + o) hper d (s + o) (by omega) (by omega)).symm
    · obtain ⟨tw, htw, hagw, hstw⟩ := hssm i2 hi21 hi2p
      by_cases hcase : i + tw < c + o - s
      · refine ⟨tw, by omega, fun u hu => ?_, ?_⟩
        · rw [hshift u (by omega)]
          exact hagw u hu
        · rw [hshift tw (by omega)]
          exact hstw
      · have hq1 : 1 ≤ q := by
          rcases Nat.eq_zero_or_pos q with h0 | h1
          · exfalso
            subst h0
            simp at hiq
            omega
          · exact h1
        have hqk : q ≤ k := by
          by_contra hcon
          push_neg at hcon
          have h1 : p * (k + 1) ≤ p * q := Nat.mul_le_mul_left p hcon
          have h2 : p * (k + 1) = p * k + p := Nat.mul_succ p k
          omega
        obtain ⟨d, hd⟩ : ∃ d, k = q + d := ⟨k - q, by omega⟩
        subst hd
        have hsplit : p * (q + d) = p * q + p * d := Nat.mul_add p q d
        have hpq : 0 < p * q := Nat.mul_pos hp hq1
        obtain ⟨t, ht⟩ : ∃ v, v = c + o - s - i := ⟨_, rfl⟩
        have htle : t ≤ tw := by omega
        have hmid : x.getD (s + i2 + t) 0 = x.getD (s + o) 0 := by
          have e2 : s + i2 + t = (s + o) + p * d := by omega
          rw [e2]
          exact periodic_chain x s p (c + o) hper d (s + o) (by omega) (by omega)
        refine ⟨t, by omega, fun u hu => ?_, ?_⟩
        · rw [hshift u (by omega)]
          exact hagw u (by omega)
        · have e1 : s + i + t = c + o := by omega
          rw [e1]
          rcases eq_or_lt_of_le htle with heq | hlt
          · rw [← heq] at hstw
            calc x.getD (c + o) 0 < x.getD (s + o) 0 := hcmp
              _ = x.getD (s + i2 + t) 0 := hmid.symm
              _ < x.getD (s + t) 0 := hstw
          · calc x.getD (c + o) 0 < x.getD (s + o) 0 := hcmp
              _ = x.getD (s + i2 + t) 0 := hmid.symm
              _ = x.getD (s + t) 0 := hagw t hlt
  · intro r hr hrne
    rcases lt_or_ge r c with hrc | hrc
    · exact hdom r hrc hrne
    · refine ⟨s + (r - c), drop_lt_drop_of_agree x r (s + (r - c)) (o - (r - c))
        (by omega) (by omega) (fun u hu => ?_) ?_⟩
      · have e1 : r + u = c + (r - c + u) := by omega
        have e2 : s + (r - c) + u = s + (r - c + u) := by omega
        rw [e1, e2]
        exact hagree (r - c + u) (by omega)
      · have e1 : r + (o - (r - c)) = c + o := by omega
        have e2 : s + (r - c) + (o - (r - c)) = s + o := by omega
        rw [e1, e2]
        exact hcmp

/-- Push transition with `o + 1 = p` (a full period matched) preserves
the invariant: the candidate jumps by one period and every start between
the old and the new candidate is dominated. -/
lemma MaxInv.push_jump {x : List Byte} {s p c o : Nat} (h : MaxInv x s p c o)
    (hguard : c + o < x.length) (hcmp : x.getD (c + o) 0 = x.getD (s + o) 0)
    (hoff : o + 1 = p) :
    MaxInv x s p (c + p) 0 := by
  obtain ⟨hp, hdvd, hspc, hop, hbound, hper, hssm, hdom⟩ := h
  obtain ⟨k, hk⟩ := hdvd
  have hk1 : 1 ≤ k := by
    rcases Nat.eq_zero_or_pos k with h0 | h1
    · rw [h0] at hk; omega
    · exact h1
  have hmid : x.getD (c + o - p) 0 = x.getD (s + o) 0 := by
    cases k with
    | zero => omega
    | succ j =>
      have hms : p * (j + 1) = p * j + p := Nat.mul_succ p j
      have hc : c + o - p = (s + o) + p * j := by omega
      rw [hc]
      exact periodic_chain x s p (c + o) hper j (s + o) (by omega) (by omega)
  have hper' : ∀ a, s ≤ a → a + p < c + p → x.getD a 0 = x.getD (a + p) 0 := by
    intro a ha hb
    rcases lt_or_ge (a + p) (c + o) with hlt | hge
    · exact hper a ha hlt
    · have ha' : a = c + o - p := by omega
      subst ha'
      rw [hmid]
      have e : c + o - p + p = c + o := by omega
      rw [e, hcmp]
  have hcd : x.drop c = (x.drop s).take p ++ x.drop (c + p) := by
    have h1 := drop_eq_take_append x c p
    rw [take_drop_eq_of_agree x c s p (by omega) (by omega) ?_] at h1
    · exact h1
    · intro u hu
      have e : c + u = (s + u) + p * k := by omega
      rw [e]
      exact periodic_chain x s p (c + p) hper' k (s + u) (by omega) (by omega)
  have hwlen : ((x.drop s).take p).length = p := by
    simp only [List.length_take, List.length_drop]
    omega
  have hwchar : ∀ u, u < p → ((x.drop s).take p).getD u 0 = x.getD (s + u) 0 := by
    intro u hu
    rw [getD_take _ _ _ hu, getD_drop]
  have hdvd' : p ∣ (c + p - s) := by
    refine ⟨k + 1, ?_⟩
    have hms : p * (k + 1) = p * k + p := by ring
    omega
  refine ⟨hp, hdvd', by omega, hp, by omega, ?_, hssm, ?_⟩
  · intro a ha hb
    exact hper' a ha (by omega)
  · intro r hr hrne
    rcases lt_or_ge r c with hrc | hrc
    · exact hdom r hrc hrne
    · have hzlen : ((x.drop r).take (p - (r - c))).length = p - (r - c) := by
        simp only [List.length_take, List.length_drop]
        omega
      have hzchar : ∀ u, u < p - (r - c) →
          ((x.drop r).take (p - (r - c))).getD u 0 = x.getD (s + (r - c) + u) 0 := by
        intro u hu
        rw [getD_take _ _ _ hu, getD_drop]
        have e : r + u = (s + (r - c) + u) + p * k := by omega
        rw [e]
        exact periodic_chain x s p (c + p) hper' k _ (by omega) (by omega)
      have hzy : x.drop r = (x.drop r).take (p - (r - c)) ++ x.drop (c + p) := by
        have h1 := drop_eq_take_append x r (p - (r - c))
        have e : r + (p - (r - c)) = c + p := by omega
        rw [e] at h1
        exact h1
      rcases lt_trichotomy ((x.drop s).take p ++ x.drop (c + p)) (x.drop (c + p))
        with hlt | heq | hgt
      · rcases eq_or_lt_of_le hrc with hre | hrgt
        · refine ⟨c + p, ?_⟩
          rw [← hre, hcd]
          exact hlt
        · obtain ⟨tw, htw, hagw, hstw⟩ := hssm (r - c) (by omega) (by omega)
          refine ⟨c + p, ?_⟩
          rw [hzy]
          refine zy_lt ((x.drop s).take p) _ _ (by rw [hzlen, hwlen]; omega) hlt
            ⟨tw, by rw [hzlen]; omega, fun u hu => ?_, ?_⟩
          · rw [hzchar u (by omega), hwchar u (by omega)]
            exact hagw u hu
          · rw [hzchar tw (by omega), hwchar tw (by omega)]
            exact hstw
      · exfalso
        have hlen := congrArg List.length heq
        rw [List.length_append, hwlen] at hlen
        omega
      · rcases eq_or_lt_of_le hrc with hre | hrgt
        · have hbase : x.drop (c + p) < x.drop c := by
            rw [hcd]
            exact hgt
          have hwin : ∀ e, s + p * e + p ≤ c + p →
              (x.drop (s + p * e)).take p = (x.drop s).take p := by
            intro e he
            apply take_drop_eq_of_agree x (s + p * e) s p (by omega) (by omega)
            intro u hu
            have hc2 : s + p * e + u = (s + u) + p * e := by omega
            rw [hc2]
            exact periodic_chain x s p (c + p) hper' e (s + u) (by omega) (by omega)
          have hdecomp : ∀ e, e ≤ k → x.drop (s + p * e) =
              (x.drop s).take p ++ x.drop (s + p * e + p) := by
            intro e he
            have hle : p * e ≤ p * k := Nat.mul_le_mul_left p he
            have h1 := drop_eq_take_append x (s + p * e) p
            rw [hwin e (by omega)] at h1
            exact h1
          have hdesc : ∀ j, j ≤ k →
              x.drop (s + p * (k - j) + p) < x.drop (s + p * (k - j)) := by
            intro j
            induction j with
            | zero =>
              intro _
              have e1 : s + p * (k - 0) = c := by
                simp only [Nat.sub_zero]
                omega
              rw [e1]
              exact hbase
            | succ j ih =>
              intro hj
              have hm0 : p * (k - j) = p * (k - (j + 1)) + p := by
                have he : k - j = (k - (j + 1)) + 1 := by omega
                rw [he]
                ring
              have hA := hdecomp (k - (j + 1)) (by omega)
              have hB := hdecomp (k - j) (by omega)
              calc x.drop (s + p * (k - (j + 1)) + p)
                  = x.drop (s + p * (k - j)) := by
                    have e : s + p * (k - (j + 1)) + p = s + p * (k - j) := by omega
                    rw [e]
                _ = (x.drop s).take p ++ x.drop (s + p * (k - j) + p) := hB
                _ < (x.drop s).take p ++ x.drop (s + p * (k - j)) := by
                    rw [append_left_lt_iff]
                    exact ih (by omega)
                _ = (x.drop s).take p ++ x.drop (s + p * (k - (j + 1)) + p) := by
                    have e : s + p * (k - j) = s + p * (k - (j + 1)) + p := by omega
                    rw [e]
                _ = x.drop (s + p * (k - (j + 1))) := hA.symm
          have hchain : ∀ j, 1 ≤ j → j ≤ k → x.drop c < x.drop (s + p * (k - j)) := by
            intro j
            induction j with
            | zero => intro h0 _; exact absurd h0 (by omega)
            | succ j ih =>
              intro _ hj
              rcases Nat.eq_zero_or_pos j with h0 | h1
              · subst h0
                have hd := hdesc 1 (by omega)
                have e : s + p * (k - 1) + p = c := by
                  have hm0 : p * k = p * (k - 1) + p := by
                    have he : k = (k - 1) + 1 := by omega
                    nth_rewrite 1 [he]
                    ring
                  omega
                rw [e] at hd
                exact hd
              · have hstep := hdesc (j + 1) hj
                have e : s + p * (k - (j + 1)) + p = s + p * (k - j) := by
                  have hm0 : p * (k - j) = p * (k - (j + 1)) + p := by
                    have he : k - j = (k - (j + 1)) + 1 := by omega
                    rw [he]
                    ring
                  omega
                rw [e] at hstep
                exact lt_trans (ih h1 (by omega)) hstep
          have hfin := hchain k hk1 (le_refl k)
          simp only [Nat.sub_self, Nat.mul_zero, Nat.add_zero] at hfin
          refine ⟨s, ?_⟩
          rw [← hre]
          exact hfin
        · have hz2 : (x.drop (r - p)).take (p - (r - c)) =
              (x.drop r).take (p - (r - c)) := by
            apply take_drop_eq_of_agree x (r - p) r (p - (r - c)) (by omega) (by omega)
            intro u hu
            have h1 := hper' (r - p + u) (by omega) (by omega)
            have e : r - p + u + p = r + u := by omega
            rw [e] at h1
            exact h1
          have hdrp : x.drop (r - p) = (x.drop r).take (p - (r - c)) ++
              ((x.drop s).take p ++ x.drop (c + p)) := by
            have h1 := drop_eq_take_append x (r - p) (p - (r - c))
            have e : r - p + (p - (r - c)) = c := by omega
            rw [e, hz2, hcd] at h1
            exact h1
          refine ⟨r - p, ?_⟩
          rw [hzy, hdrp, append_left_lt_iff]
          exact hgt

/-- Push transition with `o + 1 ≠ p` preserves the invariant. -/
lemma MaxInv.push_incr {x : List Byte} {s p c o : Nat} (h : MaxInv x s p c o)
    (hguard : c + o < x.length) (hcmp : x.getD (c + o) 0 = x.getD (s + o) 0)
    (hoff : o + 1 ≠ p) :
    MaxInv x s p c (o + 1) := by
  obtain ⟨hp, hdvd, hspc, hop, hbound, hper, hssm, hdom⟩ := h
  have hmid : x.getD (c + o - p) 0 = x.getD (s + o) 0 := by
    obtain ⟨k, hk⟩ := hdvd
    cases k with
    | zero => omega
    | succ j =>
      have hms : p * (j + 1) = p * j + p := Nat.mul_succ p j
      have hc : c + o - p = (s + o) + p * j := by omega
      rw [hc]
      exact periodic_chain x s p (c + o) hper j (s + o) (by omega) (by omega)
  refine ⟨hp, hdvd, hspc, by omega, by omega, ?_, hssm, hdom⟩
  intro a ha hb
  rcases lt_or_ge (a + p) (c + o) with hlt | hge
  · exact hper a ha hlt
  · have ha' : a = c + o - p := by omega
    subst ha'
    rw [hmid]
    have : c + o - p + p = c + o := by omega
    rw [this, hcmp]

/-- A suffix whose characters all agree with a longer suffix is smaller:
it is a proper prefix of the longer one. -/
lemma drop_lt_drop_of_agree_prefix (x : List Byte) (a b : Nat) (hba : b < a)
    (ha : a ≤ x.length)
    (hagree : ∀ u, a + u < x.length → x.getD (a + u) 0 = x.getD (b + u) 0) :
    x.drop a < x.drop b := by
  have h0 : x.drop a = (x.drop a).take (x.length - a) := by
    rw [← List.length_drop]
    exact (List.take_length _).symm
  have h1 : (x.drop a).take (x.length - a) = (x.drop b).take (x.length - a) :=
    take_drop_eq_of_agree x a b (x.length - a) (by omega) (by omega)
      (fun u hu => hagree u (by omega))
  have hpre : x.drop a <+: x.drop b := by
    rw [h0, h1]
    exact List.take_prefix _ _
  refine prefix_lt_of_length_lt hpre ?_
  rw [List.length_drop, List.length_drop]
  omega

/-- Fuel accounting: advancing the candidate strictly decreases the loop
measure. -/
lemma measure_step (n c o c2 fuel : Nat) (hcc : c < c2) (hcn : c < n)
    (hfuel : (n - c) * (n + 1) + (n - o) < fuel + 1) :
    (n - c2) * (n + 1) + (n - 0) < fuel := by
  have h2 : (n - c2) + 1 ≤ n - c := by omega
  have h1 : (n - c2) * (n + 1) + (n + 1) ≤ (n - c) * (n + 1) := by
    calc (n - c2) * (n + 1) + (n + 1) = ((n - c2) + 1) * (n + 1) := by ring
      _ ≤ (n - c) * (n + 1) := Nat.mul_le_mul_right (n + 1) h2
  omega

/-- The fueled maximal-suffix loop, started in any invariant state with
enough fuel, returns the start of the lexicographically greatest suffix. -/
lemma suffix_forward_loop_max (x : List Byte) :
    ∀ fuel s p c o, MaxInv x s p c o →
      (x.length - c) * (x.length + 1) + (x.length - o) < fuel →
      (suffix_forward_loop x .Maximal fuel s p c o).pos < x.length ∧
      ∀ i, i < x.length →
        x.drop i ≤ x.drop (suffix_forward_loop x .Maximal fuel s p c o).pos := by
  intro fuel
  induction fuel with
  | zero =>
    intro s p c o _ hfuel
    exact absurd hfuel (Nat.not_lt_zero _)
  | succ fuel ih =>
    intro s p c o hinv hfuel
    simp only [suffix_forward_loop]
    by_cases hguard : c + o < x.length
    · rw [if_pos hguard]
      split
      · rename_i hcm
        simp only [SuffixKind.cmp] at hcm
        split_ifs at hcm with h1 h2
        exact ih c 1 (c + 1) 0 (hinv.accept hguard h1)
          (measure_step x.length c o (c + 1) fuel (by omega) (by omega) hfuel)
      · rename_i hcm
        simp only [SuffixKind.cmp] at hcm
        split_ifs at hcm with h1 h2
        exact ih s (c + o + 1 - s) (c + o + 1) 0 (hinv.skip hguard h2)
          (measure_step x.length c o (c + o + 1) fuel (by omega) (by omega) hfuel)
      · rename_i hcm
        simp only [SuffixKind.cmp] at hcm
        split_ifs at hcm with h1 h2
        have heqc : x.getD (c + o) 0 = x.getD (s + o) 0 :=
          le_antisymm (not_lt.mp h1) (not_lt.mp h2)
        by_cases hoo : o + 1 = p
        · rw [if_pos hoo]
          refine ih s p (c + p) 0 (hinv.push_jump hguard heqc hoo) ?_
          have hp := hinv.1
          exact measure_step x.length c o (c + p) fuel (by omega) (by omega) hfuel
        · rw [if_neg hoo]
          exact ih s p c (o + 1) (hinv.push_incr hguard heqc hoo) (by omega)
    · rw [if_neg hguard]
      have hagree := hinv.agree
      obtain ⟨hp, hdvd, hspc, hop, hbound, hper, hssm, hdom⟩ := hinv
      have hco : c + o = x.length := by omega
      have hdom' : ∀ r, r < x.length → r ≠ s → ∃ r2, x.drop r < x.drop r2 := by
        intro r hr hrne
        rcases lt_or_ge r c with hrc | hrc
        · exact hdom r hrc hrne
        · refine ⟨s + (r - c), drop_lt_drop_of_agree_prefix x r (s + (r - c))
            (by omega) (by omega) ?_⟩
          intro u hu
          have e1 : r + u = c + (r - c + u) := by omega
          have e2 : s + (r - c) + u = s + (r - c + u) := by omega
          rw [e1, e2]
          exact hagree (r - c + u) (by omega)
      constructor
      · show s < x.length
        omega
      · intro i hi
        show x.drop i ≤ x.drop s
        obtain ⟨i0, hi0mem, hi0max⟩ := Finset.exists_max_image (Finset.range x.length)
          (fun j => x.drop j) ⟨0, Finset.mem_range.mpr (by omega)⟩
        have hi0n : i0 < x.length := Finset.mem_range.mp hi0mem
        have hi0s : i0 = s := by
          by_contra hne
          obtain ⟨r2, hr2⟩ := hdom' i0 hi0n hne
          rcases lt_or_ge r2 x.length with h2 | h2
          · exact absurd hr2 (not_lt_of_ge (hi0max r2 (Finset.mem_range.mpr h2)))
          · rw [List.drop_eq_nil_of_le h2] at hr2
            exact (List.Lex.not_nil_right _ _) hr2
        have hle := hi0max i (Finset.mem_range.mpr hi)
        rw [hi0s] at hle
        exact hle

lemma foldl_max_le (l : List (List Byte)) : ∀ e : List Byte,
    e ≤ l.foldl max e ∧ ∀ y ∈ l, y ≤ l.foldl max e := by
  induction l with
  | nil =>
    intro e
    exact ⟨le_refl _, fun y hy => absurd hy (List.not_mem_nil _)⟩
  | cons a l ih =>
    intro e
    simp only [List.foldl_cons]
    refine ⟨le_trans (le_max_left e a) (ih (max e a)).1, fun y hy => ?_⟩
    rcases List.mem_cons.mp hy with rfl | hy'
    · exact le_trans (le_max_right e y) (ih (max e y)).1
    · exact (ih (max e a)).2 y hy'

lemma foldl_max_mem (l : List (List Byte)) : ∀ e : List Byte,
    l.foldl max e = e ∨ l.foldl max e ∈ l := by
  induction l with
  | nil => intro e; exact Or.inl rfl
  | cons a l ih =>
    intro e
    simp only [List.foldl_cons]
    rcases ih (max e a) with h0 | hm
    · rw [h0]
      rcases max_choice e a with h1 | h1
      · exact Or.inl h1
      · exact Or.inr (by rw [h1]; exact List.mem_cons_self a l)
    · exact Or.inr (List.mem_cons_of_mem a hm)

lemma nil_le_list (l : List Byte) : ([] : List Byte) ≤ l := by
  cases l with
  | nil => exact le_refl _
  | cons a l => exact le_of_lt (show ([] : List Byte) < a :: l from List.Lex.nil)

/-- C4: for every non-empty needle, `Suffix::forward` with
`SuffixKind::Maximal` returns a position inside the needle whose suffix
equals the lexicographically maximum element of the set of all non-empty
suffixes, as computed by the naive reference `lex_max_suffix`. -/
theorem c4_forward_maximal_suffix (needle : List Byte) (h : needle ≠ []) :
    (Suffix.forward needle .Maximal).pos < needle.length ∧
    needle.drop ((Suffix.forward needle .Maximal).pos) = lex_max_suffix needle := by
  have hn : 0 < needle.length := List.length_pos.mpr h
  have hinv : MaxInv needle 0 1 1 0 := by
    refine ⟨by omega, ⟨1, by omega⟩, by omega, by omega, by omega, ?_, ?_, ?_⟩
    · intro a ha hb
      exact absurd hb (by omega)
    · intro i hi0 hi1
      exact absurd hi1 (by omega)
    · intro r hr hrne
      exact absurd (by omega : r = 0) hrne
  have hfl : (needle.length - 1) * (needle.length + 1) + (needle.length - 0) <
      suffix_fuel needle := by
    rw [suffix_fuel]
    have hexp : (needle.length + 1) * (needle.length + 1) =
        (needle.length - 1) * (needle.length + 1) + 2 * (needle.length + 1) := by
      have h1 : needle.length + 1 = (needle.length - 1) + 2 := by omega
      nth_rewrite 1 [h1]
      ring
    omega
  have hmain := suffix_forward_loop_max needle (suffix_fuel needle) 0 1 1 0 hinv hfl
  refine ⟨hmain.1, ?_⟩
  apply le_antisymm
  · have hmem : needle.drop ((Suffix.forward needle .Maximal).pos) ∈
        (List.range needle.length).map (fun i => needle.drop i) :=
      List.mem_map.mpr ⟨_, List.mem_range.mpr hmain.1, rfl⟩
    exact (foldl_max_le _ []).2 _ hmem
  · show ((List.range needle.length).map (fun i => needle.drop i)).foldl max [] ≤ _
    rcases foldl_max_mem ((List.range needle.length).map (fun i => needle.drop i)) []
      with h0 | hm
    · rw [h0]
      exact nil_le_list _
    · obtain ⟨i, hir, hieq⟩ := List.mem_map.mp hm
      rw [← hieq]
      exact hmain.2 i (List.mem_range.mp hir)

/-- Witness for C4 at the concrete needle `[1, 0]`. -/
theorem c4_forward_maximal_suffix_witness :
    ([1, 0] : List Byte) ≠ [] ∧
    ((Suffix.forward ([1, 0] : List Byte) .Maximal).pos < ([1, 0] : List Byte).length ∧
      ([1, 0] : List Byte).drop ((Suffix.forward ([1, 0] : List Byte) .Maximal).pos) =
        lex_max_suffix ([1, 0] : List Byte)) :=
  ⟨by decide, c4_forward_maximal_suffix [1, 0] (by decide)⟩

/-! ## Kind-generic suffix-loop invariant (Claims C7, C1) -/

lemma kindR_trans (kind : SuffixKind) (a b c : Byte) (h1 : kindR kind a b)
    (h2 : kindR kind b c) : kindR kind a c := by
  cases kind
  · exact lt_trans h2 h1
  · exact lt_trans h1 h2

lemma kindR_irrefl (kind : SuffixKind) (a : Byte) : ¬ kindR kind a a := by
  cases kind <;> exact lt_irrefl a

/-- Accept transition preserves the kind-generic invariant. -/
lemma SuffInv.step_accept {kind : SuffixKind} {x : List Byte} {s p c o : Nat}
    (h : SuffInv kind x s p c o) (hguard : c + o < x.length) :
    SuffInv kind x c 1 (c + 1) 0 := by
  obtain ⟨hp, hdvd, hspc, hop, hbound, hper, hssm⟩ := h
  refine ⟨by omega, by simp, by omega, by omega, by omega, ?_, ?_⟩
  · intro a ha hb; omega
  · intro i hi0 hi1; omega

/-- Skip transition preserves the kind-generic invariant. -/
lemma SuffInv.step_skip {kind : SuffixKind} {x : List Byte} {s p c o : Nat}
    (h : SuffInv kind x s p c o) (hguard : c + o < x.length)
    (hcmp : kindR kind (x.getD (c + o) 0) (x.getD (s + o) 0)) :
    SuffInv kind x s (c + o + 1 - s) (c + o + 1) 0 := by
  obtain ⟨hp, hdvd, hspc, hop, hbound, hper, hssm⟩ := h
  refine ⟨by omega, dvd_refl _, by omega, by omega, by omega, ?_, ?_⟩
  · intro a ha hb
    exact absurd hb (by omega)
  · intro i hi0 hi1
    obtain ⟨k, hk⟩ := hdvd
    obtain ⟨q, i2, hiq, hi2p⟩ : ∃ q v, p * q + v = i ∧ v < p :=
      ⟨i / p, i % p, Nat.div_add_mod i p, Nat.mod_lt i hp⟩
    have hshift : ∀ u, s + i + u < c + o →
        x.getD (s + i + u) 0 = x.getD (s + i2 + u) 0 := by
      intro u hu
      have e : s + i + u = (s + i2 + u) + p * q := by omega
      rw [e]
      exact periodic_chain x s p (c + o) hper q _ (by omega) (by omega)
    rcases Nat.eq_zero_or_pos i2 with hi20 | hi21
    · subst hi20
      have hq1 : 1 ≤ q := by
        rcases Nat.eq_zero_or_pos q with h0 | h1
        · subst h0
          simp at hiq
          omega
        · exact h1
      have hqk : q ≤ k := by
        by_contra hcon
        push_neg at hcon
        have h1 : p * (k + 1) ≤ p * q := Nat.mul_le_mul_left p hcon
        have h2 : p * (k + 1) = p * k + p := by ring
        omega
      obtain ⟨d, hd⟩ : ∃ d, k = q + d := ⟨k - q, by omega⟩
      subst hd
      have hsplit : p * (q + d) = p * q + p * d := Nat.mul_add p q d
      have hpq : 0 < p * q := Nat.mul_pos hp hq1
      refine ⟨c + o - s - i, by omega, fun u hu => ?_, ?_⟩
      · rw [hshift u (by omega)]
        simp
      · have e1 : s + i + (c + o - s - i) = c + o := by omega
        have e2 : s + (c + o - s - i) = (s + o) + p * d := by omega
        rw [e1, e2]
        rw [periodic_chain x s p (c + o) hper d (s + o) (by omega) (by omega)]
        exact hcmp
    · obtain ⟨tw, htw, hagw, hstw⟩ := hssm i2 hi21 hi2p
      by_cases hcase : i + tw < c + o - s
      · refine ⟨tw, by omega, fun u hu => ?_, ?_⟩
        · rw [hshift u (by omega)]
          exact hagw u hu
        · rw [hshift tw (by omega)]
          exact hstw
      · have hq1 : 1 ≤ q := by
          rcases Nat.eq_zero_or_pos q with h0 | h1
          · exfalso
            subst h0
            simp at hiq
            omega
          · exact h1
        have hqk : q ≤ k := by
          by_contra hcon
          push_neg at hcon
          have h1 : p * (k + 1) ≤ p * q := Nat.mul_le_mul_left p hcon
          have h2 : p * (k + 1) = p * k + p := by ring
          omega
        obtain ⟨d, hd⟩ : ∃ d, k = q + d := ⟨k - q, by omega⟩
        subst hd
        have hsplit : p * (q + d) = p * q + p * d := Nat.mul_add p q d
        have hpq : 0 < p * q := Nat.mul_pos hp hq1
        obtain ⟨t, ht⟩ : ∃ v, v = c + o - s - i := ⟨_, rfl⟩
        have htle : t ≤ tw := by omega
        have hmid : x.getD (s + i2 + t) 0 = x.getD (s + o) 0 := by
          have e2 : s + i2 + t = (s + o) + p * d := by omega
          rw [e2]
          exact periodic_chain x s p (c + o) hper d (s + o) (by omega) (by omega)
        refine ⟨t, by omega, fun u hu => ?_, ?_⟩
        · rw [hshift u (by omega)]
          exact hagw u (by omega)
        · have e1 : s + i + t = c + o := by omega
          rw [e1]
          have h1 : kindR kind (x.getD (c + o) 0) (x.getD (s + i2 + t) 0) := by
            rw [hmid]
            exact hcmp
          rcases eq_or_lt_of_le htle with heq | hlt
          · rw [← heq] at hstw
            exact kindR_trans kind _ _ _ h1 hstw
          · rw [← hagw t hlt]
            exact h1

/-- Push transition with `o + 1 ≠ p` preserves the kind-generic
invariant. -/
lemma SuffInv.step_push_incr {kind : SuffixKind} {x : List Byte} {s p c o : Nat}
    (h : SuffInv kind x s p c o) (hguard : c + o < x.length)
    (hcmp : x.getD (c + o) 0 = x.getD (s + o) 0) (hoff : o + 1 ≠ p) :
    SuffInv kind x s p c (o + 1) := by
  obtain ⟨hp, hdvd, hspc, hop, hbound, hper, hssm⟩ := h
  have hmid : x.getD (c + o - p) 0 = x.getD (s + o) 0 := by
    obtain ⟨k, hk⟩ := hdvd
    cases k with
    | zero => omega
    | succ j =>
      have hms : p * (j + 1) = p * j + p := by ring
      have hc : c + o - p = (s + o) + p * j := by omega
      rw [hc]
      exact periodic_chain x s p (c + o) hper j (s + o) (by omega) (by omega)
  refine ⟨hp, hdvd, hspc, by omega, by omega, ?_, hssm⟩
  intro a ha hb
  rcases lt_or_ge (a + p) (c + o) with hlt | hge
  · exact hper a ha hlt
  · have ha' : a = c + o - p := by omega
    subst ha'
    rw [hmid]
    have e : c + o - p + p = c + o := by omega
    rw [e, hcmp]

/-- Push transition with `o + 1 = p` preserves the kind-generic
invariant. -/
lemma SuffInv.step_push_jump {kind : SuffixKind} {x : List Byte} {s p c o : Nat}
    (h : SuffInv kind x s p c o) (hguard : c + o < x.length)
    (hcmp : x.getD (c + o) 0 = x.getD (s + o) 0) (hoff : o + 1 = p) :
    SuffInv kind x s p (c + p) 0 := by
  obtain ⟨hp, hdvd, hspc, hop, hbound, hper, hssm⟩ := h
  obtain ⟨k, hk⟩ := hdvd
  have hmid : x.getD (c + o - p) 0 = x.getD (s + o) 0 := by
    cases k with
    | zero => omega
    | succ j =>
      have hms : p * (j + 1) = p * j + p := by ring
      have hc : c + o - p = (s + o) + p * j := by omega
      rw [hc]
      exact periodic_chain x s p (c + o) hper j (s + o) (by omega) (by omega)
  have hdvd2 : p ∣ (c + p - s) := by
    refine ⟨k + 1, ?_⟩
    have hms : p * (k + 1) = p * k + p := by ring
    omega
  refine ⟨hp, hdvd2, by omega, hp, by omega, ?_, hssm⟩
  intro a ha hb
  rcases lt_or_ge (a + p) (c + o) with hlt | hge
  · exact hper a ha hlt
  · have ha' : a = c + o - p := by omega
    subst ha'
    rw [hmid]
    have e : c + o - p + p = c + o := by omega
    rw [e, hcmp]

/-- The fueled suffix loop, for either kind, exits in an invariant state
whose window covers the whole needle. -/
lemma suffix_forward_loop_exit (x : List Byte) (kind : SuffixKind) :
    ∀ fuel s p c o, SuffInv kind x s p c o →
      (x.length - c) * (x.length + 1) + (x.length - o) < fuel →
      ∃ s2 p2 c2 o2, suffix_forward_loop x kind fuel s p c o = ⟨s2, p2⟩ ∧
        SuffInv kind x s2 p2 c2 o2 ∧ c2 + o2 = x.length := by
  intro fuel
  induction fuel with
  | zero =>
    intro s p c o _ hfuel
    exact absurd hfuel (Nat.not_lt_zero _)
  | succ fuel ih =>
    intro s p c o hinv hfuel
    simp only [suffix_forward_loop]
    by_cases hguard : c + o < x.length
    · rw [if_pos hguard]
      split
      · rename_i hcm
        cases kind <;> simp only [SuffixKind.cmp] at hcm <;> split_ifs at hcm with h1 h2 <;>
          exact ih c 1 (c + 1) 0 (hinv.step_accept hguard)
            (measure_step x.length c o (c + 1) fuel (by omega) (by omega) hfuel)
      · rename_i hcm
        cases kind <;> simp only [SuffixKind.cmp] at hcm <;> split_ifs at hcm with h1 h2 <;>
          exact ih s (c + o + 1 - s) (c + o + 1) 0 (hinv.step_skip hguard h2)
            (measure_step x.length c o (c + o + 1) fuel (by omega) (by omega) hfuel)
      · rename_i hcm
        have heqc : x.getD (c + o) 0 = x.getD (s + o) 0 := by
          cases kind <;> simp only [SuffixKind.cmp] at hcm <;>
            split_ifs at hcm with h1 h2
          · exact le_antisymm (not_lt.mp h2) (not_lt.mp h1)
          · exact le_antisymm (not_lt.mp h1) (not_lt.mp h2)
        by_cases hoo : o + 1 = p
        · rw [if_pos hoo]
          refine ih s p (c + p) 0 (hinv.step_push_jump hguard heqc hoo) ?_
          have hp := hinv.1
          exact measure_step x.length c o (c + p) fuel (by omega) (by omega) hfuel
        · rw [if_neg hoo]
          exact ih s p c (o + 1) (hinv.step_push_incr hguard heqc hoo) (by omega)
    · rw [if_neg hguard]
      refine ⟨s, p, c, o, rfl, hinv, ?_⟩
      have := hinv.2.2.2.2.1
      omega

/-- The suffix loop's initial state satisfies the kind-generic
invariant. -/
lemma SuffInv.init (kind : SuffixKind) (x : List Byte) (hn : 0 < x.length) :
    SuffInv kind x 0 1 1 0 := by
  refine ⟨by omega, ⟨1, by omega⟩, by omega, by omega, by omega, ?_, ?_⟩
  · intro a ha hb
    exact absurd hb (by omega)
  · intro i hi0 hi1
    exact absurd hi1 (by omega)

/-- The canonical fuel strictly exceeds the initial loop measure. -/
lemma suffix_fuel_measure (n : Nat) (hn : 0 < n) :
    (n - 1) * (n + 1) + (n - 0) < (n + 1) * (n + 1) := by
  have hexp : (n + 1) * (n + 1) = (n - 1) * (n + 1) + 2 * (n + 1) := by
    have h1 : n + 1 = (n - 1) + 2 := by omega
    nth_rewrite 1 [h1]
    ring
  omega

/-- The extraction result is the suffix/period of an exit state of the
invariant. -/
lemma suffix_forward_descr (needle : List Byte) (h : needle ≠ []) (kind : SuffixKind) :
    ∃ c2 o2, SuffInv kind needle (Suffix.forward needle kind).pos
      (Suffix.forward needle kind).period c2 o2 ∧ c2 + o2 = needle.length := by
  have hn : 0 < needle.length := List.length_pos.mpr h
  obtain ⟨s2, p2, c2, o2, heq, hinv, hco⟩ :=
    suffix_forward_loop_exit needle kind (suffix_fuel needle) 0 1 1 0
      (SuffInv.init kind needle hn)
      (by rw [suffix_fuel]; exact suffix_fuel_measure needle.length hn)
  refine ⟨c2, o2, ?_, hco⟩
  have hres : Suffix.forward needle kind = ⟨s2, p2⟩ := heq
  rw [hres]
  exact hinv

/-- A period of a word restricts to a period of each of its suffixes. -/
lemma isPeriodOf_drop (q : Nat) (x : List Byte) (s : Nat) (h : IsPeriodOf q x) :
    IsPeriodOf q (x.drop s) := by
  refine ⟨h.1, fun i hi => ?_⟩
  rw [getD_drop, getD_drop]
  rw [List.length_drop] at hi
  have e : s + (i + q) = (s + i) + q := by omega
  rw [e]
  exact h.2 (s + i) (by omega)

/-- The descriptor period is exactly the period of the extracted suffix:
it is a period of it, and no smaller length is.  Shared between the C7
theorem and the loop-correctness development for C1/C3. -/
lemma Suffix_forward_period_exact (needle : List Byte) (h : needle ≠ []) (kind : SuffixKind) :
    IsPeriodOf (Suffix.forward needle kind).period
      (needle.drop (Suffix.forward needle kind).pos) ∧
    (∀ q, IsPeriodOf q (needle.drop (Suffix.forward needle kind).pos) →
      (Suffix.forward needle kind).period ≤ q) := by
  obtain ⟨c2, o2, hinv, hco⟩ := suffix_forward_descr needle h kind
  obtain ⟨hp, hdvd, hspc, hop, hbound, hper, hssm⟩ := hinv
  have hmin : ∀ q, IsPeriodOf q (needle.drop (Suffix.forward needle kind).pos) →
      (Suffix.forward needle kind).period ≤ q := by
    intro q hq
    by_contra hcon
    push_neg at hcon
    obtain ⟨t, ht, hag, hstr⟩ := hssm q hq.1 hcon
    have heq := hq.2 t (by
      rw [List.length_drop]
      omega)
    rw [getD_drop, getD_drop] at heq
    have e : (Suffix.forward needle kind).pos + (t + q) =
        (Suffix.forward needle kind).pos + q + t := by omega
    rw [e] at heq
    rw [← heq] at hstr
    exact kindR_irrefl kind _ hstr
  refine ⟨⟨hp, fun i hi => ?_⟩, hmin⟩
  rw [getD_drop, getD_drop]
  rw [List.length_drop] at hi
  have e : (Suffix.forward needle kind).pos + (i + (Suffix.forward needle kind).period) =
      ((Suffix.forward needle kind).pos + i) + (Suffix.forward needle kind).period := by
    omega
  rw [e]
  exact hper _ (by omega) (by omega)

/-- C7: for every non-empty needle and either suffix kind, the descriptor
period of `Suffix::forward` is exactly the period of the extracted suffix
(it is a period, and no smaller length is), and it is at most every
period of the whole needle. -/
theorem c7_descriptor_period (needle : List Byte) (h : needle ≠ []) (kind : SuffixKind) :
    IsPeriodOf (Suffix.forward needle kind).period
      (needle.drop (Suffix.forward needle kind).pos) ∧
    (∀ q, IsPeriodOf q (needle.drop (Suffix.forward needle kind).pos) →
      (Suffix.forward needle kind).period ≤ q) ∧
    (∀ q, IsPeriodOf q needle → (Suffix.forward needle kind).period ≤ q) := by
  obtain ⟨h1, h2⟩ := Suffix_forward_period_exact needle h kind
  exact ⟨h1, h2, fun q hq => h2 q (isPeriodOf_drop q needle _ hq)⟩

/-- Witness for C7 at needle `[1, 0]` with the `Maximal` kind. -/
theorem c7_descriptor_period_witness :
    ([1, 0] : List Byte) ≠ [] ∧
    (IsPeriodOf (Suffix.forward ([1, 0] : List Byte) .Maximal).period
        (([1, 0] : List Byte).drop (Suffix.forward ([1, 0] : List Byte) .Maximal).pos) ∧
      (∀ q, IsPeriodOf q (([1, 0] : List Byte).drop
          (Suffix.forward ([1, 0] : List Byte) .Maximal).pos) →
        (Suffix.forward ([1, 0] : List Byte) .Maximal).period ≤ q) ∧
      (∀ q, IsPeriodOf q ([1, 0] : List Byte) →
        (Suffix.forward ([1, 0] : List Byte) .Maximal).period ≤ q)) :=
  ⟨by decide, c7_descriptor_period [1, 0] (by decide) .Maximal⟩

/-! ## Forward search correctness (Claims C1 and C3): infrastructure -/

lemma getD_of_get? {l : List Byte} {i : Nat} {a : Byte} (h : l.get? i = some a) :
    l.getD i 0 = a := by
  rw [List.getD_eq_getElem?_getD, ← List.get?_eq_getElem?, h]
  rfl

lemma list_eq_of_getD (u v : List Byte) (hlen : u.length = v.length)
    (h : ∀ t, t < u.length → u.getD t 0 = v.getD t 0) : u = v := by
  apply List.ext_getElem hlen
  intro i h1 h2
  have hh := h i h1
  rwa [List.getD_eq_getElem _ _ h1, List.getD_eq_getElem _ _ h2] at hh

lemma getD_append_right_off (l₁ l₂ : List Byte) (u : Nat) :
    (l₁ ++ l₂).getD (l₁.length + u) 0 = l₂.getD u 0 := by
  rw [List.getD_eq_getElem?_getD, List.getD_eq_getElem?_getD,
    List.getElem?_append_right (by omega)]
  have e : l₁.length + u - l₁.length = u := by omega
  rw [e]

/-- A match pins down every haystack character inside its window. -/
lemma MatchAt_char {n h : List Byte} {i : Nat} (hM : MatchAt n h i) :
    ∀ t, t < n.length → h.getD (i + t) 0 = n.getD t 0 := by
  intro t ht
  have hgd : n.getD t 0 = ((h.drop i).take n.length).getD t 0 := by rw [hM]
  rw [getD_take _ _ _ ht, getD_drop] at hgd
  exact hgd.symm

/-- Character agreement on an in-bounds window is a match. -/
lemma MatchAt_of_char {n h : List Byte} {i : Nat} (hlen : i + n.length ≤ h.length)
    (hc : ∀ t, t < n.length → h.getD (i + t) 0 = n.getD t 0) : MatchAt n h i := by
  show (h.drop i).take n.length = n
  apply list_eq_of_getD
  · rw [List.length_take, List.length_drop]
    omega
  · intro t ht
    rw [List.length_take, List.length_drop] at ht
    rw [getD_take _ _ _ (by omega), getD_drop]
    exact hc t (by omega)

lemma MatchAt_length {n h : List Byte} {i : Nat} (hn : n ≠ []) (hM : MatchAt n h i) :
    i + n.length ≤ h.length := by
  have hl := congrArg List.length hM
  rw [List.length_take, List.length_drop] at hl
  have hn' : 0 < n.length := List.length_pos.mpr hn
  omega

lemma MatchAt_drop (n h : List Byte) (a k : Nat) :
    MatchAt n (h.drop a) k ↔ MatchAt n h (a + k) := by
  show ((h.drop a).drop k).take n.length = n ↔ (h.drop (a + k)).take n.length = n
  rw [List.drop_drop]

/-- Characterization of the reference search, `some` case: the result is
a match and the least one at or after the start. -/
lemma naive_find_from_some (h n : List Byte) :
    ∀ a b, naive_find_from h n a = some b →
      a ≤ b ∧ MatchAt n h b ∧ ∀ j, a ≤ j → j < b → ¬ MatchAt n h j := by
  suffices H : ∀ fuel a b, h.length + 1 - a ≤ fuel → naive_find_from h n a = some b →
      a ≤ b ∧ MatchAt n h b ∧ ∀ j, a ≤ j → j < b → ¬ MatchAt n h j by
    intro a b hab
    exact H (h.length + 1 - a) a b le_rfl hab
  intro fuel
  induction fuel with
  | zero =>
    intro a b hle heq
    rw [naive_find_from, dif_neg (by omega)] at heq
    exact absurd heq (by simp)
  | succ fuel ih =>
    intro a b hle heq
    rw [naive_find_from] at heq
    by_cases hg : a + n.length ≤ h.length
    · rw [dif_pos hg] at heq
      by_cases hM : (h.drop a).take n.length = n
      · rw [if_pos hM] at heq
        obtain rfl : a = b := Option.some.inj heq
        exact ⟨le_rfl, hM, fun j h1 h2 => absurd h1 (by omega)⟩
      · rw [if_neg hM] at heq
        obtain ⟨h1, h2, h3⟩ := ih (a + 1) b (by omega) heq
        refine ⟨by omega, h2, fun j hj1 hj2 => ?_⟩
        rcases eq_or_lt_of_le hj1 with rfl | hj
        · exact hM
        · exact h3 j (by omega) hj2
    · rw [dif_neg hg] at heq
      exact absurd heq (by simp)

/-- Characterization of the reference search, `none` case. -/
lemma naive_find_from_none (h n : List Byte) (hn : n ≠ []) :
    ∀ a, naive_find_from h n a = none → ∀ j, a ≤ j → ¬ MatchAt n h j := by
  suffices H : ∀ fuel a, h.length + 1 - a ≤ fuel → naive_find_from h n a = none →
      ∀ j, a ≤ j → ¬ MatchAt n h j by
    intro a heq
    exact H (h.length + 1 - a) a le_rfl heq
  intro fuel
  induction fuel with
  | zero =>
    intro a hle _ j hj hM
    have hlen := MatchAt_length hn hM
    have hn' : 0 < n.length := List.length_pos.mpr hn
    omega
  | succ fuel ih =>
    intro a hle heq j hj hM
    rw [naive_find_from] at heq
    by_cases hg : a + n.length ≤ h.length
    · rw [dif_pos hg] at heq
      by_cases hC : (h.drop a).take n.length = n
      · rw [if_pos hC] at heq
        exact absurd heq (by simp)
      · rw [if_neg hC] at heq
        rcases eq_or_lt_of_le hj with rfl | hj'
        · exact hC hM
        · exact ih (a + 1) (by omega) heq j (by omega) hM
    · rw [dif_neg hg] at heq
      have hlen := MatchAt_length hn hM
      omega

/-- The reference search reports `none` when no match exists at or after
the start. -/
lemma naive_find_from_eq_none (h n : List Byte) :
    ∀ a, (∀ j, a ≤ j → ¬ MatchAt n h j) → naive_find_from h n a = none := by
  suffices H : ∀ fuel a, h.length + 1 - a ≤ fuel → (∀ j, a ≤ j → ¬ MatchAt n h j) →
      naive_find_from h n a = none by
    intro a hno
    exact H (h.length + 1 - a) a le_rfl hno
  intro fuel
  induction fuel with
  | zero =>
    intro a hle hno
    rw [naive_find_from, dif_neg (by omega)]
  | succ fuel ih =>
    intro a hle hno
    rw [naive_find_from]
    by_cases hg : a + n.length ≤ h.length
    · have hC : ¬((h.drop a).take n.length = n) := hno a le_rfl
      rw [dif_pos hg, if_neg hC]
      exact ih (a + 1) (by omega) (fun j hj => hno j (by omega))
    · rw [dif_neg hg]

/-- The reference search finds a match at its start position. -/
lemma naive_find_from_eq_some (h n : List Byte) (hn : n ≠ []) (a : Nat)
    (hM : MatchAt n h a) : naive_find_from h n a = some a := by
  have hC : (h.drop a).take n.length = n := hM
  rw [naive_find_from, dif_pos (MatchAt_length hn hM), if_pos hC]

/-- Skipping a match-free interval does not change the reference search. -/
lemma naive_find_from_congr (h n : List Byte) :
    ∀ d a b, b = a + d → (∀ j, a ≤ j → j < b → ¬ MatchAt n h j) →
      naive_find_from h n a = naive_find_from h n b := by
  intro d
  induction d with
  | zero =>
    intro a b hb _
    subst hb
    rfl
  | succ d ih =>
    intro a b hb hno
    have h1 : naive_find_from h n a = naive_find_from h n (a + 1) := by
      rw [naive_find_from]
      by_cases hg : a + n.length ≤ h.length
      · have hC : ¬((h.drop a).take n.length = n) := hno a le_rfl (by omega)
        rw [dif_pos hg, if_neg hC]
      · rw [dif_neg hg, naive_find_from, dif_neg (by omega)]
    rw [h1]
    exact ih (a + 1) b (by omega) (fun j hj1 hj2 => hno j (by omega) hj2)

lemma naive_find_from_congr_le (h n : List Byte) (a b : Nat) (hab : a ≤ b)
    (hno : ∀ j, a ≤ j → j < b → ¬ MatchAt n h j) :
    naive_find_from h n a = naive_find_from h n b :=
  naive_find_from_congr h n (b - a) a b (by omega) hno

/-- Characterization of `findIdx?`: a hit is the first position
satisfying the test. -/
lemma findIdx?_some_spec (p : Byte → Bool) :
    ∀ (l : List Byte) (s i : Nat), l.findIdx? p s = some i →
      s ≤ i ∧ i - s < l.length ∧ p (l.getD (i - s) 0) = true ∧
        ∀ j, j < i - s → p (l.getD j 0) = false := by
  intro l
  induction l with
  | nil =>
    intro s i heq
    simp only [List.findIdx?] at heq
    exact Option.noConfusion heq
  | cons a l ih =>
    intro s i heq
    simp only [List.findIdx?] at heq
    by_cases hp : p a = true
    · rw [if_pos hp] at heq
      obtain rfl : s = i := Option.some.inj heq
      exact ⟨le_rfl, by simp, by simpa using hp, fun j hj => absurd hj (by omega)⟩
    · rw [if_neg hp] at heq
      obtain ⟨h1, h2, h3, h4⟩ := ih (s + 1) i heq
      have his : i - s = (i - (s + 1)) + 1 := by omega
      refine ⟨by omega, by simp only [List.length_cons]; omega, ?_, ?_⟩
      · rw [his]
        simpa using h3
      · intro j hj
        cases j with
        | zero =>
          simp only [List.getD_cons_zero]
          revert hp
          cases p a <;> simp
        | succ j =>
          simp only [List.getD_cons_succ]
          exact h4 j (by omega)

/-- Characterization of `findIdx?`: a miss means no position satisfies
the test. -/
lemma findIdx?_none_spec (p : Byte → Bool) :
    ∀ (l : List Byte) (s : Nat), l.findIdx? p s = none →
      ∀ j, j < l.length → p (l.getD j 0) = false := by
  intro l
  induction l with
  | nil =>
    intro s _ j hj
    exact absurd hj (by simp)
  | cons a l ih =>
    intro s heq j hj
    simp only [List.findIdx?] at heq
    by_cases hp : p a = true
    · rw [if_pos hp] at heq
      exact Option.noConfusion heq
    · rw [if_neg hp] at heq
      cases j with
      | zero =>
        simp only [List.getD_cons_zero]
        revert hp
        cases p a <;> simp
      | succ j =>
        simp only [List.getD_cons_succ]
        exact ih (s + 1) heq j (by simpa using hj)

/-- Occurrence of a singleton needle is presence of the byte. -/
lemma MatchAt_singleton (b : Byte) (h : List Byte) (j : Nat) :
    MatchAt [b] h j ↔ j < h.length ∧ h.getD j 0 = b := by
  constructor
  · intro hM
    have hl := MatchAt_length (by simp) hM
    have hc := MatchAt_char hM 0 (by simp)
    simp only [List.length_singleton] at hl
    rw [Nat.add_zero] at hc
    exact ⟨by omega, by simpa using hc⟩
  · rintro ⟨h1, h2⟩
    refine MatchAt_of_char (by simp only [List.length_singleton]; omega) ?_
    intro t ht
    simp only [List.length_singleton] at ht
    have ht0 : t = 0 := by omega
    subst ht0
    rw [Nat.add_zero]
    simpa using h2

/-- The modelled `memchr` agrees with the reference search on the
singleton needle. -/
lemma memchr_eq_naive (b : Byte) (h : List Byte) : memchr b h = naive_find h [b] := by
  rw [memchr, naive_find]
  rcases hm : h.findIdx? (· = b) with _ | i <;>
    rcases hn : naive_find_from h [b] 0 with _ | j
  · rfl
  · exfalso
    obtain ⟨_, hM, _⟩ := naive_find_from_some h [b] 0 j hn
    rw [MatchAt_singleton] at hM
    have hc := findIdx?_none_spec (· = b) h 0 hm j hM.1
    rw [hM.2] at hc
    simp at hc
  · exfalso
    obtain ⟨h1, h2, h3, _⟩ := findIdx?_some_spec (· = b) h 0 i hm
    rw [Nat.sub_zero] at h2 h3
    have hM : MatchAt [b] h i := (MatchAt_singleton b h i).mpr ⟨h2, by simpa using h3⟩
    exact naive_find_from_none h [b] (by simp) 0 hn i (by omega) hM
  · obtain ⟨hi1, hi2, hi3, hi4⟩ := findIdx?_some_spec (· = b) h 0 i hm
    rw [Nat.sub_zero] at hi2 hi3
    simp only [Nat.sub_zero] at hi4
    obtain ⟨hj1, hj2, hj3⟩ := naive_find_from_some h [b] 0 j hn
    rw [MatchAt_singleton] at hj2
    have hij : ¬ i < j := by
      intro hlt
      have hM : MatchAt [b] h i := (MatchAt_singleton b h i).mpr ⟨hi2, by simpa using hi3⟩
      exact hj3 i (by omega) hlt hM
    have hji : ¬ j < i := by
      intro hlt
      have hc := hi4 j hlt
      rw [hj2.2] at hc
      simp at hc
    have hieq : i = j := by omega
    rw [hieq]

/-- Or-accumulation never clears a bit. -/
lemma testBit_foldl_or (l : List Byte) :
    ∀ (a k : Nat), a.testBit k = true →
      (l.foldl (fun bits b => bits ||| (1 <<< (b % 64))) a).testBit k = true := by
  induction l with
  | nil =>
    intro a k hk
    exact hk
  | cons c l ih =>
    intro a k hk
    simp only [List.foldl_cons]
    exact ih _ k (by simp [Nat.testBit_or, hk])

/-- Every needle byte leaves its bit in the accumulated set. -/
lemma foldl_or_testBit_of_mem (b : Byte) :
    ∀ (l : List Byte) (a : Nat), b ∈ l →
      (l.foldl (fun bits c => bits ||| (1 <<< (c % 64))) a).testBit (b % 64) = true := by
  intro l
  induction l with
  | nil =>
    intro a hmem
    exact absurd hmem (List.not_mem_nil _)
  | cons c l ih =>
    intro a hmem
    simp only [List.foldl_cons]
    rcases List.mem_cons.mp hmem with rfl | h'
    · apply testBit_foldl_or
      rw [Nat.testBit_or]
      have h1 : (1 <<< (b % 64)).testBit (b % 64) = true := by
        rw [Nat.shiftLeft_eq, one_mul]
        exact Nat.testBit_two_pow_self
      rw [h1]
      simp
    · exact ih _ h'

/-- The approximate byte set has no false negatives: every needle byte
is reported as contained. -/
lemma byteset_contains_of_mem (x : List Byte) (b : Byte) (hb : b ∈ x) :
    (ApproximateByteSet.new x).contains b = true := by
  have hbit : (x.foldl (fun bits c => bits ||| (1 <<< (c % 64))) 0).testBit (b % 64) = true :=
    foldl_or_testBit_of_mem b x 0 hb
  simp only [ApproximateByteSet.contains, ApproximateByteSet.new, ne_eq]
  rw [decide_eq_true_eq]
  intro h0
  have h1 : ((x.foldl (fun bits c => bits ||| (1 <<< (c % 64))) 0) &&&
      (1 <<< (b % 64))).testBit (b % 64) =
      (x.foldl (fun bits c => bits ||| (1 <<< (c % 64))) 0).testBit (b % 64) := by
    rw [Nat.shiftLeft_eq, one_mul, Nat.testBit_and, Nat.testBit_two_pow_self, Bool.and_true]
  rw [h0, Nat.zero_testBit, hbit] at h1
  exact Bool.noConfusion h1

/-- A prefilter step that reports exhaustion leaves no match at or after
the position, given the soundness contract. -/
lemma pre_step_none_spec {σ : Type} (pre : PreOracle σ) (prefilter : Bool) (s : σ)
    (h x : List Byte) (pos : Nat)
    (hctr : prefilter = true → ∀ s' hay,
      (∀ k s'', pre.find s' hay x = some (k, s'') → ∀ j, j < k → ¬ MatchAt x hay j) ∧
      (pre.find s' hay x = none → ∀ j, ¬ MatchAt x hay j))
    (hps : pre_step pre prefilter s h x pos = none) :
    ∀ j, pos ≤ j → ¬ MatchAt x h j := by
  intro j hj hM
  unfold pre_step at hps
  by_cases hc : (prefilter && pre.is_effective s) = true
  · rw [if_pos hc] at hps
    have hpt : prefilter = true := by
      revert hc
      cases prefilter <;> simp
    rcases hf : pre.find s (h.drop pos) x with _ | ⟨k, s'⟩ <;> rw [hf] at hps
    · refine (hctr hpt s (h.drop pos)).2 hf (j - pos) ?_
      rw [MatchAt_drop]
      have e : pos + (j - pos) = j := by omega
      rwa [e]
    · exact absurd hps (by simp)
  · rw [if_neg hc] at hps
    exact absurd hps (by simp)

/-- A prefilter step that advances skips no match, given the soundness
contract; when it did not run, the position is unchanged. -/
lemma pre_step_some_spec {σ : Type} (pre : PreOracle σ) (prefilter : Bool) (s : σ)
    (h x : List Byte) (pos pos1 : Nat) (s1 : σ) (ran : Bool)
    (hctr : prefilter = true → ∀ s' hay,
      (∀ k s'', pre.find s' hay x = some (k, s'') → ∀ j, j < k → ¬ MatchAt x hay j) ∧
      (pre.find s' hay x = none → ∀ j, ¬ MatchAt x hay j))
    (hps : pre_step pre prefilter s h x pos = some (pos1, s1, ran)) :
    pos ≤ pos1 ∧ (∀ j, pos ≤ j → j < pos1 → ¬ MatchAt x h j) ∧
      (ran = false → pos1 = pos) := by
  unfold pre_step at hps
  by_cases hc : (prefilter && pre.is_effective s) = true
  · rw [if_pos hc] at hps
    have hpt : prefilter = true := by
      revert hc
      cases prefilter <;> simp
    rcases hf : pre.find s (h.drop pos) x with _ | ⟨k, s'⟩ <;> rw [hf] at hps
    · exact absurd hps (by simp)
    · obtain ⟨h1, h2, h3⟩ : pos + k = pos1 ∧ s' = s1 ∧ true = ran := by
        simpa [Prod.ext_iff] using hps
      refine ⟨by omega, fun j hj1 hj2 => ?_, fun hr => by rw [← h3] at hr; exact absurd hr (by simp)⟩
      intro hM
      refine (hctr hpt s (h.drop pos)).1 k s' hf (j - pos) (by omega) ?_
      rw [MatchAt_drop]
      have e : pos + (j - pos) = j := by omega
      rwa [e]
  · rw [if_neg hc] at hps
    obtain ⟨h1, h2, h3⟩ : pos = pos1 ∧ s = s1 ∧ false = ran := by
      simpa [Prod.ext_iff] using hps
    exact ⟨by omega, fun j hj1 hj2 => absurd (lt_of_le_of_lt hj1 hj2) (by omega), fun _ => h1.symm⟩

/-- Full specification of the upward scan: it returns the first
disagreement position in `[j, bound)`, or `bound` if there is none. -/
lemma scan_up_aux_spec (ndl hay : List Byte) (base : Nat) :
    ∀ r j, j + r ≤ ndl.length → base + j + r ≤ hay.length →
      ∃ i, scan_up_aux ndl hay base j r = some i ∧ j ≤ i ∧ i ≤ j + r ∧
        (∀ t, j ≤ t → t < i → ndl.getD t 0 = hay.getD (base + t) 0) ∧
        (i < j + r → ndl.getD i 0 ≠ hay.getD (base + i) 0) := by
  intro r
  induction r with
  | zero =>
    intro j h1 h2
    exact ⟨j, rfl, le_rfl, by omega, fun t ht1 ht2 => absurd ht2 (by omega),
      fun hx => absurd hx (by omega)⟩
  | succ r ih =>
    intro j h1 h2
    obtain ⟨a, ha⟩ := get?_some_of_lt (l := ndl) (i := j) (by omega)
    obtain ⟨b, hb⟩ := get?_some_of_lt (l := hay) (i := base + j) (by omega)
    simp only [scan_up_aux, ha, hb]
    by_cases hab : a = b
    · rw [if_pos hab]
      obtain ⟨i, heq, hi1, hi2, hag, hmis⟩ := ih (j + 1) (by omega) (by omega)
      refine ⟨i, heq, by omega, by omega, fun t ht1 ht2 => ?_, fun hi => hmis (by omega)⟩
      rcases eq_or_lt_of_le ht1 with rfl | ht'
      · rw [getD_of_get? ha, getD_of_get? hb]
        exact hab
      · exact hag t (by omega) ht2
    · rw [if_neg hab]
      refine ⟨j, rfl, le_rfl, by omega, fun t ht1 ht2 => absurd ht2 (by omega), fun _ => ?_⟩
      rw [getD_of_get? ha, getD_of_get? hb]
      exact hab

lemma scan_up_spec (ndl hay : List Byte) (base bound j : Nat)
    (h1 : bound ≤ ndl.length) (h2 : base + bound ≤ hay.length) (h3 : j ≤ bound) :
    ∃ i, scan_up ndl hay base bound j = some i ∧ j ≤ i ∧ i ≤ bound ∧
      (∀ t, j ≤ t → t < i → ndl.getD t 0 = hay.getD (base + t) 0) ∧
      (i < bound → ndl.getD i 0 ≠ hay.getD (base + i) 0) := by
  obtain ⟨i, heq, hi1, hi2, hag, hmis⟩ :=
    scan_up_aux_spec ndl hay base (bound - j) j (by omega) (by omega)
  rw [scan_up]
  exact ⟨i, heq, hi1, by omega, hag, fun hi => hmis (by omega)⟩

/-- Full specification of the downward scan of the small-period loop. -/
lemma scan_down_spec (ndl hay : List Byte) (pos shift : Nat) :
    ∀ c, c < ndl.length → pos + c < hay.length →
      ∃ j, scan_down ndl hay pos shift c = some j ∧ j ≤ c ∧
        (∀ t, j < t → t ≤ c → ndl.getD t 0 = hay.getD (pos + t) 0) ∧
        (shift < j → ndl.getD j 0 ≠ hay.getD (pos + j) 0) := by
  intro c
  induction c with
  | zero =>
    intro h1 h2
    exact ⟨0, rfl, le_rfl, fun t ht1 ht2 => absurd ht1 (by omega),
      fun hx => absurd hx (by omega)⟩
  | succ c ih =>
    intro h1 h2
    simp only [scan_down]
    by_cases hs : shift < c + 1
    · rw [if_pos hs]
      obtain ⟨a, ha⟩ := get?_some_of_lt (l := ndl) (i := c + 1) h1
      obtain ⟨b, hb⟩ := get?_some_of_lt (l := hay) (i := pos + (c + 1)) h2
      simp only [ha, hb]
      by_cases hab : a = b
      · rw [if_pos hab]
        obtain ⟨j, heq, hj1, hag, hmis⟩ := ih (by omega) (by omega)
        refine ⟨j, heq, by omega, fun t ht1 ht2 => ?_, hmis⟩
        by_cases htc : t = c + 1
        · subst htc
          rw [getD_of_get? ha, getD_of_get? hb]
          exact hab
        · exact hag t ht1 (by omega)
      · rw [if_neg hab]
        refine ⟨c + 1, rfl, le_rfl, fun t ht1 ht2 => absurd ht1 (by omega), fun _ => ?_⟩
        rw [getD_of_get? ha, getD_of_get? hb]
        exact hab
    · rw [if_neg hs]
      exact ⟨c + 1, rfl, le_rfl, fun t ht1 ht2 => absurd ht1 (by omega),
        fun hx => absurd hx (by omega)⟩

/-- Full specification of the left check of the large-period loop. -/
lemma check_left_spec (ndl hay : List Byte) (pos : Nat) :
    ∀ c, c ≤ ndl.length → pos + c ≤ hay.length →
      ∃ ok, check_left ndl hay pos c = some ok ∧
        (ok = true → ∀ t, t < c → ndl.getD t 0 = hay.getD (pos + t) 0) ∧
        (ok = false → ∃ t, t < c ∧ ndl.getD t 0 ≠ hay.getD (pos + t) 0) := by
  intro c
  induction c with
  | zero =>
    intro h1 h2
    exact ⟨true, rfl, fun _ t ht => absurd ht (by omega), fun hx => absurd hx (by simp)⟩
  | succ c ih =>
    intro h1 h2
    simp only [check_left]
    obtain ⟨a, ha⟩ := get?_some_of_lt (l := ndl) (i := c) (by omega)
    obtain ⟨b, hb⟩ := get?_some_of_lt (l := hay) (i := pos + c) (by omega)
    simp only [ha, hb]
    by_cases hab : a = b
    · rw [if_pos hab]
      obtain ⟨ok, heq, htrue, hfalse⟩ := ih (by omega) (by omega)
      refine ⟨ok, heq, fun hok t ht => ?_, fun hok => ?_⟩
      · by_cases htc : t = c
        · subst htc
          rw [getD_of_get? ha, getD_of_get? hb]
          exact hab
        · exact htrue hok t (by omega)
      · obtain ⟨t, ht1, ht2⟩ := hfalse hok
        exact ⟨t, by omega, ht2⟩
    · rw [if_neg hab]
      refine ⟨false, rfl, fun hx => absurd hx (by simp), fun _ => ⟨c, by omega, ?_⟩⟩
      rw [getD_of_get? ha, getD_of_get? hb]
      exact hab

/-! ## Critical factorization: consequences of two-sided maximality -/

lemma mem_le_listMaxB (x : List Byte) : ∀ b, b ∈ x → b ≤ listMaxB x := by
  induction x with
  | nil =>
    intro b hb
    exact absurd hb (List.not_mem_nil _)
  | cons a l ih =>
    intro b hb
    rw [listMaxB, List.foldr_cons]
    rcases List.mem_cons.mp hb with rfl | h'
    · exact le_max_left _ _
    · exact le_trans (ih b h') (le_max_right _ _)

lemma getD_le_listMaxB (x : List Byte) (j : Nat) (hj : j < x.length) :
    x.getD j 0 ≤ listMaxB x := by
  rw [List.getD_eq_getElem _ _ hj]
  exact mem_le_listMaxB x _ (List.getElem_mem hj)

lemma dualize_length (x : List Byte) : (dualize x).length = x.length := by
  rw [dualize, List.length_map]

lemma dualize_getD (x : List Byte) (j : Nat) (hj : j < x.length) :
    (dualize x).getD j 0 = listMaxB x - x.getD j 0 := by
  have h2 : j < (dualize x).length := by
    rw [dualize_length]
    exact hj
  rw [List.getD_eq_getElem _ _ h2, List.getD_eq_getElem _ _ hj]
  simp [dualize]

/-- Dualization inverts the strict comparison of in-range characters. -/
lemma dual_lt_iff (x : List Byte) (j k : Nat) (hj : j < x.length) (hk : k < x.length) :
    (dualize x).getD j 0 < (dualize x).getD k 0 ↔ x.getD k 0 < x.getD j 0 := by
  rw [dualize_getD x j hj, dualize_getD x k hk]
  exact tsub_lt_tsub_iff_left_of_le (getD_le_listMaxB x j hj)

/-- Dualization preserves equality of in-range characters. -/
lemma dual_eq_iff (x : List Byte) (j k : Nat) (hj : j < x.length) (hk : k < x.length) :
    (dualize x).getD j 0 = (dualize x).getD k 0 ↔ x.getD j 0 = x.getD k 0 := by
  constructor
  · intro he
    refine le_antisymm (le_of_not_lt fun hl => ?_) (le_of_not_lt fun hl => ?_)
    · have h2 := (dual_lt_iff x j k hj hk).mpr hl
      rw [he] at h2
      exact lt_irrefl _ h2
    · have h2 := (dual_lt_iff x k j hk hj).mpr hl
      rw [he] at h2
      exact lt_irrefl _ h2
  · intro he
    rw [dualize_getD x j hj, dualize_getD x k hk, he]

/-- The minimal-suffix loop on a word is the maximal-suffix loop on its
dual, for every reachable state (the suffix start never passes the
candidate start). -/
lemma suffix_loop_dual (x : List Byte) :
    ∀ fuel s p c o, s ≤ c →
      suffix_forward_loop x .Minimal fuel s p c o =
        suffix_forward_loop (dualize x) .Maximal fuel s p c o := by
  intro fuel
  induction fuel with
  | zero =>
    intro s p c o _
    rfl
  | succ fuel ih =>
    intro s p c o hsc
    simp only [suffix_forward_loop, dualize_length]
    by_cases hguard : c + o < x.length
    · rw [if_pos hguard, if_pos hguard]
      have hlt1 := dual_lt_iff x (c + o) (s + o) hguard (by omega)
      have hlt2 := dual_lt_iff x (s + o) (c + o) (by omega) hguard
      have hcmp : SuffixKind.cmp .Maximal ((dualize x).getD (s + o) 0)
          ((dualize x).getD (c + o) 0) =
          SuffixKind.cmp .Minimal (x.getD (s + o) 0) (x.getD (c + o) 0) := by
        simp only [SuffixKind.cmp]
        by_cases hA : x.getD (c + o) 0 < x.getD (s + o) 0
        · rw [if_pos hA, if_pos (hlt2.mpr hA)]
        · rw [if_neg hA, if_neg (fun hcon => hA (hlt2.mp hcon))]
          by_cases hS : x.getD (s + o) 0 < x.getD (c + o) 0
          · rw [if_pos hS, if_pos (hlt1.mpr hS)]
          · rw [if_neg hS, if_neg (fun hcon => hS (hlt1.mp hcon))]
      rw [hcmp]
      cases hcm : SuffixKind.cmp .Minimal (x.getD (s + o) 0) (x.getD (c + o) 0) with
      | Accept => exact ih c 1 (c + 1) 0 (by omega)
      | Skip => exact ih s (c + o + 1 - s) (c + o + 1) 0 (by omega)
      | Push =>
        by_cases hoo : o + 1 = p
        · rw [if_pos hoo, if_pos hoo]
          exact ih s p (c + p) 0 (by omega)
        · rw [if_neg hoo, if_neg hoo]
          exact ih s p c (o + 1) hsc
    · rw [if_neg hguard, if_neg hguard]

/-- `Suffix::forward` with the `Minimal` kind is `Suffix::forward` with
the `Maximal` kind on the dualized needle. -/
lemma Suffix_forward_dual (x : List Byte) :
    Suffix.forward x .Minimal = Suffix.forward (dualize x) .Maximal := by
  rw [Suffix.forward, Suffix.forward, suffix_fuel, suffix_fuel, dualize_length]
  exact suffix_loop_dual x ((x.length + 1) * (x.length + 1)) 0 1 1 0 (by omega)

/-- Packaged maximality of the `Maximal`-kind extraction position. -/
lemma Suffix_forward_max_spec (x : List Byte) (hx : 0 < x.length) :
    (Suffix.forward x .Maximal).pos < x.length ∧
    ∀ i, i < x.length → x.drop i ≤ x.drop (Suffix.forward x .Maximal).pos := by
  have hinv : MaxInv x 0 1 1 0 := by
    refine ⟨by omega, ⟨1, by omega⟩, by omega, by omega, by omega, ?_, ?_, ?_⟩
    · intro a ha hb
      exact absurd hb (by omega)
    · intro i hi0 hi1
      exact absurd hi1 (by omega)
    · intro r hr hrne
      exact absurd (by omega : r = 0) hrne
  have hfl : (x.length - 1) * (x.length + 1) + (x.length - 0) < suffix_fuel x := by
    rw [suffix_fuel]
    exact suffix_fuel_measure x.length hx
  exact suffix_forward_loop_max x (suffix_fuel x) 0 1 1 0 hinv hfl

/-- Packaged maximality of the `Minimal`-kind extraction position, over
the dualized word. -/
lemma Suffix_forward_min_spec (x : List Byte) (hx : 0 < x.length) :
    (Suffix.forward x .Minimal).pos < x.length ∧
    ∀ i, i < x.length →
      (dualize x).drop i ≤ (dualize x).drop (Suffix.forward x .Minimal).pos := by
  have hd := Suffix_forward_max_spec (dualize x) (by rw [dualize_length]; exact hx)
  rw [← Suffix_forward_dual, dualize_length] at hd
  exact ⟨hd.1, fun i hi => hd.2 i hi⟩

/-- The critical position is one of the two extraction positions, and
bounds both. -/
lemma forward_params_cases (x : List Byte) :
    ((forward_params x).2 = (Suffix.forward x .Maximal).pos ∨
      (forward_params x).2 = (Suffix.forward x .Minimal).pos) ∧
    (Suffix.forward x .Maximal).pos ≤ (forward_params x).2 ∧
    (Suffix.forward x .Minimal).pos ≤ (forward_params x).2 := by
  rw [forward_params]
  by_cases hcmp : (Suffix.forward x SuffixKind.Minimal).pos >
      (Suffix.forward x SuffixKind.Maximal).pos
  · rw [if_pos hcmp]
    refine ⟨Or.inr rfl, ?_, le_rfl⟩
    show (Suffix.forward x SuffixKind.Maximal).pos ≤ (Suffix.forward x SuffixKind.Minimal).pos
    omega
  · rw [if_neg hcmp]
    refine ⟨Or.inl rfl, le_rfl, ?_⟩
    show (Suffix.forward x SuffixKind.Minimal).pos ≤ (Suffix.forward x SuffixKind.Maximal).pos
    omega

/-- The construction parameters are the descriptor of one of the two
kinds. -/
lemma forward_params_descr (x : List Byte) :
    ∃ kind : SuffixKind, (forward_params x).1 = (Suffix.forward x kind).period ∧
      (forward_params x).2 = (Suffix.forward x kind).pos := by
  rw [forward_params]
  by_cases hcmp : (Suffix.forward x SuffixKind.Minimal).pos >
      (Suffix.forward x SuffixKind.Maximal).pos
  · rw [if_pos hcmp]
    exact ⟨.Minimal, rfl, rfl⟩
  · rw [if_neg hcmp]
    exact ⟨.Maximal, rfl, rfl⟩

/-- A word has no clipped local repetition of length at most the start
of its (kind-)maximal suffix. -/
lemma no_local_le_max (y : List Byte) (cm r : Nat)
    (hmax : ∀ i, i < y.length → y.drop i ≤ y.drop cm)
    (hc : cm < y.length) (hr : 0 < r) (hrc : r ≤ cm)
    (hagree : ∀ j, j < cm → cm ≤ j + r → j + r < y.length → y.getD j 0 = y.getD (j + r) 0) :
    False := by
  by_cases hfull : cm + r ≤ y.length
  · have hagree' : ∀ u, u < r → y.getD (cm - r + u) 0 = y.getD (cm + u) 0 := by
      intro u hu
      have e : cm - r + u + r = cm + u := by omega
      have hh := hagree (cm - r + u) (by omega) (by omega) (by omega)
      rwa [e] at hh
    have hw : (y.drop (cm - r)).take r = (y.drop cm).take r :=
      take_drop_eq_of_agree y (cm - r) cm r (by omega) (by omega) hagree'
    have hsplit1 : y.drop (cm - r) = (y.drop cm).take r ++ y.drop cm := by
      have h0 := drop_eq_take_append y (cm - r) r
      rw [hw] at h0
      have e : cm - r + r = cm := by omega
      rwa [e] at h0
    have hsplit2 : y.drop cm = (y.drop cm).take r ++ y.drop (cm + r) :=
      drop_eq_take_append y cm r
    have hvv : y.drop cm ≤ y.drop (cm + r) := by
      refine le_of_not_lt ?_
      intro hgt
      have h2 : (y.drop cm).take r ++ y.drop (cm + r) < (y.drop cm).take r ++ y.drop cm :=
        (append_left_lt_iff _ _ _).mpr hgt
      rw [← hsplit2, ← hsplit1] at h2
      exact absurd h2 (not_lt.mpr (hmax (cm - r) (by omega)))
    by_cases hend : cm + r < y.length
    · have hback : y.drop (cm + r) ≤ y.drop cm := hmax (cm + r) hend
      have heq : y.drop cm = y.drop (cm + r) := le_antisymm hvv hback
      have hlen := congrArg List.length heq
      rw [List.length_drop, List.length_drop] at hlen
      omega
    · have hnil : y.drop (cm + r) = [] := List.drop_eq_nil_of_le (by omega)
      rw [hnil] at hvv
      have hdnil : y.drop cm = [] := le_antisymm hvv (nil_le_list _)
      have hlen := congrArg List.length hdnil
      rw [List.length_drop] at hlen
      simp at hlen
      omega
  · have hagree' : ∀ u, u < y.length - cm → y.getD (cm - r + u) 0 = y.getD (cm + u) 0 := by
      intro u hu
      have e : cm - r + u + r = cm + u := by omega
      have hh := hagree (cm - r + u) (by omega) (by omega) (by omega)
      rwa [e] at hh
    have hw : (y.drop (cm - r)).take (y.length - cm) = (y.drop cm).take (y.length - cm) :=
      take_drop_eq_of_agree y (cm - r) cm (y.length - cm) (by omega) (by omega) hagree'
    have hfull2 : (y.drop cm).take (y.length - cm) = y.drop cm := by
      rw [← List.length_drop]
      exact List.take_length _
    have hpre2 : y.drop cm <+: y.drop (cm - r) := by
      rw [← hfull2, ← hw]
      exact List.take_prefix _ _
    have hlt : y.drop cm < y.drop (cm - r) :=
      prefix_lt_of_length_lt hpre2 (by rw [List.length_drop, List.length_drop]; omega)
    exact absurd hlt (not_lt.mpr (hmax (cm - r) (by omega)))

/-- With a global period no longer than the maximal-suffix start, the
maximal suffix is a proper prefix of an earlier suffix — impossible. -/
lemma drop_lt_of_global (y : List Byte) (P c : Nat) (hP : IsPeriodOf P y)
    (hPc : P ≤ c) (hc : c < y.length) : y.drop c < y.drop (c - P) := by
  have hagree : ∀ u, u < y.length - c → y.getD (c - P + u) 0 = y.getD (c + u) 0 := by
    intro u hu
    have e : c - P + u + P = c + u := by omega
    have hh := hP.2 (c - P + u) (by omega)
    rwa [e] at hh
  have hw : (y.drop (c - P)).take (y.length - c) = (y.drop c).take (y.length - c) :=
    take_drop_eq_of_agree y (c - P) c (y.length - c) (by omega) (by omega) hagree
  have hfull : (y.drop c).take (y.length - c) = y.drop c := by
    rw [← List.length_drop]
    exact List.take_length _
  have hpre2 : y.drop c <+: y.drop (c - P) := by
    rw [← hfull, ← hw]
    exact List.take_prefix _ _
  refine prefix_lt_of_length_lt hpre2 ?_
  rw [List.length_drop, List.length_drop]
  have := hP.1
  omega

/-- No word can disagree with its `r`-shift for the first time, with the
larger character on the shifted side, at or after the start of its
maximal suffix. -/
lemma no_asym_violation (y : List Byte) (cm r j : Nat)
    (hmax : ∀ i, i < y.length → y.drop i ≤ y.drop cm)
    (hj : cm ≤ j) (hjr : j + r < y.length)
    (hagree : ∀ t, t < j → y.getD t 0 = y.getD (t + r) 0)
    (hlt : y.getD j 0 < y.getD (j + r) 0) : False := by
  have hvW : y.drop cm < y.drop (r + cm) := by
    refine lex_of_agree_of_lt (j - cm) _ _ (by rw [List.length_drop]; omega)
      (by rw [List.length_drop]; omega) (fun u hu => ?_) ?_
    · rw [getD_drop, getD_drop]
      have e : r + cm + u = (cm + u) + r := by omega
      rw [e]
      exact hagree (cm + u) (by omega)
    · rw [getD_drop, getD_drop]
      have e1 : cm + (j - cm) = j := by omega
      have e2 : r + cm + (j - cm) = j + r := by omega
      rw [e1, e2]
      exact hlt
  exact absurd hvW (not_lt.mpr (hmax (r + cm) (by omega)))

/-- Transfer of a straddling local repetition to the dual word. -/
lemma localAt_dualize (x : List Byte) (c r : Nat) (h : LocalAt x c r) :
    LocalAt (dualize x) c r := by
  intro j hj hcr hjr
  rw [dualize_length] at hjr
  rw [dual_eq_iff x j (j + r) (by omega) hjr]
  exact h j hj hcr hjr

/-- Transfer of a global period to the dual word. -/
lemma isPeriodOf_dualize (x : List Byte) (P : Nat) (h : IsPeriodOf P x) :
    IsPeriodOf P (dualize x) := by
  refine ⟨h.1, fun i hi => ?_⟩
  rw [dualize_length] at hi
  rw [dual_eq_iff x i (i + P) (by omega) hi]
  exact h.2 i hi

/-- The critical factorization property of the constructed critical
position: every straddling local repetition extends to a global period
of the needle. -/
lemma localAt_imp_period (x : List Byte) (hx : 0 < x.length) (r : Nat) (hr : 0 < r)
    (hloc : LocalAt x (forward_params x).2 r) : IsPeriodOf r x := by
  obtain ⟨hA1, hA2⟩ := Suffix_forward_max_spec x hx
  obtain ⟨hB1, hB2⟩ := Suffix_forward_min_spec x hx
  obtain ⟨hcases, hcA, hcB⟩ := forward_params_cases x
  set c := (forward_params x).2 with hc
  by_cases hrc : r ≤ c
  · exfalso
    rcases hcases with hceq | hceq
    · refine no_local_le_max x c r (fun i hi => ?_) (by rw [hceq]; exact hA1) hr hrc
        (fun j h1 h2 h3 => hloc j h1 h2 h3)
      rw [hceq]
      exact hA2 i hi
    · refine no_local_le_max (dualize x) c r (fun i hi => ?_)
        (by rw [dualize_length, hceq]; exact hB1) hr hrc
        (fun j h1 h2 h3 => localAt_dualize x c r hloc j h1 h2 h3)
      rw [dualize_length] at hi
      rw [hceq]
      exact hB2 i hi
  · push_neg at hrc
    refine ⟨hr, ?_⟩
    by_contra hviol
    push_neg at hviol
    obtain ⟨i0, hi0r, hi0ne⟩ := hviol
    have hex : ∃ i, i + r < x.length ∧ x.getD i 0 ≠ x.getD (i + r) 0 := ⟨i0, hi0r, hi0ne⟩
    classical
    obtain ⟨hjr, hjne⟩ := Nat.find_spec hex
    set js := Nat.find hex with hjs
    have hagree : ∀ t, t < js → t + r < x.length → x.getD t 0 = x.getD (t + r) 0 := by
      intro t ht htr
      have hmin := Nat.find_min hex ht
      push_neg at hmin
      exact hmin htr
    have hjsc : c ≤ js := by
      by_contra hjsc
      push_neg at hjsc
      exact hjne (hloc js hjsc (by omega) hjr)
    rcases Nat.lt_or_ge (x.getD js 0) (x.getD (js + r) 0) with hlt | hge
    · exact no_asym_violation x (Suffix.forward x .Maximal).pos r js hA2 (by omega) hjr
        (fun t ht => hagree t ht (by omega)) hlt
    · have hlt' : x.getD (js + r) 0 < x.getD js 0 := lt_of_le_of_ne hge (Ne.symm hjne)
      refine no_asym_violation (dualize x) (Suffix.forward x .Minimal).pos r js
        (fun i hi => hB2 i (by rwa [dualize_length] at hi))
        (by omega) (by rw [dualize_length]; omega) (fun t ht => ?_) ?_
      · rw [dual_eq_iff x t (t + r) (by omega) (by omega)]
        exact hagree t ht (by omega)
      · rw [dual_lt_iff x js (js + r) (by omega) (by omega)]
        exact hlt'

/-- Every global period of the needle exceeds the critical position. -/
lemma period_gt_crit (x : List Byte) (hx : 0 < x.length) (P : Nat)
    (hP : IsPeriodOf P x) : (forward_params x).2 < P := by
  obtain ⟨hA1, hA2⟩ := Suffix_forward_max_spec x hx
  obtain ⟨hB1, hB2⟩ := Suffix_forward_min_spec x hx
  obtain ⟨hcases, hcA, hcB⟩ := forward_params_cases x
  set c := (forward_params x).2 with hc
  have hcm : c < x.length := by
    rcases hcases with h | h
    · rw [h]
      exact hA1
    · rw [h]
      exact hB1
  by_contra hcon
  push_neg at hcon
  rcases hcases with hceq | hceq
  · have hlt := drop_lt_of_global x P c hP hcon hcm
    have hle := hA2 (c - P) (by omega)
    rw [← hceq] at hle
    exact absurd hlt (not_lt.mpr hle)
  · have hPd : IsPeriodOf P (dualize x) := isPeriodOf_dualize x P hP
    have hlt := drop_lt_of_global (dualize x) P c hPd hcon
      (by rw [dualize_length]; exact hcm)
    have hle := hB2 (c - P) (by omega)
    rw [← hceq] at hle
    exact absurd hlt (not_lt.mpr hle)

/-- Character form of a period of a suffix. -/
lemma isPeriodOf_drop_chars (y : List Byte) (c q : Nat)
    (h : IsPeriodOf q (y.drop c)) :
    ∀ a, c ≤ a → a + q < y.length → y.getD a 0 = y.getD (a + q) 0 := by
  intro a ha haq
  have h2 := h.2 (a - c) (by rw [List.length_drop]; omega)
  rw [getD_drop, getD_drop] at h2
  have e1 : c + (a - c) = a := by omega
  have e2 : c + (a - c + q) = a + q := by omega
  rwa [e1, e2] at h2

/-- If the needle has any global period that leaves room to the right of
the critical position, then the descriptor period itself is a global
period of the needle. -/
lemma global_gives_q_period (x : List Byte) (hx : x ≠ []) (P : Nat)
    (hP : IsPeriodOf P x) (hcP : (forward_params x).2 + P < x.length) :
    IsPeriodOf (forward_params x).1 x := by
  obtain ⟨kind, hq1, hq2⟩ := forward_params_descr x
  set q := (forward_params x).1 with hqdef
  set c := (forward_params x).2 with hcdef
  obtain ⟨hqper, hqmin⟩ := Suffix_forward_period_exact x hx kind
  rw [← hq1, ← hq2] at hqper hqmin
  have hq0 : 0 < q := hqper.1
  have hx0 : 0 < x.length := List.length_pos.mpr hx
  have hqv := isPeriodOf_drop_chars x c q hqper
  have hP0 : 0 < P := hP.1
  by_cases he0 : P % q = 0
  · have hdvd : q ∣ P := Nat.dvd_of_mod_eq_zero he0
    obtain ⟨K, hK⟩ := hdvd
    obtain ⟨K', rfl⟩ : ∃ K', K = K' + 1 := by
      refine ⟨K - 1, ?_⟩
      rcases Nat.eq_zero_or_pos K with h0 | h1
      · rw [h0, Nat.mul_zero] at hK
        omega
      · omega
    have hKm : q * K' + q = P := by
      rw [hK]
      ring
    have hlocq : LocalAt x c q := by
      intro j hj hcj hjq
      have hjP : x.getD j 0 = x.getD (j + P) 0 := hP.2 j (by omega)
      have hchain := periodic_chain x c q x.length hqv K' (j + q) hcj (by omega)
      have e : j + q + q * K' = j + P := by omega
      rw [e] at hchain
      rw [hjP]
      exact hchain
    exact localAt_imp_period x hx0 q hq0 hlocq
  · exfalso
    have he1q : P % q < q := Nat.mod_lt _ hq0
    have he1pos : 0 < P % q := by omega
    have hKe : q * (P / q) + P % q = P := Nat.div_add_mod P q
    have hloce : LocalAt x c (P % q) := by
      intro j hj hcj hje
      have hjP : x.getD j 0 = x.getD (j + P) 0 := hP.2 j (by omega)
      have hchain := periodic_chain x c q x.length hqv (P / q) (j + P % q) hcj (by omega)
      have e : j + P % q + q * (P / q) = j + P := by omega
      rw [e] at hchain
      rw [hjP]
      exact hchain
    have hglobe : IsPeriodOf (P % q) x := localAt_imp_period x hx0 (P % q) he1pos hloce
    have := hqmin (P % q) (isPeriodOf_drop (P % q) x c hglobe)
    omega

/-- If the needle has a global period leaving room to the right of the
critical position, `Shift::forward` selects the `Small` regime. -/
lemma shift_small_of_global (x : List Byte) (hx : x ≠ []) (P : Nat)
    (hP : IsPeriodOf P x) (hcP : (forward_params x).2 + P < x.length) :
    Shift.forward x (forward_params x).1 (forward_params x).2 =
      Shift.Small (forward_params x).1 := by
  have hx0 : 0 < x.length := List.length_pos.mpr hx
  set q := (forward_params x).1 with hqdef
  set c := (forward_params x).2 with hcdef
  have hqglob : IsPeriodOf q x := global_gives_q_period x hx P hP hcP
  have hcq : c < q := period_gt_crit x hx0 q hqglob
  obtain ⟨kind, hq1, hq2⟩ := forward_params_descr x
  obtain ⟨hqper, hqmin⟩ := Suffix_forward_period_exact x hx kind
  rw [← hq1, ← hq2] at hqmin
  have hqP : q ≤ P := hqmin P (isPeriodOf_drop P x c hP)
  have h2c : ¬ (x.length ≤ c * 2) := by omega
  have hdropeq : ((x.drop c).take q).drop (q - c) = x.take c := by
    apply list_eq_of_getD
    · rw [List.length_drop, List.length_take, List.length_drop, List.length_take]
      omega
    · intro t ht
      rw [List.length_drop, List.length_take, List.length_drop] at ht
      rw [getD_drop, getD_take _ _ _ (by omega), getD_drop, getD_take _ _ _ (by omega)]
      have e : c + (q - c + t) = t + q := by omega
      rw [e]
      exact (hqglob.2 t (by omega)).symm
  have hsuf : x.take c <:+ (x.drop c).take q := by
    refine ⟨((x.drop c).take q).take (q - c), ?_⟩
    rw [← hdropeq]
    exact List.take_append_drop _ _
  rw [shift_forward_eq, if_neg h2c, if_pos hsuf]

/-- The character equalities carried by a successful `Small` check. -/
lemma small_check_chars (x : List Byte) (q c : Nat) (hc : c < x.length)
    (hqm : q ≤ x.length - c)
    (hsuf : x.take c <:+ (x.drop c).take q) :
    c ≤ q ∧ ∀ u, u < c → x.getD u 0 = x.getD (u + q) 0 := by
  obtain ⟨t, ht⟩ := hsuf
  have hlen := congrArg List.length ht
  rw [List.length_append, List.length_take, List.length_take, List.length_drop] at hlen
  have hcq : c ≤ q := by omega
  have htlen : t.length = q - c := by omega
  refine ⟨hcq, fun u hu => ?_⟩
  have h1 : (t ++ x.take c).getD (t.length + u) 0 = x.getD u 0 := by
    rw [getD_append_right_off, getD_take _ _ _ hu]
  have h2 : ((x.drop c).take q).getD (t.length + u) 0 = x.getD (u + q) 0 := by
    rw [htlen, getD_take _ _ _ (by omega), getD_drop]
    have e : c + (q - c + u) = u + q := by omega
    rw [e]
  rw [ht] at h1
  exact h1.symm.trans h2

/-- In the `Small` regime the construction period is the exact (minimal)
global period of the needle, the critical position is below it, their sum
fits in the needle, and the critical position is in the left half. -/
lemma small_regime_facts (x : List Byte) (hx : x ≠ [])
    (hS : Shift.forward x (forward_params x).1 (forward_params x).2 =
      Shift.Small (forward_params x).1) :
    IsPeriodOf (forward_params x).1 x ∧
    (∀ P, IsPeriodOf P x → (forward_params x).1 ≤ P) ∧
    (forward_params x).2 < (forward_params x).1 ∧
    (forward_params x).2 + (forward_params x).1 ≤ x.length ∧
    (forward_params x).2 * 2 < x.length := by
  have hx0 : 0 < x.length := List.length_pos.mpr hx
  obtain ⟨hcm, hq0, hqm⟩ := forward_params_bounds x hx0
  set q := (forward_params x).1 with hqdef
  set c := (forward_params x).2 with hcdef
  rw [shift_forward_eq] at hS
  by_cases h1 : x.length ≤ c * 2
  · rw [if_pos h1] at hS
    exact absurd hS (by simp)
  · rw [if_neg h1] at hS
    by_cases h2 : x.take c <:+ (x.drop c).take q
    · obtain ⟨hcq, hchars⟩ := small_check_chars x q c hcm hqm h2
      obtain ⟨kind, hk1, hk2⟩ := forward_params_descr x
      obtain ⟨hqper, hqmin⟩ := Suffix_forward_period_exact x hx kind
      rw [← hk1, ← hk2] at hqper hqmin
      have hqv := isPeriodOf_drop_chars x c q hqper
      have hqglob : IsPeriodOf q x := by
        refine ⟨hq0, fun i hi => ?_⟩
        rcases lt_or_ge i c with hic | hic
        · exact hchars i hic
        · exact hqv i hic hi
      have hmin : ∀ P, IsPeriodOf P x → q ≤ P :=
        fun P hP => hqmin P (isPeriodOf_drop P x c hP)
      have hcq' : c < q := period_gt_crit x hx0 q hqglob
      exact ⟨hqglob, hmin, hcq', by omega, by omega⟩
    · rw [if_neg h2] at hS
      exact absurd hS (by simp)

/-- In the `Large` regime the needle has no global period that leaves
room to the right of the critical position. -/
lemma large_regime_no_global (x : List Byte) (hx : x ≠ []) (sh : Nat)
    (hL : Shift.forward x (forward_params x).1 (forward_params x).2 = Shift.Large sh) :
    ∀ P, IsPeriodOf P x → x.length ≤ (forward_params x).2 + P := by
  intro P hP
  by_contra hcon
  push_neg at hcon
  have hsm := shift_small_of_global x hx P hP hcon
  rw [hsm] at hL
  exact absurd hL (by simp)

/-! ## No-skipped-match lemmas for the search loops -/

/-- An occurrence at distance `d` overlapping a verified right segment
yields the straddling local pairs at the critical position. -/
lemma occurrence_localAt (x h : List Byte) (c pos i d : Nat)
    (hagree : ∀ t, c ≤ t → t < i → x.getD t 0 = h.getD (pos + t) 0)
    (hM : MatchAt x h (pos + d)) (hd : 0 < d) (hdi : d + c ≤ i) (him : i ≤ x.length) :
    LocalAt x c d := by
  intro j hj hcj hjd
  have h1 : x.getD j 0 = h.getD (pos + d + j) 0 := (MatchAt_char hM j (by omega)).symm
  have h2 : x.getD (j + d) 0 = h.getD (pos + (j + d)) 0 :=
    hagree (j + d) (by omega) (by omega)
  rw [h1, h2]
  have e : pos + (j + d) = pos + d + j := by omega
  rw [e]

/-- Variant of `occurrence_localAt` for a fully verified right half. -/
lemma occurrence_localAt_full (x h : List Byte) (c pos d : Nat)
    (hragree : ∀ t, c ≤ t → t < x.length → x.getD t 0 = h.getD (pos + t) 0)
    (hM : MatchAt x h (pos + d)) (hd : 0 < d) (hcm : c < x.length) :
    LocalAt x c d := by
  intro j hj hcj hjd
  have h1 : x.getD j 0 = h.getD (pos + d + j) 0 := (MatchAt_char hM j (by omega)).symm
  have h2 : x.getD (j + d) 0 = h.getD (pos + (j + d)) 0 := hragree (j + d) hcj hjd
  rw [h1, h2]
  have e : pos + (j + d) = pos + d + j := by omega
  rw [e]

/-- Small regime, right-scan mismatch at `i`: no occurrence starts
within `(pos, pos + (i - c)]`. -/
lemma small_mismatch_skip (x h : List Byte) (c period pos i : Nat)
    (hl2g : ∀ r, 0 < r → LocalAt x c r → IsPeriodOf r x)
    (hglob : IsPeriodOf period x)
    (hminp : ∀ P, IsPeriodOf P x → period ≤ P)
    (hgc : ∀ P, IsPeriodOf P x → c < P)
    (hi1 : c ≤ i) (hi2 : i < x.length)
    (hagree : ∀ t, c ≤ t → t < i → x.getD t 0 = h.getD (pos + t) 0)
    (hmis : x.getD i 0 ≠ h.getD (pos + i) 0) :
    ∀ d, 0 < d → d ≤ i - c → ¬ MatchAt x h (pos + d) := by
  intro d hd0 hdc hM
  have hloc : LocalAt x c d :=
    occurrence_localAt x h c pos i d hagree hM hd0 (by omega) (by omega)
  have hdglob : IsPeriodOf d x := hl2g d hd0 hloc
  have hdP : period ≤ d := hminp d hdglob
  have hp0 : 0 < period := hglob.1
  have hcp : c < period := hgc period hglob
  by_cases hz : d % period = 0
  · obtain ⟨K, hK⟩ := Nat.dvd_of_mod_eq_zero hz
    have hper' : ∀ a, 0 ≤ a → a + period < x.length → x.getD a 0 = x.getD (a + period) 0 :=
      fun a _ ha => hglob.2 a ha
    have hchain := periodic_chain x 0 period x.length hper' K (i - d) (by omega) (by omega)
    have e : i - d + period * K = i := by omega
    rw [e] at hchain
    have hm2 : h.getD (pos + d + (i - d)) 0 = x.getD (i - d) 0 :=
      MatchAt_char hM (i - d) (by omega)
    have e2 : pos + d + (i - d) = pos + i := by omega
    rw [e2] at hm2
    exact hmis (by rw [hchain, ← hm2])
  · have he0p : 0 < d % period := by omega
    have he0q : d % period < period := Nat.mod_lt _ hp0
    have hKe : period * (d / period) + d % period = d := Nat.div_add_mod d period
    have hloce : LocalAt x c (d % period) := by
      intro j hj hcj hje
      have h1 : x.getD j 0 = x.getD (j + d) 0 := hloc j hj (by omega) (by omega)
      have hper' : ∀ a, c ≤ a → a + period < x.length → x.getD a 0 = x.getD (a + period) 0 :=
        fun a _ ha => hglob.2 a ha
      have hchain := periodic_chain x c period x.length hper' (d / period)
        (j + d % period) hcj (by omega)
      have e : j + d % period + period * (d / period) = j + d := by omega
      rw [e] at hchain
      rw [h1]
      exact hchain
    have := hminp (d % period) (hl2g (d % period) he0p hloce)
    omega

/-- Small regime, full right window verified: a shift by less than the
period skips no occurrence. -/
lemma small_period_skip (x h : List Byte) (c period pos : Nat)
    (hl2g : ∀ r, 0 < r → LocalAt x c r → IsPeriodOf r x)
    (hminp : ∀ P, IsPeriodOf P x → period ≤ P)
    (hcm : c < x.length)
    (hragree : ∀ t, c ≤ t → t < x.length → x.getD t 0 = h.getD (pos + t) 0) :
    ∀ d, 0 < d → d < period → ¬ MatchAt x h (pos + d) := by
  intro d hd0 hdp hM
  have hloc : LocalAt x c d := occurrence_localAt_full x h c pos d hragree hM hd0 hcm
  have := hminp d (hl2g d hd0 hloc)
  omega

/-- Large regime, right-scan mismatch at `i`: no occurrence starts
within `(pos, pos + (i - c)]`. -/
lemma large_mismatch_skip (x h : List Byte) (c pos i : Nat)
    (hl2g : ∀ r, 0 < r → LocalAt x c r → IsPeriodOf r x)
    (hnog : ∀ P, IsPeriodOf P x → x.length ≤ c + P)
    (hi2 : i < x.length) (hic : c ≤ i)
    (hagree : ∀ t, c ≤ t → t < i → x.getD t 0 = h.getD (pos + t) 0) :
    ∀ d, 0 < d → d ≤ i - c → ¬ MatchAt x h (pos + d) := by
  intro d hd0 hdc hM
  have hloc : LocalAt x c d :=
    occurrence_localAt x h c pos i d hagree hM hd0 (by omega) (by omega)
  have hdglob := hl2g d hd0 hloc
  have := hnog d hdglob
  omega

/-- Large regime, full right window verified but left check failed: the
large shift skips no occurrence. -/
lemma large_shift_skip (x h : List Byte) (c pos : Nat)
    (hl2g : ∀ r, 0 < r → LocalAt x c r → IsPeriodOf r x)
    (hnog : ∀ P, IsPeriodOf P x → x.length ≤ c + P)
    (hgc : ∀ P, IsPeriodOf P x → c < P)
    (hcm : c < x.length)
    (hragree : ∀ t, c ≤ t → t < x.length → x.getD t 0 = h.getD (pos + t) 0) :
    ∀ d, 0 < d → d < max c (x.length - c) → ¬ MatchAt x h (pos + d) := by
  intro d hd0 hdm hM
  have hloc : LocalAt x c d := occurrence_localAt_full x h c pos d hragree hM hd0 hcm
  have hdglob := hl2g d hd0 hloc
  have h1 := hnog d hdglob
  have h2 := hgc d hdglob
  omega

/-! ## Loop correctness (Claims C1 and C3) -/

/-- Correctness of the small-period loop: from any reachable state it
computes exactly the reference search from the current position. -/
lemma find_small_loop {σ : Type} (pre : PreOracle σ) (tw : TwoWay) (h x : List Byte)
    (period : Nat) (prefilter : Bool)
    (hm2 : 2 ≤ x.length)
    (hcm : tw.critical_pos < x.length)
    (hbs : tw.byteset = ApproximateByteSet.new x)
    (hl2g : ∀ r, 0 < r → LocalAt x tw.critical_pos r → IsPeriodOf r x)
    (hglob : IsPeriodOf period x)
    (hminp : ∀ P, IsPeriodOf P x → period ≤ P)
    (hgc : ∀ P, IsPeriodOf P x → tw.critical_pos < P)
    (hpm : period ≤ x.length)
    (hctr : prefilter = true → ∀ s' hay,
      (∀ k s'', pre.find s' hay x = some (k, s'') → ∀ j, j < k → ¬ MatchAt x hay j) ∧
      (pre.find s' hay x = none → ∀ j, ¬ MatchAt x hay j)) :
    ∀ fuel s pos shift0, 0 < fuel →
      h.length + 1 ≤ fuel + pos →
      shift0 + period ≤ x.length →
      (∀ t, t < shift0 → x.getD t 0 = h.getD (pos + t) 0) →
      find_small_imp pre tw h x period prefilter fuel s pos shift0 =
        ofOption (naive_find_from h x pos) := by
  have hxne : x ≠ [] := by
    intro hh
    rw [hh] at hm2
    simp at hm2
  have hp0 : 0 < period := hglob.1
  intro fuel
  induction fuel with
  | zero =>
    intro s pos shift0 h0
    exact absurd h0 (lt_irrefl 0)
  | succ fuel ih =>
    intro s pos shift0 _ hfuel hsh hmem
    simp only [find_small_imp]
    by_cases hguard : pos + x.length ≤ h.length
    · rw [if_pos hguard]
      have hfuel0 : 0 < fuel := by omega
      rcases hps : pre_step pre prefilter s h x pos with _ | ⟨pos1, s1, ran⟩
      · simp only [hps]
        have hno : ∀ j, pos ≤ j → ¬ MatchAt x h j :=
          pre_step_none_spec pre prefilter s h x pos hctr hps
        rw [naive_find_from_eq_none h x pos hno]
        rfl
      · obtain ⟨hpos1, hnomid, hranpos⟩ :=
          pre_step_some_spec pre prefilter s h x pos pos1 s1 ran hctr hps
        simp only [hps]
        rw [naive_find_from_congr_le h x pos pos1 hpos1 hnomid]
        set shiftv := if ran = true then 0 else shift0 with hshiftv
        set i0 := if ran = true then tw.critical_pos
          else max tw.critical_pos shift0 with hi0
        have hmemv : ∀ t, t < shiftv → x.getD t 0 = h.getD (pos1 + t) 0 := by
          rw [hshiftv]
          by_cases hr : ran = true
          · rw [if_pos hr]
            intro t ht
            exact absurd ht (by omega)
          · rw [if_neg hr]
            have hrf : ran = false := by
              revert hr
              cases ran <;> simp
            rw [hranpos hrf]
            exact hmem
        have hshv : shiftv + period ≤ x.length := by
          rw [hshiftv]
          by_cases hr : ran = true
          · rw [if_pos hr]
            omega
          · rw [if_neg hr]
            exact hsh
        have hi0c : tw.critical_pos ≤ i0 := by
          rw [hi0]
          by_cases hr : ran = true
          · rw [if_pos hr]
          · rw [if_neg hr]
            exact le_max_left _ _
        have hi0m : i0 < x.length := by
          rw [hi0]
          by_cases hr : ran = true
          · rw [if_pos hr]
            exact hcm
          · rw [if_neg hr]
            rcases max_cases tw.critical_pos shift0 with ⟨hmx, _⟩ | ⟨hmx, _⟩ <;> omega
        have hi0cover : ∀ t, tw.critical_pos ≤ t → t < i0 →
            x.getD t 0 = h.getD (pos1 + t) 0 := by
          intro t ht1 ht2
          rw [hi0] at ht2
          by_cases hr : ran = true
          · rw [if_pos hr] at ht2
            exact absurd (lt_of_le_of_lt ht1 ht2) (lt_irrefl _)
          · rw [if_neg hr] at ht2
            have hrf : ran = false := by
              revert hr
              cases ran <;> simp
            have ht3 : t < shift0 := by
              rcases max_cases tw.critical_pos shift0 with ⟨hmx, _⟩ | ⟨hmx, _⟩ <;> omega
            rw [hranpos hrf]
            exact hmem t ht3
        by_cases hbound : h.length < pos1 + x.length
        · rw [if_pos hbound]
          have hnone : naive_find_from h x pos1 = none := by
            apply naive_find_from_eq_none
            intro j hj hM
            have := MatchAt_length hxne hM
            omega
          rw [hnone]
          rfl
        · rw [if_neg hbound]
          have hbound' : pos1 + x.length ≤ h.length := by omega
          obtain ⟨lastb, hlast⟩ :=
            get?_some_of_lt (l := h) (i := pos1 + (x.length - 1)) (by omega)
          simp only [hlast]
          have hlastv : h.getD (pos1 + (x.length - 1)) 0 = lastb := getD_of_get? hlast
          by_cases hbyte : tw.byteset.contains lastb = true
          · simp only [hbyte, Bool.not_true, Bool.false_eq_true, if_false]
            obtain ⟨i, hieq, hii0, him, hiag, himis⟩ :=
              scan_up_spec x h pos1 x.length i0 le_rfl (by omega) (by omega)
            simp only [hieq]
            have hiagree : ∀ t, tw.critical_pos ≤ t → t < i →
                x.getD t 0 = h.getD (pos1 + t) 0 := by
              intro t ht1 ht2
              rcases lt_or_ge t i0 with hti | hti
              · exact hi0cover t ht1 hti
              · exact hiag t hti ht2
            by_cases him2 : i < x.length
            · rw [if_pos him2]
              have hmis : x.getD i 0 ≠ h.getD (pos1 + i) 0 := himis him2
              have hno2 : ∀ j, pos1 ≤ j →
                  j < pos1 + (i - tw.critical_pos + 1) → ¬ MatchAt x h j := by
                intro j hj1 hj2 hM
                rcases Nat.eq_or_lt_of_le hj1 with rfl | hj
                · exact hmis (MatchAt_char hM i him2).symm
                · have hd := small_mismatch_skip x h tw.critical_pos period pos1 i hl2g
                    hglob hminp hgc (by omega) him2 hiagree hmis (j - pos1)
                    (by omega) (by omega)
                  have e : pos1 + (j - pos1) = j := by omega
                  rw [e] at hd
                  exact hd hM
              rw [naive_find_from_congr_le h x pos1 (pos1 + (i - tw.critical_pos + 1))
                (by omega) hno2]
              exact ih s1 (pos1 + (i - tw.critical_pos + 1)) 0 hfuel0 (by omega)
                (by omega) (fun t ht => absurd ht (by omega))
            · rw [if_neg him2]
              have hragree : ∀ t, tw.critical_pos ≤ t → t < x.length →
                  x.getD t 0 = h.getD (pos1 + t) 0 := by
                intro t ht1 ht2
                exact hiagree t ht1 (by omega)
              obtain ⟨j, hjeq, hjc, hjag, hjmis⟩ :=
                scan_down_spec x h pos1 shiftv tw.critical_pos hcm (by omega)
              simp only [hjeq]
              have hshiftno : ¬ MatchAt x h pos1 →
                  find_small_imp pre tw h x period prefilter fuel s1 (pos1 + period)
                      (x.length - period) = ofOption (naive_find_from h x pos1) := by
                intro hnm
                have hno2 : ∀ jj, pos1 ≤ jj → jj < pos1 + period → ¬ MatchAt x h jj := by
                  intro jj hj1 hj2 hM
                  rcases Nat.eq_or_lt_of_le hj1 with rfl | hj
                  · exact hnm hM
                  · have hd := small_period_skip x h tw.critical_pos period pos1 hl2g
                      hminp hcm hragree (jj - pos1) (by omega) (by omega)
                    have e : pos1 + (jj - pos1) = jj := by omega
                    rw [e] at hd
                    exact hd hM
                rw [naive_find_from_congr_le h x pos1 (pos1 + period) (by omega) hno2]
                refine ih s1 (pos1 + period) (x.length - period) hfuel0 (by omega)
                  (by omega) ?_
                intro t ht
                have h1 : x.getD t 0 = x.getD (t + period) 0 := hglob.2 t (by omega)
                have hcp : tw.critical_pos < period := hgc period hglob
                have h2 : x.getD (t + period) 0 = h.getD (pos1 + (t + period)) 0 :=
                  hragree (t + period) (by omega) (by omega)
                have e : pos1 + (t + period) = pos1 + period + t := by omega
                rw [h1, h2, e]
              by_cases hjs : j ≤ shiftv
              · rw [if_pos hjs]
                obtain ⟨a, ha⟩ := get?_some_of_lt (l := x) (i := shiftv) (by omega)
                obtain ⟨b, hb⟩ := get?_some_of_lt (l := h) (i := pos1 + shiftv) (by omega)
                simp only [ha, hb]
                by_cases hab : a = b
                · rw [if_pos hab]
                  have hM : MatchAt x h pos1 := by
                    refine MatchAt_of_char (by omega) ?_
                    intro t ht
                    rcases lt_or_ge t shiftv with h1 | h1
                    · exact (hmemv t h1).symm
                    · rcases Nat.eq_or_lt_of_le h1 with rfl | h2
                      · rw [getD_of_get? hb, getD_of_get? ha]
                        exact hab.symm
                      · rcases lt_or_ge t tw.critical_pos with h3 | h3
                        · exact (hjag t (by omega) (by omega)).symm
                        · exact (hragree t h3 ht).symm
                  rw [naive_find_from_eq_some h x hxne pos1 hM]
                  rfl
                · rw [if_neg hab]
                  apply hshiftno
                  intro hM
                  have hc := MatchAt_char hM shiftv (by omega)
                  rw [getD_of_get? hb, getD_of_get? ha] at hc
                  exact hab hc.symm
              · rw [if_neg hjs]
                apply hshiftno
                intro hM
                have hc := MatchAt_char hM j (by omega)
                have hmisj := hjmis (by omega)
                exact hmisj hc.symm
          · have hbyte' : tw.byteset.contains lastb = false := by
              revert hbyte
              cases tw.byteset.contains lastb <;> simp
            simp only [hbyte', Bool.not_false, if_true]
            have hno2 : ∀ j, pos1 ≤ j → j < pos1 + x.length → ¬ MatchAt x h j := by
              intro j hj1 hj2 hM
              have hchar := MatchAt_char hM (pos1 + (x.length - 1) - j) (by omega)
              have e : j + (pos1 + (x.length - 1) - j) = pos1 + (x.length - 1) := by omega
              rw [e, hlastv] at hchar
              have hmem2 : lastb ∈ x := by
                rw [hchar]
                have hlt : pos1 + (x.length - 1) - j < x.length := by omega
                rw [List.getD_eq_getElem _ _ hlt]
                exact List.getElem_mem hlt
              have hcont := byteset_contains_of_mem x lastb hmem2
              rw [hbs, hcont] at hbyte'
              exact Bool.noConfusion hbyte'
            rw [naive_find_from_congr_le h x pos1 (pos1 + x.length) (by omega) hno2]
            exact ih s1 (pos1 + x.length) 0 hfuel0 (by omega) (by omega)
              (fun t ht => absurd ht (by omega))
    · rw [if_neg hguard]
      have hnone : naive_find_from h x pos = none := by
        apply naive_find_from_eq_none
        intro j hj hM
        have := MatchAt_length hxne hM
        omega
      rw [hnone]
      rfl

/-- Correctness of the large-period loop: from any reachable state it
computes exactly the reference search from the current position. -/
lemma find_large_loop {σ : Type} (pre : PreOracle σ) (tw : TwoWay) (h x : List Byte)
    (shiftp : Nat) (prefilter : Bool)
    (hm2 : 2 ≤ x.length)
    (hcm : tw.critical_pos < x.length)
    (hbs : tw.byteset = ApproximateByteSet.new x)
    (hl2g : ∀ r, 0 < r → LocalAt x tw.critical_pos r → IsPeriodOf r x)
    (hnog : ∀ P, IsPeriodOf P x → x.length ≤ tw.critical_pos + P)
    (hgc : ∀ P, IsPeriodOf P x → tw.critical_pos < P)
    (hshp : shiftp = max tw.critical_pos (x.length - tw.critical_pos))
    (hctr : prefilter = true → ∀ s' hay,
      (∀ k s'', pre.find s' hay x = some (k, s'') → ∀ j, j < k → ¬ MatchAt x hay j) ∧
      (pre.find s' hay x = none → ∀ j, ¬ MatchAt x hay j)) :
    ∀ fuel s pos, 0 < fuel →
      h.length + 1 ≤ fuel + pos →
      find_large_imp pre tw h x shiftp prefilter fuel s pos =
        ofOption (naive_find_from h x pos) := by
  have hxne : x ≠ [] := by
    intro hh
    rw [hh] at hm2
    simp at hm2
  have hsh0 : 0 < shiftp := by
    rw [hshp]
    rcases max_cases tw.critical_pos (x.length - tw.critical_pos) with ⟨hmx, _⟩ | ⟨hmx, _⟩ <;>
      omega
  intro fuel
  induction fuel with
  | zero =>
    intro s pos h0
    exact absurd h0 (lt_irrefl 0)
  | succ fuel ih =>
    intro s pos _ hfuel
    simp only [find_large_imp]
    by_cases hguard : pos + x.length ≤ h.length
    · rw [if_pos hguard]
      have hfuel0 : 0 < fuel := by omega
      rcases hps : pre_step pre prefilter s h x pos with _ | ⟨pos1, s1, ran⟩
      · simp only [hps]
        have hno : ∀ j, pos ≤ j → ¬ MatchAt x h j :=
          pre_step_none_spec pre prefilter s h x pos hctr hps
        rw [naive_find_from_eq_none h x pos hno]
        rfl
      · obtain ⟨hpos1, hnomid, hranpos⟩ :=
          pre_step_some_spec pre prefilter s h x pos pos1 s1 ran hctr hps
        simp only [hps]
        rw [naive_find_from_congr_le h x pos pos1 hpos1 hnomid]
        by_cases hbound : h.length < pos1 + x.length
        · rw [if_pos hbound]
          have hnone : naive_find_from h x pos1 = none := by
            apply naive_find_from_eq_none
            intro j hj hM
            have := MatchAt_length hxne hM
            omega
          rw [hnone]
          rfl
        · rw [if_neg hbound]
          have hbound' : pos1 + x.length ≤ h.length := by omega
          obtain ⟨lastb, hlast⟩ :=
            get?_some_of_lt (l := h) (i := pos1 + (x.length - 1)) (by omega)
          simp only [hlast]
          have hlastv : h.getD (pos1 + (x.length - 1)) 0 = lastb := getD_of_get? hlast
          by_cases hbyte : tw.byteset.contains lastb = true
          · simp only [hbyte, Bool.not_true, Bool.false_eq_true, if_false]
            obtain ⟨i, hieq, hii0, him, hiag, himis⟩ :=
              scan_up_spec x h pos1 x.length tw.critical_pos le_rfl (by omega) (by omega)
            simp only [hieq]
            by_cases him2 : i < x.length
            · rw [if_pos him2]
              have hmis : x.getD i 0 ≠ h.getD (pos1 + i) 0 := himis him2
              have hno2 : ∀ j, pos1 ≤ j →
                  j < pos1 + (i - tw.critical_pos + 1) → ¬ MatchAt x h j := by
                intro j hj1 hj2 hM
                rcases Nat.eq_or_lt_of_le hj1 with rfl | hj
                · exact hmis (MatchAt_char hM i him2).symm
                · have hd := large_mismatch_skip x h tw.critical_pos pos1 i hl2g hnog
                    him2 hii0 hiag (j - pos1) (by omega) (by omega)
                  have e : pos1 + (j - pos1) = j := by omega
                  rw [e] at hd
                  exact hd hM
              rw [naive_find_from_congr_le h x pos1 (pos1 + (i - tw.critical_pos + 1))
                (by omega) hno2]
              exact ih s1 (pos1 + (i - tw.critical_pos + 1)) hfuel0 (by omega)
            · rw [if_neg him2]
              have hragree : ∀ t, tw.critical_pos ≤ t → t < x.length →
                  x.getD t 0 = h.getD (pos1 + t) 0 := by
                intro t ht1 ht2
                exact hiag t ht1 (by omega)
              obtain ⟨ok, hokeq, hoktrue, hokfalse⟩ :=
                check_left_spec x h pos1 tw.critical_pos (by omega) (by omega)
              simp only [hokeq]
              by_cases hok : ok = true
              · rw [if_pos hok]
                have hM : MatchAt x h pos1 := by
                  refine MatchAt_of_char (by omega) ?_
                  intro t ht
                  rcases lt_or_ge t tw.critical_pos with h3 | h3
                  · exact (hoktrue hok t h3).symm
                  · exact (hragree t h3 ht).symm
                rw [naive_find_from_eq_some h x hxne pos1 hM]
                rfl
              · rw [if_neg hok]
                have hok' : ok = false := by
                  revert hok
                  cases ok <;> simp
                obtain ⟨t0, ht0c, ht0ne⟩ := hokfalse hok'
                have hno2 : ∀ jj, pos1 ≤ jj → jj < pos1 + shiftp → ¬ MatchAt x h jj := by
                  intro jj hj1 hj2 hM
                  rcases Nat.eq_or_lt_of_le hj1 with rfl | hj
                  · exact ht0ne (MatchAt_char hM t0 (by omega)).symm
                  · have hd := large_shift_skip x h tw.critical_pos pos1 hl2g hnog hgc
                      hcm hragree (jj - pos1) (by omega) (by rw [← hshp]; omega)
                    have e : pos1 + (jj - pos1) = jj := by omega
                    rw [e] at hd
                    exact hd hM
                rw [naive_find_from_congr_le h x pos1 (pos1 + shiftp) (by omega) hno2]
                exact ih s1 (pos1 + shiftp) hfuel0 (by omega)
          · have hbyte' : tw.byteset.contains lastb = false := by
              revert hbyte
              cases tw.byteset.contains lastb <;> simp
            simp only [hbyte', Bool.not_false, if_true]
            have hno2 : ∀ j, pos1 ≤ j → j < pos1 + x.length → ¬ MatchAt x h j := by
              intro j hj1 hj2 hM
              have hchar := MatchAt_char hM (pos1 + (x.length - 1) - j) (by omega)
              have e : j + (pos1 + (x.length - 1) - j) = pos1 + (x.length - 1) := by omega
              rw [e, hlastv] at hchar
              have hmem2 : lastb ∈ x := by
                rw [hchar]
                have hlt : pos1 + (x.length - 1) - j < x.length := by omega
                rw [List.getD_eq_getElem _ _ hlt]
                exact List.getElem_mem hlt
              have hcont := byteset_contains_of_mem x lastb hmem2
              rw [hbs, hcont] at hbyte'
              exact Bool.noConfusion hbyte'
            rw [naive_find_from_congr_le h x pos1 (pos1 + x.length) (by omega) hno2]
            exact ih s1 (pos1 + x.length) hfuel0 (by omega)
    · rw [if_neg hguard]
      have hnone : naive_find_from h x pos = none := by
        apply naive_find_from_eq_none
        intro j hj hM
        have := MatchAt_length hxne hM
        omega
      rw [hnone]
      rfl

lemma Forward_new_byteset (needle : List Byte) (h : 0 < needle.length) :
    (Forward.new needle).byteset = ApproximateByteSet.new needle := by
  cases needle with
  | nil => simp at h
  | cons a l => rfl

/-- The Two-Way core on the constructed searcher equals the reference
search, for a sound or never-engaged prefilter oracle. -/
lemma find_with_imp_eq {σ : Type} (pre : PreOracle σ) (s : σ) (x h : List Byte)
    (hx2 : 2 ≤ x.length)
    (hS : PreOracle.Sound pre ∨ ∀ s', pre.is_effective s' = false) :
    find_with_imp pre s (Forward.new x) h x = ofOption (naive_find h x) := by
  have hx0 : 0 < x.length := by omega
  have hxne : x ≠ [] := by
    intro hh
    rw [hh] at hx2
    simp at hx2
  have hcrit := Forward_new_crit x hx0
  have hcm : (Forward.new x).critical_pos < x.length := by
    rw [hcrit]
    exact (forward_params_bounds x hx0).1
  have hbs := Forward_new_byteset x hx0
  have hl2g : ∀ r, 0 < r → LocalAt x (Forward.new x).critical_pos r → IsPeriodOf r x := by
    rw [hcrit]
    exact fun r hr hloc => localAt_imp_period x hx0 r hr hloc
  have hgcf : ∀ P, IsPeriodOf P x → (Forward.new x).critical_pos < P := by
    rw [hcrit]
    exact fun P hP => period_gt_crit x hx0 P hP
  have hctrT : should_prefilter pre s h x = true → ∀ s' hay,
      (∀ k s'', pre.find s' hay x = some (k, s'') → ∀ j, j < k → ¬ MatchAt x hay j) ∧
      (pre.find s' hay x = none → ∀ j, ¬ MatchAt x hay j) := by
    intro hsp s' hay
    rcases hS with hSound | hIneff
    · exact hSound s' hay x
    · exfalso
      rw [should_prefilter, hIneff s] at hsp
      simp at hsp
  rcases hshift : (Forward.new x).shift with p | sh
  · have hshift' : Shift.forward x (forward_params x).1 (forward_params x).2 =
        Shift.Small p := by
      rw [← Forward_new_shift x hx0]
      exact hshift
    have hpq : p = (forward_params x).1 := Shift_forward_small_period x _ _ _ hshift'
    subst hpq
    obtain ⟨hglob, hminp, hcq, hcpm, h2c⟩ := small_regime_facts x hxne hshift'
    simp only [find_with_imp, hshift]
    by_cases hpre : should_prefilter pre s h x = true
    · rw [if_pos hpre, naive_find]
      exact find_small_loop pre (Forward.new x) h x _ true hx2 hcm hbs hl2g hglob hminp
        hgcf (by omega) (fun _ => hctrT hpre) (h.length + 1) s 0 0 (by omega) (by omega)
        (by omega) (fun t ht => absurd ht (by omega))
    · rw [if_neg hpre, naive_find]
      exact find_small_loop pre (Forward.new x) h x _ false hx2 hcm hbs hl2g hglob hminp
        hgcf (by omega) (fun hh => Bool.noConfusion hh) (h.length + 1) s 0 0 (by omega)
        (by omega) (by omega) (fun t ht => absurd ht (by omega))
  · have hshift' : Shift.forward x (forward_params x).1 (forward_params x).2 =
        Shift.Large sh := by
      rw [← Forward_new_shift x hx0]
      exact hshift
    have hshv : sh = max (forward_params x).2 (x.length - (forward_params x).2) :=
      Shift_forward_large_shift x _ _ _ hshift'
    have hnog' : ∀ P, IsPeriodOf P x → x.length ≤ (Forward.new x).critical_pos + P := by
      rw [hcrit]
      exact large_regime_no_global x hxne sh hshift'
    simp only [find_with_imp, hshift]
    by_cases hpre : should_prefilter pre s h x = true
    · rw [if_pos hpre, naive_find]
      exact find_large_loop pre (Forward.new x) h x sh true hx2 hcm hbs hl2g hnog' hgcf
        (by rw [hcrit]; exact hshv) (fun _ => hctrT hpre) (h.length + 1) s 0 (by omega)
        (by omega)
    · rw [if_neg hpre, naive_find]
      exact find_large_loop pre (Forward.new x) h x sh false hx2 hcm hbs hl2g hnog' hgcf
        (by rw [hcrit]; exact hshv) (fun hh => Bool.noConfusion hh) (h.length + 1) s 0
        (by omega) (by omega)

/-- `Forward::find_with` on the constructed searcher equals the
reference search, for a sound or never-engaged prefilter oracle. -/
lemma find_with_eq {σ : Type} (pre : PreOracle σ) (s : σ) (x h : List Byte)
    (hS : PreOracle.Sound pre ∨ ∀ s', pre.is_effective s' = false) :
    Forward.find_with pre s (Forward.new x) h = ofOption (naive_find h x) := by
  simp only [Forward.find_with, Forward_new_needle]
  by_cases hm1 : x.length ≤ 1
  · rw [if_pos hm1]
    by_cases hemp : x.isEmpty = true
    · rw [if_pos hemp]
      have hxe : x = [] := by
        cases x with
        | nil => rfl
        | cons a l => simp at hemp
      subst hxe
      rw [naive_find, naive_find_from, dif_pos (by simp), if_pos (by simp)]
      rfl
    · rw [if_neg hemp]
      obtain ⟨b, hb⟩ : ∃ b, x = [b] := by
        cases x with
        | nil => simp at hemp
        | cons a l =>
          cases l with
          | nil => exact ⟨a, rfl⟩
          | cons c l2 => simp at hm1
      subst hb
      rw [show ([b] : List Byte).getD 0 0 = b from rfl, memchr_eq_naive]
  · rw [if_neg hm1]
    have hxne : x ≠ [] := by
      intro hh
      rw [hh] at hm1
      simp at hm1
    by_cases hsh : h.length < x.length
    · rw [if_pos hsh]
      rw [naive_find, naive_find_from_eq_none h x 0 ?_]
      · rfl
      · intro j hj hM
        have := MatchAt_length hxne hM
        omega
    · rw [if_neg hsh]
      by_cases hrk : h.length < min_prefilter_len h x
      · rw [if_pos hrk]
        rfl
      · rw [if_neg hrk]
        exact find_with_imp_eq pre s x h (by omega) hS

lemma trivialOracle_sound : PreOracle.Sound trivialOracle := by
  intro s hay ndl
  constructor
  · intro k s' hfind j hj hM
    have hk : 0 = k := by
      have hp := Option.some.inj hfind
      exact congrArg Prod.fst hp
    omega
  · intro hnone
    exact absurd hnone (by simp [trivialOracle])

/-! ## Claim C1 -/

/-- C1: for every needle and haystack, and every prefilter oracle
satisfying the soundness contract, the forward search returns `found i`
only if the needle matches at `i` and at no smaller index; if any match
exists it returns a `found` at or before it; and it returns `nomatch`
exactly when the needle does not occur. -/
theorem c1_forward_find_correct {σ : Type} (pre : PreOracle σ) (s : σ)
    (needle haystack : List Byte) (hS : PreOracle.Sound pre) :
    (∀ i, Forward.find_with pre s (Forward.new needle) haystack = .found i →
      MatchAt needle haystack i ∧ ∀ j, j < i → ¬ MatchAt needle haystack j) ∧
    (∀ i, MatchAt needle haystack i →
      ∃ i', i' ≤ i ∧
        Forward.find_with pre s (Forward.new needle) haystack = .found i') ∧
    (Forward.find_with pre s (Forward.new needle) haystack = .nomatch ↔
      ∀ i, ¬ MatchAt needle haystack i) := by
  have heq := find_with_eq pre s needle haystack (Or.inl hS)
  rw [heq, naive_find]
  rcases hn : naive_find_from haystack needle 0 with _ | j
  · have hxne : needle ≠ [] := by
      intro hh
      subst hh
      rw [naive_find_from, dif_pos (by simp), if_pos (by simp)] at hn
      exact Option.noConfusion hn
    have hno : ∀ i, ¬ MatchAt needle haystack i :=
      fun i => naive_find_from_none haystack needle hxne 0 hn i (by omega)
    refine ⟨?_, ?_, ?_⟩
    · intro i hfound
      exact absurd hfound (by simp [ofOption])
    · intro i hM
      exact absurd hM (hno i)
    · exact ⟨fun _ i => hno i, fun _ => rfl⟩
  · obtain ⟨_, hMj, hminj⟩ := naive_find_from_some haystack needle 0 j hn
    refine ⟨?_, ?_, ?_⟩
    · intro i hfound
      have hij : j = i := by
        simpa [ofOption] using hfound
      subst hij
      exact ⟨hMj, fun j' hj' => hminj j' (by omega) hj'⟩
    · intro i hM
      refine ⟨j, ?_, rfl⟩
      by_contra hcon
      push_neg at hcon
      exact hminj i (by omega) hcon hM
    · constructor
      · intro hcon
        exact absurd hcon (by simp [ofOption])
      · intro hall
        exact absurd hMj (hall j)

/-- Witness for C1: the sound trivial oracle, needle `[1, 0]`, haystack
`[0, 1, 0]`. -/
theorem c1_forward_find_correct_witness :
    PreOracle.Sound trivialOracle ∧
    ((∀ i, Forward.find_with trivialOracle () (Forward.new [1, 0]) [0, 1, 0] = .found i →
      MatchAt [1, 0] [0, 1, 0] i ∧ ∀ j, j < i → ¬ MatchAt [1, 0] [0, 1, 0] j) ∧
    (∀ i, MatchAt [1, 0] [0, 1, 0] i →
      ∃ i', i' ≤ i ∧
        Forward.find_with trivialOracle () (Forward.new [1, 0]) [0, 1, 0] = .found i') ∧
    (Forward.find_with trivialOracle () (Forward.new [1, 0]) [0, 1, 0] = .nomatch ↔
      ∀ i, ¬ MatchAt [1, 0] [0, 1, 0] i)) :=
  ⟨trivialOracle_sound,
    c1_forward_find_correct trivialOracle () [1, 0] [0, 1, 0] trivialOracle_sound⟩

/-! ## Claim C3 -/

/-- C3: the forward search result is identical whether the searcher
consults a (sound) constructed prefilter — configuration `Auto` — or the
inert prefilter — configuration `None` — for every needle and haystack.
-/
theorem c3_prefilter_invariance {σ : Type} (pre : PreOracle σ) (s : σ)
    (needle haystack : List Byte) (hS : PreOracle.Sound pre) :
    Forward.find_with pre s (Forward.new needle) haystack =
      Forward.find_with inertOracle () (Forward.new needle) haystack := by
  rw [find_with_eq pre s needle haystack (Or.inl hS),
    find_with_eq inertOracle () needle haystack (Or.inr (fun _ => rfl))]

/-- Witness for C3: the sound trivial oracle, needle `[1, 0]`, haystack
`[0, 1, 0]`. -/
theorem c3_prefilter_invariance_witness :
    PreOracle.Sound trivialOracle ∧
    Forward.find_with trivialOracle () (Forward.new [1, 0]) [0, 1, 0] =
      Forward.find_with inertOracle () (Forward.new [1, 0]) [0, 1, 0] :=
  ⟨trivialOracle_sound,
    c3_prefilter_invariance trivialOracle () [1, 0] [0, 1, 0] trivialOracle_sound⟩

/-! ## Claim C2 -/

/-- C2: the reverse searcher misses an occurrence.  For the needle
`[0,1,0,1]` and haystack `[0,1,0,1,0,0]` the needle occurs at index 0
(and nowhere else), yet `rfind` returns no match: in
`rfind_small_imp`, after a period shift sets `shift = period = 2`, the
success test `j == shift` can never hold because `j` starts at
`critical_pos = 3 > shift`, so the aligned occurrence is rejected.
(Upstream memchr uses `j >= shift` here.) -/
theorem c2_rfind_misses_match :
    Reverse.rfind (Reverse.new [0, 1, 0, 1]) [0, 1, 0, 1, 0, 0] = SearchResult.nomatch ∧
    MatchAt [0, 1, 0, 1] [0, 1, 0, 1, 0, 0] 0 := by
  refine ⟨by decide, by decide⟩

end Twoway
